import Mathlib

/-!
Verification of the dynagrad expression-graph automatic-differentiation engine
(`src/core.rs`, `src/valtype.rs`).

Shallow embedding conventions:
* `ValType` (a tagged union over `f32`/`f64`/`i32`/`i64`) is modelled by `VT`
  with exact `ℚ`/`ℤ` payloads; floating-point rounding is not modelled, so
  `f32` arithmetic is exact rational arithmetic.
* The transcendental primitives (`sin`, `cos`, `tan`, `exp`, `ln`, `powf`)
  are not algebraically specified by the code; they are taken as parameters
  in a `FloatFns` record, so theorems about structure (result variants,
  coercions, graph algorithms on `Add`/`Mul`) hold for every interpretation.
* The `Rc<RefCell<VWrap>>` pointer graph is modelled by an arena: a list of
  nodes addressed by index; `PtrVWrap` handles become indices, interior
  mutability becomes explicit state passing of the arena.
* Rust panics (`panic!`, `assert!`, `.expect`) become `Except Err` errors;
  recursion over the mutable graph uses explicit fuel, with a distinguished
  `Err.fuelOut` that the Rust original (which cannot run out of fuel) never
  produces.
* Adjoint-expression nodes freshly allocated by `rev()` and the operator
  `adjoint()` rules are modelled by the inductive `AdjExpr` (they are trees
  of fresh nodes whose leaves are references into the original arena, and
  they are never mutated after construction, so a tree model is faithful).
-/

/-- Model of `ValType` from `src/valtype.rs`: `F(f32) | D(f64) | I(i32) | L(i64)`. -/
inductive VT where
  | F : ℚ → VT
  | D : ℚ → VT
  | I : ℤ → VT
  | L : ℤ → VT
deriving DecidableEq

/-- Failure modes of the engine (Rust panics / `expect`s), plus the
fuel-exhaustion artifact of the embedding. -/
inductive Err where
  | fuelOut : Err
  | oob : Err
  | leafValueMissing : Err
  | typeNotSupported : Err
  | arityMismatch : Err
  | adjAccumEmpty : Err
  | leafAdjointMissing : Err
deriving DecidableEq

/-- Parameters for the floating-point transcendental primitives used by the
code (`f32::sin`, `f64::sin`, `f32::powf`, ...); the code's structure does not
depend on their values. -/
structure FloatFns where
  sin32 : ℚ → ℚ
  cos32 : ℚ → ℚ
  tan32 : ℚ → ℚ
  exp32 : ℚ → ℚ
  ln32 : ℚ → ℚ
  pow32 : ℚ → ℚ → ℚ
  sin64 : ℚ → ℚ
  cos64 : ℚ → ℚ
  tan64 : ℚ → ℚ

/-- A concrete interpretation (all primitives zero) used for closed examples. -/
def ffZero : FloatFns :=
  ⟨fun _ => 0, fun _ => 0, fun _ => 0, fun _ => 0, fun _ => 0,
   fun _ _ => 0, fun _ => 0, fun _ => 0, fun _ => 0⟩

/-- An interpretation whose `f32` cosine is constantly `1`, used to separate
the forward and reverse derivative graphs of `Sin`. -/
def ffCosOne : FloatFns :=
  ⟨fun _ => 0, fun _ => 1, fun _ => 0, fun _ => 0, fun _ => 0,
   fun _ _ => 0, fun _ => 0, fun _ => 0, fun _ => 0⟩

/-- Model of `impl From<ValType> for f32` from `src/valtype.rs`:
every variant is cast to `f32`. -/
def toF32 : VT → ℚ
  | .F x => x
  | .D x => x
  | .I n => (n : ℚ)
  | .L n => (n : ℚ)

/-- Is a value of the `F` (f32) variant? -/
def isF : VT → Bool
  | .F _ => true
  | _ => false

/-- The operator tags of the engine (`OpLeaf`, `OpConst`, `OpOne`, `OpZero`,
`OpLink`, `OpAdd`, `OpMul`, `OpDiv`, `OpPow`, `OpSin`, `OpCos`, `OpTan`,
`OpExp`, `OpLn` in `src/core.rs`). -/
inductive Op where
  | leaf | const | one | zero | link
  | add | mul | div | pow
  | sin | cos | tan | exp | ln
deriving DecidableEq

/-- The threshold `1e-15` appearing in `OpPow::f`, read as an exact rational. -/
def powEps : ℚ := 1 / 1000000000000000

/-- Model of the `f()` evaluation rule of each operator (`FWrap::f`
implementations in `src/core.rs`).  Arguments are `(value, eval_g)` pairs of
the already-evaluated inputs, `v` is the node's own stored value (read only
by `OpLeaf`/`OpConst`).  Rust `assert!`/`panic!`/`expect` become errors. -/
def opF (ff : FloatFns) (o : Op) (args : List (VT × Bool)) (v : Option VT) :
    Except Err VT :=
  match o with
  | .mul =>
    -- OpMul::f: assert!(x.len() == 2) then match on the pair of variants
    match args with
    | [(a, _), (b, _)] =>
      match a, b with
      | .F v0, .F v1 => .ok (.F (v0 * v1))
      | .I v0, .I v1 => .ok (.I (v0 * v1))
      | .F v0, .I v1 => .ok (.F (v0 * (v1 : ℚ)))
      | .I v0, .F v1 => .ok (.F ((v0 : ℚ) * v1))
      | _, _ => .error .typeNotSupported
    | _ => .error .arityMismatch
  | .add =>
    -- OpAdd::f: assert_eq!(x.len(), 2); only (F,F) and (I,I) are accepted
    match args with
    | [(a, _), (b, _)] =>
      match a, b with
      | .F v0, .F v1 => .ok (.F (v0 + v1))
      | .I v0, .I v1 => .ok (.I (v0 + v1))
      | _, _ => .error .typeNotSupported
    | _ => .error .arityMismatch
  | .leaf =>
    -- OpLeaf::f: ignore inputs, v.expect("leaf value missing")
    match v with
    | some w => .ok w
    | none => .error .leafValueMissing
  | .const =>
    -- OpConst::f: identical to OpLeaf::f
    match v with
    | some w => .ok w
    | none => .error .leafValueMissing
  | .one => .ok (.F 1)
  | .zero => .ok (.F 0)
  | .link =>
    -- OpLink::f: assert!(x.len() == 1); 1.0 if the linked input's eval_g else 0.0
    match args with
    | [(_, g)] => .ok (if g then .F 1 else .F 0)
    | _ => .error .arityMismatch
  | .sin =>
    -- OpSin::f: F stays f32, D stays f64, integers are cast to f32
    match args with
    | [(a, _)] =>
      match a with
      | .F v0 => .ok (.F (ff.sin32 v0))
      | .D v0 => .ok (.D (ff.sin64 v0))
      | .I v0 => .ok (.F (ff.sin32 (v0 : ℚ)))
      | .L v0 => .ok (.F (ff.sin32 (v0 : ℚ)))
    | _ => .error .arityMismatch
  | .cos =>
    match args with
    | [(a, _)] =>
      match a with
      | .F v0 => .ok (.F (ff.cos32 v0))
      | .D v0 => .ok (.D (ff.cos64 v0))
      | .I v0 => .ok (.F (ff.cos32 (v0 : ℚ)))
      | .L v0 => .ok (.F (ff.cos32 (v0 : ℚ)))
    | _ => .error .arityMismatch
  | .tan =>
    match args with
    | [(a, _)] =>
      match a with
      | .F v0 => .ok (.F (ff.tan32 v0))
      | .D v0 => .ok (.D (ff.tan64 v0))
      | .I v0 => .ok (.F (ff.tan32 (v0 : ℚ)))
      | .L v0 => .ok (.F (ff.tan32 (v0 : ℚ)))
    | _ => .error .arityMismatch
  | .pow =>
    -- OpPow::f: both operands coerced to f32; near-zero exponent guard
    match args with
    | [(a, _), (b, _)] =>
      let base := toF32 a
      let expo := toF32 b
      if expo < powEps ∧ -powEps < expo then .ok (.F 1)
      else .ok (.F (ff.pow32 base expo))
    | _ => .error .arityMismatch
  | .exp =>
    match args with
    | [(a, _)] => .ok (.F (ff.exp32 (toF32 a)))
    | _ => .error .arityMismatch
  | .ln =>
    match args with
    | [(a, _)] => .ok (.F (ff.ln32 (toF32 a)))
    | _ => .error .arityMismatch
  | .div =>
    -- OpDiv::f: both operands coerced to f32, then divided
    match args with
    | [(a, _), (b, _)] => .ok (.F (toF32 a / toF32 b))
    | _ => .error .arityMismatch

/-- Adjoint-accumulation expressions: the fresh nodes allocated during
`rev()` and by the operators' `adjoint()` rules.  They form trees whose
leaves either are constants or point back (`ref`) into the original arena;
after construction they are only evaluated, never mutated, which makes the
tree model of these freshly-allocated `VWrap` nodes faithful.
* `ref i` — an input handle `inputs[k]` of the original graph;
* `one` — `VWrap::new(OpOne::new())` (the `rev` seed);
* `zero` — `VWrap::new(OpZero::new())` / `new_with_val(OpZero, F(0.))`;
* `constE c` — `VWrap::new_with_val(OpConst::new(), ValType::F(c))`;
* the remaining constructors are the public operator constructors
  (`Add`, `Mul`, `Div`, `Pow`, `Sin`, `Cos`, `Exp`, `Ln`) applied to
  freshly built nodes. -/
inductive AdjExpr where
  | ref : ℕ → AdjExpr
  | one : AdjExpr
  | zero : AdjExpr
  | constE : ℚ → AdjExpr
  | aadd : AdjExpr → AdjExpr → AdjExpr
  | amul : AdjExpr → AdjExpr → AdjExpr
  | adiv : AdjExpr → AdjExpr → AdjExpr
  | apow : AdjExpr → AdjExpr → AdjExpr
  | asin : AdjExpr → AdjExpr
  | acos : AdjExpr → AdjExpr
  | aexp : AdjExpr → AdjExpr
  | alog : AdjExpr → AdjExpr
deriving DecidableEq

/-- Model of `VWrap` (`src/core.rs`): input dependencies, operator tag,
cached value, forward-seed flag, adjoint accumulator. -/
structure Node where
  op : Op
  inp : List ℕ
  val : Option VT
  evalG : Bool
  adj : Option AdjExpr
deriving DecidableEq

/-- The heap of nodes; a `PtrVWrap` handle is an index into this list. -/
abbrev Arena := List Node

/-- Read a node (a dereference of a handle; cannot fail in Rust). -/
def getN (g : Arena) (n : ℕ) : Option Node := g.get? n

/-- Mutate the node behind a handle (`borrow_mut` followed by a field
write); a no-op on an out-of-range index, which Rust handles cannot be. -/
def modifyN (g : Arena) (n : ℕ) (f : Node → Node) : Arena :=
  match g.get? n with
  | some nd => g.set n (f nd)
  | none => g

/-- Model of `PtrVWrap::set_val`: overwrite the stored value with `Some v`. -/
def setVal (g : Arena) (n : ℕ) (v : VT) : Arena :=
  modifyN g n (fun nd => { nd with val := some v })

/-- Internal: overwrite the cached value during evaluation
(`self.0.deref().borrow_mut().val = Some(v)`). -/
def writeVal (g : Arena) (n : ℕ) (v : VT) : Arena :=
  modifyN g n (fun nd => { nd with val := some v })

/-- Overwrite the adjoint accumulator of a node. -/
def setAdj (g : Arena) (n : ℕ) (a : Option AdjExpr) : Arena :=
  modifyN g n (fun nd => { nd with adj := a })

/-- The adjoint accumulator of a node (`None` for an out-of-range index,
which cannot arise from the Rust code). -/
def adjOf (g : Arena) (n : ℕ) : Option AdjExpr :=
  match g.get? n with
  | some nd => nd.adj
  | none => none

/-- The `eval_g` flag of a node. -/
def evalGOf (g : Arena) (n : ℕ) : Bool :=
  match g.get? n with
  | some nd => nd.evalG
  | none => false

mutual
/-- Model of `PtrVWrap::apply_fwd` (`src/core.rs` lines 138-152): post-order
recursive evaluation.  Each input is evaluated recursively and paired with
its `eval_g` flag; the node's `f()` rule is applied to the collected pairs
and the node's own stored value; the result is cached into `val` and
returned.  The fuel argument only bounds recursion depth. -/
def applyFwd (ff : FloatFns) : ℕ → Arena → ℕ → Except Err (VT × Arena)
  | 0, _, _ => .error .fuelOut
  | k + 1, g, n =>
    match g.get? n with
    | none => .error .oob
    | some nd =>
      match applyFwdList ff k g nd.inp with
      | .error e => .error e
      | .ok (args, g1) =>
        match g1.get? n with
        | none => .error .oob
        | some nd1 =>
          match opF ff nd1.op args nd1.val with
          | .error e => .error e
          | .ok v => .ok (v, writeVal g1 n v)

/-- The `for i in inp.iter_mut()` loop of `apply_fwd`: evaluate the inputs
left to right, threading the arena, collecting `(value, eval_g)` pairs. -/
def applyFwdList (ff : FloatFns) : ℕ → Arena → List ℕ → Except Err (List (VT × Bool) × Arena)
  | _, g, [] => .ok ([], g)
  | k, g, i :: rest =>
    match applyFwd ff k g i with
    | .error e => .error e
    | .ok (v, g1) =>
      match applyFwdList ff k g1 rest with
      | .error e => .error e
      | .ok (args, g2) => .ok ((v, evalGOf g1 i) :: args, g2)
end

mutual
/-- Model of `PtrVWrap::apply_rev_recurse` (`src/core.rs` lines 155-170):
its body is the same post-order recursion as `apply_fwd`. -/
def applyRevRecurse (ff : FloatFns) : ℕ → Arena → ℕ → Except Err (VT × Arena)
  | 0, _, _ => .error .fuelOut
  | k + 1, g, n =>
    match g.get? n with
    | none => .error .oob
    | some nd =>
      match applyRevList ff k g nd.inp with
      | .error e => .error e
      | .ok (args, g1) =>
        match g1.get? n with
        | none => .error .oob
        | some nd1 =>
          match opF ff nd1.op args nd1.val with
          | .error e => .error e
          | .ok v => .ok (v, writeVal g1 n v)

/-- The input loop of `apply_rev_recurse`. -/
def applyRevList (ff : FloatFns) : ℕ → Arena → List ℕ → Except Err (List (VT × Bool) × Arena)
  | _, g, [] => .ok ([], g)
  | k, g, i :: rest =>
    match applyRevRecurse ff k g i with
    | .error e => .error e
    | .ok (v, g1) =>
      match applyRevList ff k g1 rest with
      | .error e => .error e
      | .ok (args, g2) => .ok ((v, evalGOf g1 i) :: args, g2)
end

/-- Model of `PtrVWrap::apply_rev` (`src/core.rs` lines 172-177): it just
calls `apply_rev_recurse` on the receiver. -/
def applyRev (ff : FloatFns) (k : ℕ) (g : Arena) (n : ℕ) : Except Err (VT × Arena) :=
  applyRevRecurse ff k g n

/-- The `eval_g` flag an adjoint-expression operand presents to its parent:
a `ref` reads the flag of the referenced original node; freshly allocated
nodes are created with `eval_g: false` (`VWrap::new*`). -/
def adjFlag (g : Arena) (e : AdjExpr) : Bool :=
  match e with
  | .ref i => evalGOf g i
  | _ => false

/-- Evaluation of an adjoint expression: this is what `apply_fwd`
(equivalently `apply_rev`, see `applyRev`) computes on the freshly built
adjoint nodes, whose leaves dereference into the original arena.  The
`constE` node carries `val = Some(F c)` and evaluates through `OpConst::f`;
`one`/`zero` evaluate through `OpOne::f`/`OpZero::f`.  Binary nodes pass
their operands' values paired with the operands' `eval_g` flags. -/
def evalAdj (ff : FloatFns) (k : ℕ) : Arena → AdjExpr → Except Err (VT × Arena)
  | g, .ref i => applyFwd ff k g i
  | g, .one => (opF ff .one [] none).map (fun v => (v, g))
  | g, .zero => (opF ff .zero [] none).map (fun v => (v, g))
  | g, .constE c => (opF ff .const [] (some (.F c))).map (fun v => (v, g))
  | g, .aadd a b =>
    match evalAdj ff k g a with
    | .error e => .error e
    | .ok (va, g1) =>
      match evalAdj ff k g1 b with
      | .error e => .error e
      | .ok (vb, g2) =>
        (opF ff .add [(va, adjFlag g a), (vb, adjFlag g1 b)] none).map (fun v => (v, g2))
  | g, .amul a b =>
    match evalAdj ff k g a with
    | .error e => .error e
    | .ok (va, g1) =>
      match evalAdj ff k g1 b with
      | .error e => .error e
      | .ok (vb, g2) =>
        (opF ff .mul [(va, adjFlag g a), (vb, adjFlag g1 b)] none).map (fun v => (v, g2))
  | g, .adiv a b =>
    match evalAdj ff k g a with
    | .error e => .error e
    | .ok (va, g1) =>
      match evalAdj ff k g1 b with
      | .error e => .error e
      | .ok (vb, g2) =>
        (opF ff .div [(va, adjFlag g a), (vb, adjFlag g1 b)] none).map (fun v => (v, g2))
  | g, .apow a b =>
    match evalAdj ff k g a with
    | .error e => .error e
    | .ok (va, g1) =>
      match evalAdj ff k g1 b with
      | .error e => .error e
      | .ok (vb, g2) =>
        (opF ff .pow [(va, adjFlag g a), (vb, adjFlag g1 b)] none).map (fun v => (v, g2))
  | g, .asin a =>
    match evalAdj ff k g a with
    | .error e => .error e
    | .ok (va, g1) => (opF ff .sin [(va, adjFlag g a)] none).map (fun v => (v, g1))
  | g, .acos a =>
    match evalAdj ff k g a with
    | .error e => .error e
    | .ok (va, g1) => (opF ff .cos [(va, adjFlag g a)] none).map (fun v => (v, g1))
  | g, .aexp a =>
    match evalAdj ff k g a with
    | .error e => .error e
    | .ok (va, g1) => (opF ff .exp [(va, adjFlag g a)] none).map (fun v => (v, g1))
  | g, .alog a =>
    match evalAdj ff k g a with
    | .error e => .error e
    | .ok (va, g1) => (opF ff .ln [(va, adjFlag g a)] none).map (fun v => (v, g1))

/-- Allocate a fresh node (`VWrap::new` / `new_with_input` / `new_with_val`):
fresh nodes start with `eval_g = false` and no adjoint accumulator.  The new
handle is the next free index of the arena. -/
def pushNode (g : Arena) (o : Op) (inp : List ℕ) (v : Option VT) : ℕ × Arena :=
  (g.length, g ++ [⟨o, inp, v, false, none⟩])

/-- Fold of `OpAdd::tangent`'s accumulation loop: `inp_grad[i]` is replaced by
`Add(inp_grad[i-1], inp_grad[i])` left to right and the last entry returned. -/
def addChain (g : Arena) (d : ℕ) : List ℕ → ℕ × Arena
  | [] => (d, g)
  | e :: rest =>
    let p := pushNode g .add [d, e] none
    addChain p.2 p.1 rest

mutual
/-- Model of `PtrVWrap::fwd` (`src/core.rs` lines 282-286): dispatch the
node's `tangent()` rule on its current inputs, building a brand-new
derivative graph and returning its root handle.  Each case is the
corresponding `FWrap::tangent` implementation; nodes are allocated in
evaluation order (arena indices are a relabelling of Rust's heap pointers
chosen so that inputs precede their node). -/
def fwdA : ℕ → Arena → ℕ → Except Err (ℕ × Arena)
  | 0, _, _ => .error .fuelOut
  | k + 1, g, n =>
    match g.get? n with
    | none => .error .oob
    | some nd =>
      match nd.op with
      | .leaf =>
        -- OpLeaf::tangent: wrap self in a Link marker node
        .ok (pushNode g .link [n] none)
      | .link => .ok (pushNode g .zero [] (some (.F 0)))
      | .const => .ok (pushNode g .zero [] (some (.F 0)))
      | .one => .ok (pushNode g .zero [] (some (.F 0)))
      | .zero => .ok (pushNode g .zero [] (some (.F 0)))
      | .mul =>
        -- OpMul::tangent: (xy)' = x'y + xy'
        match nd.inp with
        | [a, b] =>
          match fwdA k g a with
          | .error e => .error e
          | .ok (ap, g1) =>
            let m1 := pushNode g1 .mul [ap, b] none
            match fwdA k m1.2 b with
            | .error e => .error e
            | .ok (bp, g3) =>
              let m2 := pushNode g3 .mul [a, bp] none
              .ok (pushNode m2.2 .add [m1.1, m2.1] none)
        | _ => .error .arityMismatch
      | .add =>
        -- OpAdd::tangent: (a+b+...)' = a'+b'+... via the chain loop
        match fwdAList k g nd.inp with
        | .error e => .error e
        | .ok (gs, g1) =>
          match gs with
          | [] => .error .arityMismatch
          | d :: ds => .ok (addChain g1 d ds)
      | .sin =>
        -- OpSin::tangent: literally Cos(a) (no chain-rule factor)
        match nd.inp with
        | [a] => .ok (pushNode g .cos [a] none)
        | _ => .error .arityMismatch
      | .cos =>
        -- OpCos::tangent: Mul(Const(-1), Sin(a)) (no chain-rule factor)
        match nd.inp with
        | [a] =>
          let c := pushNode g .const [] (some (.F (-1)))
          let s := pushNode c.2 .sin [a] none
          .ok (pushNode s.2 .mul [c.1, s.1] none)
        | _ => .error .arityMismatch
      | .tan =>
        -- OpTan::tangent: Mul(Div(1, Cos(a)*Cos(a)), a.fwd())
        match nd.inp with
        | [a] =>
          let o := pushNode g .const [] (some (.F 1))
          let c1 := pushNode o.2 .cos [a] none
          let c2 := pushNode c1.2 .cos [a] none
          let m := pushNode c2.2 .mul [c1.1, c2.1] none
          let d := pushNode m.2 .div [o.1, m.1] none
          match fwdA k d.2 a with
          | .error e => .error e
          | .ok (ap, g6) => .ok (pushNode g6 .mul [d.1, ap] none)
        | _ => .error .arityMismatch
      | .pow =>
        -- OpPow::tangent: Mul(Pow(a,b), Add(Mul(b', Ln(a)), Mul(Div(b,a), a')))
        match nd.inp with
        | [a, b] =>
          let p := pushNode g .pow [a, b] none
          match fwdA k p.2 b with
          | .error e => .error e
          | .ok (bp, g2) =>
            let l := pushNode g2 .ln [a] none
            let m1 := pushNode l.2 .mul [bp, l.1] none
            let d := pushNode m1.2 .div [b, a] none
            match fwdA k d.2 a with
            | .error e => .error e
            | .ok (ap, g6) =>
              let m2 := pushNode g6 .mul [d.1, ap] none
              let s := pushNode m2.2 .add [m1.1, m2.1] none
              .ok (pushNode s.2 .mul [p.1, s.1] none)
        | _ => .error .arityMismatch
      | .exp =>
        -- OpExp::tangent: Mul(Exp(a), a.fwd())
        match nd.inp with
        | [a] =>
          let e1 := pushNode g .exp [a] none
          match fwdA k e1.2 a with
          | .error e => .error e
          | .ok (ap, g2) => .ok (pushNode g2 .mul [e1.1, ap] none)
        | _ => .error .arityMismatch
      | .ln =>
        -- OpLn::tangent: Mul(Div(1, a), a.fwd())
        match nd.inp with
        | [a] =>
          let o := pushNode g .const [] (some (.F 1))
          let d := pushNode o.2 .div [o.1, a] none
          match fwdA k d.2 a with
          | .error e => .error e
          | .ok (ap, g3) => .ok (pushNode g3 .mul [d.1, ap] none)
        | _ => .error .arityMismatch
      | .div =>
        -- OpDiv::tangent: Div(Minus(Mul(a',b), Mul(a,b')), Mul(b,b))
        match nd.inp with
        | [a, b] =>
          match fwdA k g a with
          | .error e => .error e
          | .ok (ap, g1) =>
            let m1 := pushNode g1 .mul [ap, b] none
            match fwdA k m1.2 b with
            | .error e => .error e
            | .ok (bp, g3) =>
              let m2 := pushNode g3 .mul [a, bp] none
              -- Minus(m1, m2) = Add(m1, Mul(m2, Const(-1)))
              let c := pushNode m2.2 .const [] (some (.F (-1)))
              let m3 := pushNode c.2 .mul [m2.1, c.1] none
              let num := pushNode m3.2 .add [m1.1, m3.1] none
              let den := pushNode num.2 .mul [b, b] none
              .ok (pushNode den.2 .div [num.1, den.1] none)
        | _ => .error .arityMismatch

/-- The `for i in args` loop of `OpAdd::tangent`: forward-differentiate each
input left to right. -/
def fwdAList : ℕ → Arena → List ℕ → Except Err (List ℕ × Arena)
  | _, g, [] => .ok ([], g)
  | k, g, i :: rest =>
    match fwdA k g i with
    | .error e => .error e
    | .ok (d, g1) =>
      match fwdAList k g1 rest with
      | .error e => .error e
      | .ok (ds, g2) => .ok (d :: ds, g2)
end

/-- Model of the `FWrap::adjoint` rules: given the node's inputs and the
accumulated output adjoint, produce one freshly built adjoint expression per
input (`src/core.rs`, the `adjoint()` method of each operator). -/
def opAdjoint (o : Op) (inp : List ℕ) (outAdj : AdjExpr) : Except Err (List AdjExpr) :=
  match o with
  | .mul =>
    -- [Mul(inputs[1], out_adj), Mul(inputs[0], out_adj)]
    match inp with
    | [a, b] => .ok [.amul (.ref b) outAdj, .amul (.ref a) outAdj]
    | _ => .error .arityMismatch
  | .add =>
    -- [out_adj, out_adj]
    match inp with
    | [_, _] => .ok [outAdj, outAdj]
    | _ => .error .arityMismatch
  | .leaf =>
    match inp with
    | [] => .ok []
    | _ => .error .arityMismatch
  | .const =>
    match inp with
    | [] => .ok []
    | _ => .error .arityMismatch
  | .one =>
    match inp with
    | [] => .ok []
    | _ => .error .arityMismatch
  | .zero =>
    match inp with
    | [] => .ok []
    | _ => .error .arityMismatch
  | .link =>
    -- one Zero per input, no arity assertion
    .ok (inp.map fun _ => AdjExpr.zero)
  | .sin =>
    -- [Mul(Cos(inputs[0]), out_adj)]
    match inp with
    | [a] => .ok [.amul (.acos (.ref a)) outAdj]
    | _ => .error .arityMismatch
  | .cos =>
    -- [Mul(Mul(Const(-1), Sin(inputs[0])), out_adj)]
    match inp with
    | [a] => .ok [.amul (.amul (.constE (-1)) (.asin (.ref a))) outAdj]
    | _ => .error .arityMismatch
  | .tan =>
    -- [Mul(Div(1, Mul(Cos(a), Cos(a))), out_adj)]
    match inp with
    | [a] => .ok [.amul (.adiv (.constE 1) (.amul (.acos (.ref a)) (.acos (.ref a)))) outAdj]
    | _ => .error .arityMismatch
  | .pow =>
    -- [Mul(Mul(Pow(a, Minus(b, 1)), b), out_adj), Mul(Mul(Pow(a, b), Ln(a)), out_adj)]
    -- with Minus(x, y) = Add(x, Mul(y, Const(-1)))
    match inp with
    | [a, b] =>
      .ok [.amul (.amul (.apow (.ref a) (.aadd (.ref b) (.amul (.constE 1) (.constE (-1))))) (.ref b)) outAdj,
           .amul (.amul (.apow (.ref a) (.ref b)) (.alog (.ref a))) outAdj]
    | _ => .error .arityMismatch
  | .exp =>
    -- [Mul(Exp(a), out_adj)]
    match inp with
    | [a] => .ok [.amul (.aexp (.ref a)) outAdj]
    | _ => .error .arityMismatch
  | .ln =>
    -- [Mul(Div(1, a), out_adj)]
    match inp with
    | [a] => .ok [.amul (.adiv (.constE 1) (.ref a)) outAdj]
    | _ => .error .arityMismatch
  | .div =>
    -- [Mul(Div(1, b), out_adj), Mul(Div(Mul(-1, a), Mul(b, b)), out_adj)]
    match inp with
    | [a, b] =>
      .ok [.amul (.adiv (.constE 1) (.ref b)) outAdj,
           .amul (.adiv (.amul (.constE (-1)) (.ref a)) (.amul (.ref b) (.ref b))) outAdj]
    | _ => .error .arityMismatch

/-- State of the breadth-first reverse pass: FIFO queue, visited set, the
collected leaf-adjoint map (`adjoints_collected`, latest insertion first),
and the arena. -/
structure RevSt where
  q : List ℕ
  vis : List ℕ
  out : List (ℕ × AdjExpr)
  g : Arena

/-- The adjoint-propagation loop body of `rev()`: for each input at position
`idx`, initialise an absent accumulator to `Zero`, then replace it by
`Add(previous, adjoints[idx])`. -/
def propagate (g : Arena) : List ℕ → List AdjExpr → Arena
  | [], _ => g
  | _ :: _, [] => g
  | i :: is_, a :: rest =>
    let cur := match adjOf g i with
      | none => AdjExpr.zero
      | some t => t
    propagate (setAdj g i (some (.aadd cur a))) is_ rest

/-- The `while !q.is_empty()` loop of `PtrVWrap::rev` (`src/core.rs` lines
198-276), one fuel unit per pop:
pop `n`; skip it if already visited; default its accumulator to `Zero`;
invoke the operator's `adjoint()` rule; check the arity assertion; propagate
the produced adjoints into the inputs' accumulators; clear the accumulator
(internal node) or move it into the collected map (leaf); enqueue the inputs
and mark `n` visited. -/
def revLoop : ℕ → RevSt → Except Err (List (ℕ × AdjExpr) × Arena)
  | 0, st =>
    match st.q with
    | [] => .ok (st.out, st.g)
    | _ :: _ => .error .fuelOut
  | k + 1, st =>
    match st.q with
    | [] => .ok (st.out, st.g)
    | n :: rest =>
        if st.vis.contains n then
          revLoop k { st with q := rest }
        else
          let g1 := if (adjOf st.g n).isNone then setAdj st.g n (some .zero) else st.g
          match g1.get? n with
          | none => .error .oob
          | some nd =>
            match adjOf g1 n with
            | none => .error .adjAccumEmpty
            | some outAdj =>
              match opAdjoint nd.op nd.inp outAdj with
              | .error e => .error e
              | .ok adjs =>
                if adjs.length ≠ nd.inp.length then .error .arityMismatch
                else
                  let g2 := propagate g1 nd.inp adjs
                  if nd.inp.isEmpty then
                    match adjOf g2 n with
                    | none => .error .leafAdjointMissing
                    | some a =>
                      revLoop k { q := rest ++ nd.inp, vis := n :: st.vis,
                                  out := (n, a) :: st.out, g := setAdj g2 n none }
                  else
                    revLoop k { q := rest ++ nd.inp, vis := n :: st.vis,
                                out := st.out, g := setAdj g2 n none }

/-- Model of `PtrVWrap::rev`: seed the root's accumulator with a fresh `One`
node, then run the breadth-first loop starting from the root. -/
def revA (fuel : ℕ) (g : Arena) (r : ℕ) : Except Err (List (ℕ × AdjExpr) × Arena) :=
  revLoop fuel ⟨[r], [], [], setAdj g r (some .one)⟩

/-- Lookup in the collected adjoint map (`HashMap::get`): latest insertion
for a key wins, matching `HashMap::insert` overwrite semantics. -/
def lookupA (out : List (ℕ × AdjExpr)) (n : ℕ) : Option AdjExpr :=
  match out with
  | [] => none
  | (m, a) :: rest => if m = n then some a else lookupA rest n

/-- The node at an index, with an inert default for out-of-range reads (which
the Rust handles cannot produce). -/
def nodeAt (g : Arena) (n : ℕ) : Node :=
  (g.get? n).getD ⟨.zero, [], none, false, none⟩

/-- Pure rational-valued evaluation of the `Add`/`Mul`/`Leaf`/`Const`/`One`/
`Zero`/`Link` fragment of the graph: the mathematical function the
(state-mutating) `apply_fwd` computes on that fragment.  Fuel bounds the
recursion depth; with inputs at smaller indices, fuel exceeding the index is
enough. -/
def aevalQ : ℕ → Arena → ℕ → ℚ
  | 0, _, _ => 0
  | k + 1, g, n =>
    match (nodeAt g n).op with
    | .leaf =>
      match (nodeAt g n).val with
      | some v => toF32 v
      | none => 0
    | .const =>
      match (nodeAt g n).val with
      | some v => toF32 v
      | none => 0
    | .one => 1
    | .zero => 0
    | .link =>
      match (nodeAt g n).inp with
      | [i] => if evalGOf g i then 1 else 0
      | _ => 0
    | .add =>
      match (nodeAt g n).inp with
      | [a, b] => aevalQ k g a + aevalQ k g b
      | _ => 0
    | .mul =>
      match (nodeAt g n).inp with
      | [a, b] => aevalQ k g a * aevalQ k g b
      | _ => 0
    | _ => 0

/-- Modelled from the spec: the closed-form partial derivative of the
expression rooted at `n` with respect to the value stored in leaf node `x`,
for expressions over `Add`/`Mul`/leaves ("the closed-form partial derivative
of the expression with respect to that leaf, evaluated at the leaves'
current values"): the ordinary sum and product rules of calculus, with
`∂x/∂x = 1` and `∂y/∂x = 0` for any other leaf `y`. -/
def aderivQ : ℕ → Arena → ℕ → ℕ → ℚ
  | 0, _, _, _ => 0
  | k + 1, g, x, n =>
    if n = x then 1
    else
      match (nodeAt g n).op with
      | .add =>
        match (nodeAt g n).inp with
        | [a, b] => aderivQ k g x a + aderivQ k g x b
        | _ => 0
      | .mul =>
        match (nodeAt g n).inp with
        | [a, b] => aderivQ k g x a * aevalQ k g b + aevalQ k g a * aderivQ k g x b
        | _ => 0
      | _ => 0

/-- Does an optional value hold the `F` (f32) variant? -/
def isFSomeB : Option VT → Bool
  | some (.F _) => true
  | _ => false

/-- Inputs of every node lie at strictly smaller indices: arenas are built
bottom-up (the Rust graphs are acyclic and never reference a not-yet-built
node), so this is a pure relabelling invariant of the embedding. -/
def wfIdx (g : Arena) : Prop :=
  ∀ n, n < g.length → ∀ i ∈ (nodeAt g n).inp, i < n

/-- A node is one the evaluator fragment of `aevalQ` covers, with the arity
its `f()` rule asserts and (for `Leaf`/`Const`) a stored f32 value. -/
def evalOpsOk (nd : Node) : Prop :=
  (nd.op = .leaf ∧ nd.inp = [] ∧ isFSomeB nd.val = true) ∨
  (nd.op = .const ∧ nd.inp = [] ∧ isFSomeB nd.val = true) ∨
  (nd.op = .one ∧ nd.inp = []) ∨
  (nd.op = .zero ∧ nd.inp = []) ∨
  (nd.op = .link ∧ nd.inp.length = 1) ∨
  (nd.op = .add ∧ nd.inp.length = 2) ∨
  (nd.op = .mul ∧ nd.inp.length = 2)

/-- Every node of the arena is in the `aevalQ` fragment and the arena is
bottom-up: on such arenas `apply_fwd` computes `aevalQ`. -/
def goodEval (g : Arena) : Prop :=
  wfIdx g ∧ ∀ n, n < g.length → evalOpsOk (nodeAt g n)

/-- A node built only from the public `Leaf`/`Add`/`Mul` constructors. -/
def amNode (nd : Node) : Prop :=
  (nd.op = .leaf ∧ nd.inp = [] ∧ isFSomeB nd.val = true) ∨
  (nd.op = .add ∧ nd.inp.length = 2) ∨
  (nd.op = .mul ∧ nd.inp.length = 2)

/-- An expression graph built only from `Leaf`/`Add`/`Mul`. -/
def amArena (g : Arena) : Prop :=
  ∀ n, n < g.length → amNode (nodeAt g n)

/-- Number of parent slots of `m` in the whole arena (how many input
positions reference the node). -/
def childCount (g : Arena) (m : ℕ) : ℕ :=
  (g.map (fun nd => nd.inp.count m)).sum

/-- `g` is a tree rooted at `r`: bottom-up indices, the root is referenced
by no node, and every other node is referenced by exactly one input slot of
one parent (no sharing, no reconvergent paths). -/
def isTree (g : Arena) (r : ℕ) : Prop :=
  r < g.length ∧ wfIdx g ∧ childCount g r = 0 ∧
    ∀ m, m < g.length → m ≠ r → childCount g m = 1

/-- No node carries a leftover adjoint accumulator (the documented state
outside an in-progress `rev()`). -/
def adjClean (g : Arena) : Prop :=
  ∀ n, n < g.length → (nodeAt g n).adj = none

/-- Exactly the leaf `x` is marked active (`is_seed_variable`). -/
def onlyActive (g : Arena) (x : ℕ) : Prop :=
  ∀ n, n < g.length → ((nodeAt g n).evalG = true ↔ n = x)

/-- The `Leaf`/`Const` nodes all store a value (the invariant the public
constructors establish: only those two operators' `f()` rules read the
stored value, and both are always built through `new_with_val`). -/
def wellValued (g : Arena) : Prop :=
  ∀ n, n < g.length →
    (nodeAt g n).op = .leaf ∨ (nodeAt g n).op = .const → (nodeAt g n).val ≠ none

/-- The public constructor `Leaf(value)`: `new_with_val(OpLeaf, v)`. -/
def mkLeaf (g : Arena) (v : VT) (active : Bool) : ℕ × Arena :=
  (g.length, g ++ [⟨.leaf, [], some v, active, none⟩])

/-- A public binary operator constructor (`Add`, `Mul`, `Div`, `Pow`):
`VWrap::new(op)` followed by `set_inp(vec![a, b])`. -/
def mkBin (g : Arena) (o : Op) (a b : ℕ) : ℕ × Arena :=
  (g.length, g ++ [⟨o, [a, b], none, false, none⟩])

/-- A public unary operator constructor (`Sin`, `Cos`, `Tan`, `Exp`, `Ln`). -/
def mkUn (g : Arena) (o : Op) (a : ℕ) : ℕ × Arena :=
  (g.length, g ++ [⟨o, [a], none, false, none⟩])

/-- Value part of an evaluation result. -/
def valOf (r : Except Err (VT × Arena)) : Except Err VT :=
  r.map Prod.fst

/-- Concrete DAG `x + x*x` at `x = 2` with the single leaf active: node 0 is
the shared leaf, node 1 is `Mul(x, x)`, node 2 (the root) is `Add(x, Mul(x, x))`.
The leaf is reachable from the root along two paths of different length. -/
def gDag : Arena :=
  [⟨.leaf, [], some (.F 2), true, none⟩,
   ⟨.mul, [0, 0], none, false, none⟩,
   ⟨.add, [0, 1], none, false, none⟩]

/-- Concrete tree `Sin(Mul(c, x))` with `c = 2`, `x = 3`, `x` active:
node 0 is `c`, node 1 is `x`, node 2 is `Mul(c, x)`, node 3 the `Sin` root. -/
def gSin : Arena :=
  [⟨.leaf, [], some (.F 2), false, none⟩,
   ⟨.leaf, [], some (.F 3), true, none⟩,
   ⟨.mul, [0, 1], none, false, none⟩,
   ⟨.sin, [2], none, false, none⟩]

/-- A single leaf holding `F 5`, never touched by any `rev()` call. -/
def gLeaf : Arena := [⟨.leaf, [], some (.F 5), false, none⟩]

/-- Concrete tree `Mul(x, y)` at `x = 3` (active), `y = 4`. -/
def gW1 : Arena :=
  [⟨.leaf, [], some (.F 3), true, none⟩,
   ⟨.leaf, [], some (.F 4), false, none⟩,
   ⟨.mul, [0, 1], none, false, none⟩]

/-- Concrete tree `Add(Mul(x, x0), y)` at `x = 5` (active), `x0 = 2`, `y = 7`. -/
def gW6 : Arena :=
  [⟨.leaf, [], some (.F 5), true, none⟩,
   ⟨.leaf, [], some (.F 2), false, none⟩,
   ⟨.mul, [0, 1], none, false, none⟩,
   ⟨.leaf, [], some (.F 7), false, none⟩,
   ⟨.add, [2, 3], none, false, none⟩]

/-- Concrete DAG `Mul(x, x)` at `x = 2` (sharing one leaf). -/
def gW7 : Arena :=
  [⟨.leaf, [], some (.F 2), false, none⟩,
   ⟨.mul, [0, 0], none, false, none⟩]

/-- Decidable equality of evaluation results, for concrete computations. -/
instance exceptDecEq {ε α : Type} [DecidableEq ε] [DecidableEq α] :
    DecidableEq (Except ε α) := fun a b =>
  match a, b with
  | .ok x, .ok y =>
    if h : x = y then .isTrue (by rw [h]) else .isFalse (by simp [h])
  | .error e, .error f =>
    if h : e = f then .isTrue (by rw [h]) else .isFalse (by simp [h])
  | .ok _, .error _ => .isFalse (by simp)
  | .error _, .ok _ => .isFalse (by simp)

/-- Replace every node's adjoint accumulator according to `am` (an arbitrary
repainting of the `adj_accum` fields, used to state that evaluation never
consults them). -/
def setAdjMap (g : Arena) (am : ℕ → Option AdjExpr) : Arena :=
  (List.range g.length).map (fun i => { nodeAt g i with adj := am i })

/-- Two arenas have the same graph structure (length, operators, inputs,
seed flags) — the parts of the state evaluation never writes. -/
def sameShape (g h : Arena) : Prop :=
  g.length = h.length ∧
    ∀ n, (nodeAt g n).op = (nodeAt h n).op ∧ (nodeAt g n).inp = (nodeAt h n).inp ∧
      (nodeAt g n).evalG = (nodeAt h n).evalG

/-- Two arenas agree on the stored values of `Leaf`/`Const` nodes — the only
stored values evaluation reads. -/
def lcVals (g h : Arena) : Prop :=
  ∀ n, (nodeAt g n).op = .leaf ∨ (nodeAt g n).op = .const →
    (nodeAt g n).val = (nodeAt h n).val

/-- Evaluation-relevant agreement: same structure and same `Leaf`/`Const`
stored values (cached internal values and adjoint accumulators are free). -/
def evalAgree (g h : Arena) : Prop := sameShape g h ∧ lcVals g h

/-- The arity each operator's evaluation/adjoint rule asserts. -/
def arityNode (nd : Node) : Prop :=
  ((nd.op = .leaf ∨ nd.op = .const ∨ nd.op = .one ∨ nd.op = .zero) → nd.inp = []) ∧
  ((nd.op = .add ∨ nd.op = .mul ∨ nd.op = .div ∨ nd.op = .pow) → nd.inp.length = 2) ∧
  ((nd.op = .sin ∨ nd.op = .cos ∨ nd.op = .tan ∨ nd.op = .exp ∨ nd.op = .ln) →
    nd.inp.length = 1)

/-- All nodes have the arity their operator asserts. -/
def arityOk (g : Arena) : Prop :=
  ∀ n, n < g.length → arityNode (nodeAt g n)

/-- The unique parent of a node in a tree-shaped arena (the node whose input
list mentions it). -/
def parentOf (g : Arena) (m : ℕ) : Option ℕ :=
  (List.range g.length).find? (fun n => (nodeAt g n).inp.contains m)

/-- The adjoint expression the parent `p` contributes to its input at
position `k`, given the parent's own accumulated adjoint `accP` (entry `k`
of the operator's `adjoint()` rule output). -/
def accContrib (g : Arena) (p : ℕ) (k : ℕ) (accP : AdjExpr) : AdjExpr :=
  match opAdjoint (nodeAt g p).op (nodeAt g p).inp accP with
  | .ok l => l.getD k .zero
  | .error _ => .zero

/-- The accumulator a tree node holds when the breadth-first reverse pass
pops it: `One` for the root, and `Add(Zero, contribution-from-the-parent)`
for every other node (on a tree each node receives exactly one
contribution, at the moment its unique parent is processed). -/
def accAux (g : Arena) (r : ℕ) : ℕ → ℕ → AdjExpr
  | 0, _ => .zero
  | fuel + 1, m =>
    if m = r then .one
    else
      match parentOf g m with
      | none => .zero
      | some p =>
        .aadd .zero (accContrib g p ((nodeAt g p).inp.indexOf m) (accAux g r fuel p))

/-- The accumulator of node `m` in the reverse pass over the tree rooted at
`r` (enough fuel for any parent chain). -/
def accOf (g : Arena) (r m : ℕ) : AdjExpr := accAux g r (g.length + 1) m

/-- Pure rational value of an adjoint expression over the `Add`/`Mul`
fragment (references evaluate through `aevalQ`). -/
def qAdjVal (k : ℕ) (g : Arena) : AdjExpr → ℚ
  | .ref i => aevalQ k g i
  | .one => 1
  | .zero => 0
  | .constE c => c
  | .aadd a b => qAdjVal k g a + qAdjVal k g b
  | .amul a b => qAdjVal k g a * qAdjVal k g b
  | _ => 0

/-- Adjoint expressions produced by the reverse pass over an `Add`/`Mul`
graph: references into the arena plus `One`/`Zero`/`Add`/`Mul` nodes. -/
def amAdj (len : ℕ) : AdjExpr → Prop
  | .ref i => i < len
  | .one => True
  | .zero => True
  | .aadd a b => amAdj len a ∧ amAdj len b
  | .amul a b => amAdj len a ∧ amAdj len b
  | _ => False

/-- Can `m` be reached from `n` by following input edges? -/
def reaches : ℕ → Arena → ℕ → ℕ → Bool
  | 0, _, _, _ => false
  | k + 1, g, n, m => n == m || (nodeAt g n).inp.any (fun i => reaches k g i m)

/-- Invariant of the breadth-first reverse loop on a tree rooted at `r` of
the original arena `g0`:
* the arena still has `g0`'s length, structure and values (only `adj_accum`
  fields have been touched);
* the visited list has no duplicates, holds valid indices, and is upward
  closed (a visited node is the root or has a visited parent);
* the queue holds, without duplicates, exactly the frontier: the unvisited
  nodes whose parent is visited (or the unvisited root);
* a node's accumulator is `accOf` exactly while it sits in the queue and is
  absent otherwise;
* the collected map holds exactly the visited 0-input nodes, with their
  `accOf` accumulators. -/
structure RevInv (g0 : Arena) (r : ℕ) (st : RevSt) : Prop where
  lenEq : st.g.length = g0.length
  shape : ∀ n, (nodeAt st.g n).op = (nodeAt g0 n).op ∧
    (nodeAt st.g n).inp = (nodeAt g0 n).inp ∧
    (nodeAt st.g n).val = (nodeAt g0 n).val ∧
    (nodeAt st.g n).evalG = (nodeAt g0 n).evalG
  visNodup : st.vis.Nodup
  visSub : ∀ m ∈ st.vis, m < g0.length
  visClosed : ∀ m ∈ st.vis, m = r ∨ ∃ p, parentOf g0 m = some p ∧ p ∈ st.vis
  qNodup : st.q.Nodup
  qFrontier : ∀ m, m ∈ st.q ↔ m < g0.length ∧ m ∉ st.vis ∧
    (m = r ∨ ∃ p, parentOf g0 m = some p ∧ p ∈ st.vis)
  adjPred : ∀ m, m < g0.length →
    adjOf st.g m = if m ∈ st.q then some (accOf g0 r m) else none
  outPred : ∀ m, lookupA st.out m =
    if m ∈ st.vis ∧ (nodeAt g0 m).inp = [] then some (accOf g0 r m) else none

/-- What one evaluation pass preserves: length, operators, inputs, seed
flags, adjoint accumulators, and the stored values of `Leaf`/`Const` nodes
(only cached values of other nodes may change). -/
def keepRel (g h : Arena) : Prop :=
  h.length = g.length ∧
    (∀ m, (nodeAt h m).op = (nodeAt g m).op ∧ (nodeAt h m).inp = (nodeAt g m).inp ∧
      (nodeAt h m).evalG = (nodeAt g m).evalG ∧ (nodeAt h m).adj = (nodeAt g m).adj) ∧
    ∀ m, (nodeAt g m).op = .leaf ∨ (nodeAt g m).op = .const →
      (nodeAt h m).val = (nodeAt g m).val

/-- Result relation for evaluation on evaluation-equivalent arenas: same
error, or same value with evaluation-equivalent post-states. -/
def resRel : Except Err (VT × Arena) → Except Err (VT × Arena) → Prop
  | .error e, .error e2 => e = e2
  | .ok (v, g1), .ok (w, h1) => v = w ∧ evalAgree g1 h1
  | _, _ => False

/-- Result relation for the input-loop evaluation. -/
def listResRel : Except Err (List (VT × Bool) × Arena) →
    Except Err (List (VT × Bool) × Arena) → Prop
  | .error e, .error e2 => e = e2
  | .ok (a, g1), .ok (b, h1) => a = b ∧ evalAgree g1 h1
  | _, _ => False

/-- The arena `gW7` after one full `apply_fwd` pass from its root (caches
filled in). -/
def gW7c : Arena :=
  [⟨.leaf, [], some (.F 2), false, none⟩,
   ⟨.mul, [0, 0], some (.F 4), false, none⟩]

/-- Two arenas that differ at most in adjoint accumulators (what a `rev()`
pass may change). -/
def adjOnly (g h : Arena) : Prop :=
  h.length = g.length ∧
    ∀ m, (nodeAt h m).op = (nodeAt g m).op ∧ (nodeAt h m).inp = (nodeAt g m).inp ∧
      (nodeAt h m).val = (nodeAt g m).val ∧ (nodeAt h m).evalG = (nodeAt g m).evalG

/-- The local partial derivative of parent `p`'s operation with respect to an
occurrence of input `m` (`Add`/`Mul` fragment): `1` for `Add`, the other
operand's value for `Mul` (the factor the operator's `adjoint()` rule
multiplies onto the output adjoint). -/
def localD (g : Arena) (p m : ℕ) (K : ℕ) : ℚ :=
  match (nodeAt g p).op, (nodeAt g p).inp with
  | .add, [_, _] => 1
  | .mul, [a, b] => if m = a then aevalQ K g b else aevalQ K g a
  | _, _ => 0

theorem abs_lt_iff_pair (x e : ℚ) : (x < e ∧ -e < x) ↔ |x| < e := by
  rw [abs_lt]
  tauto

/-- C4 (counterexample): the claim states that a mixed `(F32, I32)` pair is
accepted by the Add evaluation rule with the integer coerced to `F32`, "the
same as for Mul"; but `OpAdd::f` only matches `(F,F)` and `(I,I)` and
panics with "type not supported" on `(F32, I32)`, while `OpMul::f` does
accept it. -/
theorem C4_counterexample :
    opF ffZero .add [(.F 1, false), (.I 2, false)] none = .error .typeNotSupported ∧
    opF ffZero .mul [(.F 1, false), (.I 2, false)] none = .ok (.F 2) := by
  constructor
  · rfl
  · show Except.ok (VT.F (1 * (2 : ℤ))) = Except.ok (VT.F 2)
    norm_num

/-- C4 (amended): the Mul evaluation rule follows the promotion table —
`(F32,F32) → F32`, `(I32,I32) → I32`, mixed `(F32,I32)`/`(I32,F32)` coerce
the integer to `F32` and return `F32`, and every other operand-pair shape
fails with the unsupported-type-combination error.  The Add evaluation rule
accepts only `(F32,F32) → F32` and `(I32,I32) → I32`; every other pair —
including the mixed `(F32,I32)`/`(I32,F32)` pairs — fails with the
unsupported-type-combination error. -/
theorem C4_amended (ff : FloatFns) (a b : VT) (fa fb : Bool) (w : Option VT) :
    (opF ff .mul [(a, fa), (b, fb)] w =
      match a, b with
      | .F x, .F y => .ok (.F (x * y))
      | .I m, .I n => .ok (.I (m * n))
      | .F x, .I n => .ok (.F (x * (n : ℚ)))
      | .I m, .F y => .ok (.F ((m : ℚ) * y))
      | _, _ => .error .typeNotSupported) ∧
    (opF ff .add [(a, fa), (b, fb)] w =
      match a, b with
      | .F x, .F y => .ok (.F (x + y))
      | .I m, .I n => .ok (.I (m + n))
      | _, _ => .error .typeNotSupported) := by
  cases a <;> cases b <;> simp [opF]

/-- C5 (counterexample): the claim states that `Sin`, `Cos` and `Tan` coerce
every operand to a 32-bit float and always return an `F32` result, in
particular on an `F64` operand; but `OpSin::f` maps a `D` operand to a `D`
result (`ValType::D(v0.sin())`). -/
theorem C5_counterexample :
    opF ffZero .sin [(.D 0, false)] none = .ok (.D 0) ∧ isF (.D 0) = false := by
  exact ⟨rfl, rfl⟩

/-- C5 (amended): `Div`, `Pow`, `Exp` and `Ln` coerce every operand to a
32-bit float and always return `F32`; `Sin`, `Cos` and `Tan` coerce `I32`,
`I64` (and keep `F32`) operands to 32-bit float returning `F32`, but an
`F64` operand stays in `F64`: the f64 function is applied and the result is
the `F64` variant. -/
theorem C5_amended (ff : FloatFns) (a b : VT) (fa fb : Bool) (w : Option VT) :
    opF ff .exp [(a, fa)] w = .ok (.F (ff.exp32 (toF32 a))) ∧
    opF ff .ln [(a, fa)] w = .ok (.F (ff.ln32 (toF32 a))) ∧
    opF ff .div [(a, fa), (b, fb)] w = .ok (.F (toF32 a / toF32 b)) ∧
    opF ff .pow [(a, fa), (b, fb)] w =
      .ok (.F (if |toF32 b| < powEps then 1 else ff.pow32 (toF32 a) (toF32 b))) ∧
    opF ff .sin [(a, fa)] w =
      (match a with
       | .D x => .ok (.D (ff.sin64 x))
       | _ => .ok (.F (ff.sin32 (toF32 a)))) ∧
    opF ff .cos [(a, fa)] w =
      (match a with
       | .D x => .ok (.D (ff.cos64 x))
       | _ => .ok (.F (ff.cos32 (toF32 a)))) ∧
    opF ff .tan [(a, fa)] w =
      (match a with
       | .D x => .ok (.D (ff.tan64 x))
       | _ => .ok (.F (ff.tan32 (toF32 a)))) := by
  refine ⟨rfl, rfl, rfl, ?_, ?_, ?_, ?_⟩
  · show (if toF32 b < powEps ∧ -powEps < toF32 b then _ else _) = _
    rcases lt_or_ge |toF32 b| powEps with hb | hb
    · rw [if_pos ((abs_lt_iff_pair (toF32 b) powEps).mpr hb), if_pos hb]
    · rw [if_neg (fun hc => absurd ((abs_lt_iff_pair (toF32 b) powEps).mp hc) (not_lt.mpr hb)),
        if_neg (not_lt.mpr hb)]
  · cases a <;> rfl
  · cases a <;> rfl
  · cases a <;> rfl

/-- C8 (confirmed): for every pair of operand values, the Pow evaluation
rule returns exactly `F32(1.0)` when the exponent coerced to a 32-bit float
has absolute value strictly below `1e-15`, and otherwise `F32` of the
floating power function applied to the coerced base and exponent. -/
theorem C8_pow_guard (ff : FloatFns) (a b : VT) (fa fb : Bool) (w : Option VT) :
    opF ff .pow [(a, fa), (b, fb)] w =
      if |toF32 b| < powEps then .ok (.F 1)
      else .ok (.F (ff.pow32 (toF32 a) (toF32 b))) := by
  show (if toF32 b < powEps ∧ -powEps < toF32 b then _ else _) = _
  rcases lt_or_ge |toF32 b| powEps with hb | hb
  · rw [if_pos ((abs_lt_iff_pair (toF32 b) powEps).mpr hb), if_pos hb]
  · rw [if_neg (fun hc => absurd ((abs_lt_iff_pair (toF32 b) powEps).mp hc) (not_lt.mpr hb)),
      if_neg (not_lt.mpr hb)]

theorem length_modifyN (g : Arena) (n : ℕ) (f : Node → Node) :
    (modifyN g n f).length = g.length := by
  unfold modifyN
  cases g.get? n <;> simp

theorem get?_lt {g : Arena} {m : ℕ} (h : m < g.length) :
    g.get? m = some (nodeAt g m) := by
  unfold nodeAt
  cases hm : g.get? m with
  | none => exact absurd (List.get?_eq_none.mp hm) (not_le.mpr h)
  | some nd => rfl

theorem get?_ge {g : Arena} {m : ℕ} (h : ¬ m < g.length) : g.get? m = none :=
  List.get?_eq_none.mpr (not_lt.mp h)

theorem nodeAt_ge {g : Arena} {m : ℕ} (h : ¬ m < g.length) :
    nodeAt g m = ⟨.zero, [], none, false, none⟩ := by
  unfold nodeAt
  rw [get?_ge h]
  rfl

theorem arena_ext {g h : Arena} (hl : g.length = h.length)
    (hn : ∀ n, n < g.length → nodeAt g n = nodeAt h n) : g = h := by
  apply List.ext
  intro n
  by_cases hlt : n < g.length
  · rw [get?_lt hlt, get?_lt (hl ▸ hlt), hn n hlt]
  · rw [get?_ge hlt, get?_ge (fun hc => hlt (hl ▸ hc))]

theorem get?_modifyN (g : Arena) (n : ℕ) (f : Node → Node) (m : ℕ) :
    (modifyN g n f).get? m = if m = n then (g.get? m).map f else g.get? m := by
  unfold modifyN
  cases hn : g.get? n with
  | none =>
    by_cases hm : m = n
    · subst hm
      rw [if_pos rfl, hn]
      rfl
    · rw [if_neg hm]
  | some nd =>
    by_cases hm : m = n
    · subst hm
      rw [if_pos rfl, List.get?_set, if_pos rfl, hn]
      rfl
    · rw [if_neg hm, List.get?_set, if_neg (fun hc => hm hc.symm)]

theorem nodeAt_modifyN (g : Arena) (n : ℕ) (f : Node → Node) (m : ℕ) :
    nodeAt (modifyN g n f) m =
      if m = n ∧ m < g.length then f (nodeAt g m) else nodeAt g m := by
  unfold nodeAt
  rw [get?_modifyN]
  by_cases hm : m = n
  · by_cases hlt : m < g.length
    · rw [if_pos hm, if_pos ⟨hm, hlt⟩, get?_lt hlt]
      rfl
    · rw [if_pos hm, if_neg (fun hc => hlt hc.2), get?_ge hlt]
      rfl
  · rw [if_neg hm, if_neg (fun hc => hm hc.1)]

theorem length_setAdjMap (g : Arena) (am : ℕ → Option AdjExpr) :
    (setAdjMap g am).length = g.length := by
  simp [setAdjMap]

theorem get?_setAdjMap (g : Arena) (am : ℕ → Option AdjExpr) (m : ℕ) :
    (setAdjMap g am).get? m = (g.get? m).map (fun nd => { nd with adj := am m }) := by
  unfold setAdjMap
  by_cases hm : m < g.length
  · rw [List.get?_map, List.get?_range hm, get?_lt hm]
    rfl
  · rw [List.get?_map, get?_ge hm]
    have : (List.range g.length).get? m = none :=
      List.get?_eq_none.mpr (by simpa using not_lt.mp hm)
    rw [this]
    rfl

theorem nodeAt_setAdjMap {g : Arena} {m : ℕ} (am : ℕ → Option AdjExpr)
    (h : m < g.length) :
    nodeAt (setAdjMap g am) m = { nodeAt g m with adj := am m } := by
  unfold nodeAt
  rw [get?_setAdjMap, get?_lt h]
  rfl

theorem writeVal_setAdjMap (g : Arena) (am : ℕ → Option AdjExpr) (n : ℕ) (v : VT) :
    writeVal (setAdjMap g am) n v = setAdjMap (writeVal g n v) am := by
  unfold writeVal
  apply arena_ext
  · rw [length_modifyN, length_setAdjMap, length_setAdjMap, length_modifyN]
  · intro m hm
    rw [length_modifyN, length_setAdjMap] at hm
    rw [nodeAt_modifyN, length_setAdjMap,
      nodeAt_setAdjMap _ (show m < (modifyN g n _).length by rwa [length_modifyN]),
      nodeAt_modifyN]
    by_cases hc : m = n ∧ m < g.length
    · rw [if_pos hc, if_pos hc, nodeAt_setAdjMap _ hc.2]
    · rw [if_neg hc, if_neg hc, nodeAt_setAdjMap _ hm]

theorem evalGOf_setAdjMap (g : Arena) (am : ℕ → Option AdjExpr) (i : ℕ) :
    evalGOf (setAdjMap g am) i = evalGOf g i := by
  unfold evalGOf
  rw [get?_setAdjMap]
  cases g.get? i <;> rfl

theorem applyRev_eq_applyFwd_aux (ff : FloatFns) :
    ∀ k, (∀ g n, applyRevRecurse ff k g n = applyFwd ff k g n) ∧
      (∀ l g, applyRevList ff k g l = applyFwdList ff k g l) := by
  intro k
  induction k with
  | zero =>
    have hnode : ∀ (g : Arena) (n : ℕ), applyRevRecurse ff 0 g n = applyFwd ff 0 g n := by
      intro g n
      simp only [applyRevRecurse, applyFwd]
    refine ⟨hnode, ?_⟩
    intro l
    induction l with
    | nil => intro g; simp only [applyRevList, applyFwdList]
    | cons i rest ihl =>
      intro g
      simp only [applyRevList, applyFwdList, hnode, ihl]
  | succ k ih =>
    have hnode : ∀ (g : Arena) (n : ℕ),
        applyRevRecurse ff (k + 1) g n = applyFwd ff (k + 1) g n := by
      intro g n
      simp only [applyRevRecurse, applyFwd, ih.2]
    refine ⟨hnode, ?_⟩
    intro l
    induction l with
    | nil => intro g; simp only [applyRevList, applyFwdList]
    | cons i rest ihl =>
      intro g
      simp only [applyRevList, applyFwdList, hnode, ihl]

theorem applyFwd_setAdjMap (ff : FloatFns) (am : ℕ → Option AdjExpr) :
    ∀ k, (∀ g n, applyFwd ff k (setAdjMap g am) n =
        (applyFwd ff k g n).map (fun p => (p.1, setAdjMap p.2 am))) ∧
      (∀ l g, applyFwdList ff k (setAdjMap g am) l =
        (applyFwdList ff k g l).map (fun p => (p.1, setAdjMap p.2 am))) := by
  intro k
  induction k with
  | zero =>
    refine ⟨?_, ?_⟩
    · intro g n
      simp only [applyFwd, Except.map]
    · intro l
      induction l with
      | nil => intro g; simp only [applyFwdList, Except.map]
      | cons i rest ihl =>
        intro g
        simp only [applyFwdList, applyFwd, Except.map]
  | succ k ih =>
    have hnode : ∀ (g : Arena) (n : ℕ), applyFwd ff (k + 1) (setAdjMap g am) n =
        (applyFwd ff (k + 1) g n).map (fun p => (p.1, setAdjMap p.2 am)) := by
      intro g n
      simp only [applyFwd]
      rw [get?_setAdjMap]
      cases hn : g.get? n with
      | none => simp only [Option.map, Except.map]
      | some nd =>
        simp only [Option.map]
        rw [ih.2 nd.inp g]
        cases hl : applyFwdList ff k g nd.inp with
        | error e => simp only [Except.map]
        | ok p =>
          obtain ⟨args, g1⟩ := p
          simp only [Except.map]
          rw [get?_setAdjMap]
          cases h1 : g1.get? n with
          | none => simp only [Option.map, Except.map]
          | some nd1 =>
            simp only [Option.map]
            cases ho : opF ff nd1.op args nd1.val with
            | error e => simp only [Except.map]
            | ok v =>
              simp only [Except.map]
              rw [writeVal_setAdjMap]
    refine ⟨hnode, ?_⟩
    intro l
    induction l with
    | nil => intro g; simp only [applyFwdList, Except.map]
    | cons i rest ihl =>
        intro g
        simp only [applyFwdList]
        rw [hnode g i]
        cases hi : applyFwd ff (k + 1) g i with
        | error e => simp only [Except.map]
        | ok p =>
          obtain ⟨v, g1⟩ := p
          simp only [Except.map]
          rw [ihl g1, evalGOf_setAdjMap]
          cases hr : applyFwdList ff (k + 1) g1 rest with
          | error e => simp only [Except.map]
          | ok q => simp only [Except.map]

theorem opF_err {ff : FloatFns} {o : Op} {args : List (VT × Bool)} {v : Option VT}
    {e : Err} (h : opF ff o args v = .error e) :
    e ≠ .adjAccumEmpty ∧ e ≠ .leafAdjointMissing := by
  unfold opF at h
  dsimp only at h
  repeat' split at h
  all_goals
    first
      | exact Except.noConfusion h
      | (injection h with he
         subst he
         exact ⟨by decide, by decide⟩)

theorem applyFwd_err_aux (ff : FloatFns) :
    ∀ k, (∀ g n e, applyFwd ff k g n = .error e →
        e ≠ .adjAccumEmpty ∧ e ≠ .leafAdjointMissing) ∧
      (∀ l g e, applyFwdList ff k g l = .error e →
        e ≠ .adjAccumEmpty ∧ e ≠ .leafAdjointMissing) := by
  intro k
  induction k with
  | zero =>
    have hnode : ∀ (g : Arena) (n : ℕ) (e : Err), applyFwd ff 0 g n = .error e →
        e ≠ .adjAccumEmpty ∧ e ≠ .leafAdjointMissing := by
      intro g n e h
      simp only [applyFwd] at h
      injection h with he
      subst he
      exact ⟨by decide, by decide⟩
    refine ⟨hnode, ?_⟩
    intro l
    induction l with
    | nil =>
      intro g e h
      simp only [applyFwdList] at h
      exact Except.noConfusion h
    | cons i rest ihl =>
      intro g e h
      simp only [applyFwdList] at h
      split at h
      · injection h with he
        subst he
        exact hnode g i _ (by assumption)
      · split at h
        · injection h with he
          subst he
          exact ihl _ _ (by assumption)
        · exact Except.noConfusion h
  | succ k ih =>
    have hnode : ∀ (g : Arena) (n : ℕ) (e : Err), applyFwd ff (k + 1) g n = .error e →
        e ≠ .adjAccumEmpty ∧ e ≠ .leafAdjointMissing := by
      intro g n e h
      simp only [applyFwd] at h
      split at h
      · injection h with he
        subst he
        exact ⟨by decide, by decide⟩
      · split at h
        · injection h with he
          subst he
          exact ih.2 _ _ _ (by assumption)
        · split at h
          · injection h with he
            subst he
            exact ⟨by decide, by decide⟩
          · split at h
            · injection h with he
              subst he
              exact opF_err (by assumption)
            · exact Except.noConfusion h
    refine ⟨hnode, ?_⟩
    intro l
    induction l with
    | nil =>
      intro g e h
      simp only [applyFwdList] at h
      exact Except.noConfusion h
    | cons i rest ihl =>
      intro g e h
      simp only [applyFwdList] at h
      split at h
      · injection h with he
        subst he
        exact hnode _ _ _ (by assumption)
      · split at h
        · injection h with he
          subst he
          exact ihl _ _ (by assumption)
        · exact Except.noConfusion h

/-- C9 (confirmed): `apply_rev` is `apply_fwd`: `apply_rev_recurse`'s body is
the same post-order recursive evaluation as `apply_fwd`, so `apply_rev`
returns the same value and performs the same state mutations; and it never
consults any node's `adjoint_accumulator`: repainting every accumulator
arbitrarily leaves its value and its mutations unchanged (the accumulators
are carried through untouched). -/
theorem C9_applyRev_is_applyFwd (ff : FloatFns) (k : ℕ) (g : Arena) (n : ℕ)
    (am : ℕ → Option AdjExpr) :
    applyRev ff k g n = applyFwd ff k g n ∧
    applyRev ff k (setAdjMap g am) n =
      (applyRev ff k g n).map (fun p => (p.1, setAdjMap p.2 am)) := by
  refine ⟨(applyRev_eq_applyFwd_aux ff k).1 g n, ?_⟩
  show applyRevRecurse ff k (setAdjMap g am) n = _
  rw [(applyRev_eq_applyFwd_aux ff k).1, (applyFwd_setAdjMap ff am k).1]
  show _ = (applyRevRecurse ff k g n).map _
  rw [(applyRev_eq_applyFwd_aux ff k).1]

/-- C2 (counterexample): the claim states that `apply_rev(node)` reads the
node's `adjoint_accumulator` and fails ("adjoint missing") when it is
absent, in particular on a node never seeded by any `rev()`; but on a fresh
leaf whose accumulator is absent, `apply_rev` succeeds and simply returns
the leaf's value: it never reads the accumulator. -/
theorem C2_counterexample :
    adjOf gLeaf 0 = none ∧ applyRev ffZero 1 gLeaf 0 = .ok (.F 5, gLeaf) := by
  constructor
  · rfl
  · show applyRevRecurse ffZero 1 gLeaf 0 = _
    simp [applyRevRecurse, applyRevList, gLeaf, opF, writeVal, modifyN]

/-- C2 (amended): `apply_rev(node)` does not read the node's
`adjoint_accumulator` at all: it evaluates the node itself with the same
recursive evaluator as `apply_fwd` (returning exactly `apply_fwd`'s result)
and can never fail with a missing-adjoint error; the "adjoint missing"
failure of the spec belongs to callers that look up a leaf absent from a
`rev()` result map. -/
theorem C2_applyRev_no_adjoint_read (ff : FloatFns) (k : ℕ) (g : Arena) (n : ℕ) :
    applyRev ff k g n = applyFwd ff k g n ∧
    applyRev ff k g n ≠ .error .adjAccumEmpty ∧
    applyRev ff k g n ≠ .error .leafAdjointMissing := by
  have h1 : applyRev ff k g n = applyFwd ff k g n :=
    (applyRev_eq_applyFwd_aux ff k).1 g n
  refine ⟨h1, ?_, ?_⟩
  · intro hc
    rw [h1] at hc
    exact ((applyFwd_err_aux ff k).1 g n _ hc).1 rfl
  · intro hc
    rw [h1] at hc
    exact ((applyFwd_err_aux ff k).1 g n _ hc).2 rfl

theorem C2_applyRev_no_adjoint_read_witness :
    applyRev ffZero 1 gLeaf 0 = applyFwd ffZero 1 gLeaf 0 ∧
    applyRev ffZero 1 gLeaf 0 ≠ .error .adjAccumEmpty ∧
    applyRev ffZero 1 gLeaf 0 ≠ .error .leafAdjointMissing :=
  C2_applyRev_no_adjoint_read ffZero 1 gLeaf 0

theorem keepRel_refl (g : Arena) : keepRel g g :=
  ⟨rfl, fun _ => ⟨rfl, rfl, rfl, rfl⟩, fun _ _ => rfl⟩

theorem keepRel_trans {g h i : Arena} (h1 : keepRel g h) (h2 : keepRel h i) :
    keepRel g i := by
  obtain ⟨hl1, hf1, hv1⟩ := h1
  obtain ⟨hl2, hf2, hv2⟩ := h2
  refine ⟨hl2.trans hl1, ?_, ?_⟩
  · intro m
    exact ⟨(hf2 m).1.trans (hf1 m).1, (hf2 m).2.1.trans (hf1 m).2.1,
      (hf2 m).2.2.1.trans (hf1 m).2.2.1, (hf2 m).2.2.2.trans (hf1 m).2.2.2⟩
  · intro m hm
    have hop : (nodeAt h m).op = (nodeAt g m).op := (hf1 m).1
    exact (hv2 m (by rw [hop]; exact hm)).trans (hv1 m hm)

theorem keepRel_writeVal (g : Arena) (n : ℕ) (v : VT)
    (hval : (nodeAt g n).op = .leaf ∨ (nodeAt g n).op = .const →
      (nodeAt g n).val = some v) :
    keepRel g (writeVal g n v) := by
  unfold writeVal
  refine ⟨length_modifyN g n _, ?_, ?_⟩
  · intro m
    rw [nodeAt_modifyN]
    by_cases hc : m = n ∧ m < g.length
    · rw [if_pos hc]
      exact ⟨rfl, rfl, rfl, rfl⟩
    · rw [if_neg hc]
      exact ⟨rfl, rfl, rfl, rfl⟩
  · intro m hm
    rw [nodeAt_modifyN]
    by_cases hc : m = n ∧ m < g.length
    · rw [if_pos hc]
      obtain ⟨he, _⟩ := hc
      subst he
      exact (hval hm).symm
    · rw [if_neg hc]

theorem opF_leafconst_val {ff : FloatFns} {o : Op} {args : List (VT × Bool)}
    {w : Option VT} {v : VT} (ho : o = .leaf ∨ o = .const)
    (h : opF ff o args w = .ok v) : w = some v := by
  rcases ho with ho | ho <;> subst ho <;> unfold opF at h <;>
    (cases w with
     | none => exact Except.noConfusion h
     | some u => injection h with hu; rw [hu])

theorem applyFwd_keep (ff : FloatFns) :
    ∀ k, (∀ g n v g1, applyFwd ff k g n = .ok (v, g1) → keepRel g g1) ∧
      (∀ l g args g1, applyFwdList ff k g l = .ok (args, g1) → keepRel g g1) := by
  intro k
  induction k with
  | zero =>
    have hnode : ∀ (g : Arena) (n : ℕ) (v : VT) (g1 : Arena),
        applyFwd ff 0 g n = .ok (v, g1) → keepRel g g1 := by
      intro g n v g1 h
      simp only [applyFwd] at h
      exact Except.noConfusion h
    refine ⟨hnode, ?_⟩
    intro l
    induction l with
    | nil =>
      intro g args g1 h
      simp only [applyFwdList] at h
      injection h with hp
      injection hp with _ hg
      rw [← hg]
      exact keepRel_refl g
    | cons i rest ihl =>
      intro g args g1 h
      simp only [applyFwdList] at h
      split at h
      · exact Except.noConfusion h
      · split at h
        · exact Except.noConfusion h
        · injection h with hp
          injection hp with _ hg
          rw [← hg]
          exact keepRel_trans (hnode _ _ _ _ (by assumption)) (ihl _ _ _ (by assumption))
  | succ k ih =>
    have hnode : ∀ (g : Arena) (n : ℕ) (v : VT) (g1 : Arena),
        applyFwd ff (k + 1) g n = .ok (v, g1) → keepRel g g1 := by
      intro g n v g1 h
      simp only [applyFwd] at h
      split at h
      · exact Except.noConfusion h
      · rename_i nd hnd
        split at h
        · exact Except.noConfusion h
        · rename_i args g2 heq2
          split at h
          · exact Except.noConfusion h
          · rename_i nd1 hnd1
            split at h
            · exact Except.noConfusion h
            · rename_i v2 hv2
              injection h with hp
              injection hp with hv hg
              have hk1 : keepRel g g2 := ih.2 _ _ _ _ heq2
              have hw : keepRel g2 (writeVal g2 n v2) := by
                apply keepRel_writeVal
                intro ho
                have hnd1a : nodeAt g2 n = nd1 := by
                  unfold nodeAt
                  rw [hnd1]
                  rfl
                rw [hnd1a] at ho ⊢
                exact opF_leafconst_val ho hv2
              rw [← hg]
              exact keepRel_trans hk1 hw
    refine ⟨hnode, ?_⟩
    intro l
    induction l with
    | nil =>
      intro g args g1 h
      simp only [applyFwdList] at h
      injection h with hp
      injection hp with _ hg
      rw [← hg]
      exact keepRel_refl g
    | cons i rest ihl =>
      intro g args g1 h
      simp only [applyFwdList] at h
      split at h
      · exact Except.noConfusion h
      · split at h
        · exact Except.noConfusion h
        · injection h with hp
          injection hp with _ hg
          rw [← hg]
          exact keepRel_trans (hnode _ _ _ _ (by assumption)) (ihl _ _ _ (by assumption))

theorem evalGOf_congr {g h : Arena} (hag : evalAgree g h) (i : ℕ) :
    evalGOf g i = evalGOf h i := by
  unfold evalGOf
  by_cases hi : i < g.length
  · rw [get?_lt hi, get?_lt (by rw [← hag.1.1]; exact hi)]
    exact (hag.1.2 i).2.2
  · rw [get?_ge hi, get?_ge (by rw [← hag.1.1]; exact hi)]

theorem evalAgree_writeVal {g h : Arena} (hag : evalAgree g h) (n : ℕ) (v : VT) :
    evalAgree (writeVal g n v) (writeVal h n v) := by
  obtain ⟨⟨hl, hf⟩, hv⟩ := hag
  unfold writeVal
  refine ⟨⟨by rw [length_modifyN, length_modifyN, hl], ?_⟩, ?_⟩
  · intro m
    rw [nodeAt_modifyN, nodeAt_modifyN]
    by_cases hc : m = n ∧ m < g.length
    · rw [if_pos hc, if_pos (by rw [← hl]; exact hc)]
      exact ⟨(hf m).1, (hf m).2.1, (hf m).2.2⟩
    · rw [if_neg hc, if_neg (by rw [← hl]; exact hc)]
      exact hf m
  · intro m hm
    rw [nodeAt_modifyN] at hm ⊢
    rw [nodeAt_modifyN]
    by_cases hc : m = n ∧ m < g.length
    · rw [if_pos hc] at hm ⊢
      rw [if_pos (by rw [← hl]; exact hc)]
    · rw [if_neg hc] at hm ⊢
      rw [if_neg (by rw [← hl]; exact hc)]
      exact hv m hm

theorem opF_val_irrel (ff : FloatFns) {o : Op} (args : List (VT × Bool))
    (v w : Option VT) (ho : ¬ (o = .leaf ∨ o = .const)) :
    opF ff o args v = opF ff o args w := by
  cases o <;> first
    | exact absurd (Or.inl rfl) ho
    | exact absurd (Or.inr rfl) ho
    | rfl

theorem applyFwd_congr (ff : FloatFns) :
    ∀ k, (∀ g h n, evalAgree g h → resRel (applyFwd ff k g n) (applyFwd ff k h n)) ∧
      (∀ l g h, evalAgree g h →
        listResRel (applyFwdList ff k g l) (applyFwdList ff k h l)) := by
  intro k
  induction k with
  | zero =>
    have hnode : ∀ (g h : Arena) (n : ℕ), evalAgree g h →
        resRel (applyFwd ff 0 g n) (applyFwd ff 0 h n) := by
      intro g h n _
      simp only [applyFwd]
      exact rfl
    refine ⟨hnode, ?_⟩
    intro l
    induction l with
    | nil =>
      intro g h hag
      simp only [applyFwdList]
      exact ⟨rfl, hag⟩
    | cons i rest ihl =>
      intro g h hag
      simp only [applyFwdList, applyFwd]
      exact rfl
  | succ k ih =>
    have hnode : ∀ (g h : Arena) (n : ℕ), evalAgree g h →
        resRel (applyFwd ff (k + 1) g n) (applyFwd ff (k + 1) h n) := by
      intro g h n hag
      simp only [applyFwd]
      by_cases hn : n < g.length
      · rw [get?_lt hn, get?_lt (show n < h.length by rw [← hag.1.1]; exact hn)]
        dsimp only
        have hinp : (nodeAt g n).inp = (nodeAt h n).inp := (hag.1.2 n).2.1
        rw [← hinp]
        have hlist := ih.2 (nodeAt g n).inp g h hag
        cases hl1 : applyFwdList ff k g (nodeAt g n).inp with
        | error e =>
          rw [hl1] at hlist
          cases hl2 : applyFwdList ff k h (nodeAt g n).inp with
          | error e2 =>
            rw [hl2] at hlist
            have he : e = e2 := hlist
            rw [he]
            exact rfl
          | ok p =>
            rw [hl2] at hlist
            obtain ⟨a, g1⟩ := p
            exact hlist.elim
        | ok p =>
          rw [hl1] at hlist
          obtain ⟨args, g1⟩ := p
          cases hl2 : applyFwdList ff k h (nodeAt g n).inp with
          | error e2 =>
            rw [hl2] at hlist
            exact hlist.elim
          | ok q =>
            rw [hl2] at hlist
            obtain ⟨args2, h1⟩ := q
            obtain ⟨hargs, hag1⟩ := hlist
            have hg1len : g1.length = g.length :=
              ((applyFwd_keep ff k).2 _ _ _ _ hl1).1
            have hh1len : h1.length = h.length :=
              ((applyFwd_keep ff k).2 _ _ _ _ hl2).1
            dsimp only
            rw [get?_lt (show n < g1.length by rw [hg1len]; exact hn),
              get?_lt (show n < h1.length by
                rw [hh1len, ← hag.1.1]; exact hn)]
            dsimp only
            have hop : (nodeAt g1 n).op = (nodeAt h1 n).op := (hag1.1.2 n).1
            have hopF : opF ff (nodeAt g1 n).op args (nodeAt g1 n).val =
                opF ff (nodeAt h1 n).op args2 (nodeAt h1 n).val := by
              rw [← hargs, ← hop]
              by_cases ho : (nodeAt g1 n).op = .leaf ∨ (nodeAt g1 n).op = .const
              · rw [hag1.2 n ho]
              · exact opF_val_irrel ff args _ _ ho
            rw [hopF]
            cases ho2 : opF ff (nodeAt h1 n).op args2 (nodeAt h1 n).val with
            | error e => exact rfl
            | ok v => exact ⟨rfl, evalAgree_writeVal hag1 n v⟩
      · rw [get?_ge hn, get?_ge (show ¬ n < h.length by rw [← hag.1.1]; exact hn)]
        exact rfl
    refine ⟨hnode, ?_⟩
    intro l
    induction l with
    | nil =>
      intro g h hag
      simp only [applyFwdList]
      exact ⟨rfl, hag⟩
    | cons i rest ihl =>
      intro g h hag
      simp only [applyFwdList]
      have hi := hnode g h i hag
      cases h1 : applyFwd ff (k + 1) g i with
      | error e =>
        rw [h1] at hi
        cases h2 : applyFwd ff (k + 1) h i with
        | error e2 =>
          rw [h2] at hi
          rw [show e = e2 from hi]
          exact rfl
        | ok p =>
          rw [h2] at hi
          obtain ⟨v, g1⟩ := p
          exact hi.elim
      | ok p =>
        rw [h1] at hi
        obtain ⟨v, g1⟩ := p
        cases h2 : applyFwd ff (k + 1) h i with
        | error e2 =>
          rw [h2] at hi
          exact hi.elim
        | ok q =>
          rw [h2] at hi
          obtain ⟨w, h1a⟩ := q
          obtain ⟨hv, hag1⟩ := hi
          dsimp only
          have hrest := ihl g1 h1a hag1
          cases h3 : applyFwdList ff (k + 1) g1 rest with
          | error e =>
            rw [h3] at hrest
            cases h4 : applyFwdList ff (k + 1) h1a rest with
            | error e2 =>
              rw [h4] at hrest
              have he : e = e2 := hrest
              rw [he]
              exact rfl
            | ok p2 =>
              rw [h4] at hrest
              obtain ⟨a2, g2⟩ := p2
              exact hrest.elim
          | ok p2 =>
            rw [h3] at hrest
            obtain ⟨args, g2⟩ := p2
            cases h4 : applyFwdList ff (k + 1) h1a rest with
            | error e2 =>
              rw [h4] at hrest
              exact hrest.elim
            | ok q2 =>
              rw [h4] at hrest
              obtain ⟨args2, h2a⟩ := q2
              obtain ⟨hargs, hag2⟩ := hrest
              exact ⟨by rw [hv, hargs, evalGOf_congr hag1 i], hag2⟩

theorem valOf_resRel {r1 r2 : Except Err (VT × Arena)} (h : resRel r1 r2) :
    valOf r1 = valOf r2 := by
  cases r1 with
  | error e =>
    cases r2 with
    | error e2 =>
      have he : e = e2 := h
      rw [he]
    | ok q => exact h.elim
  | ok p =>
    obtain ⟨v, g1⟩ := p
    cases r2 with
    | error e2 => exact h.elim
    | ok q =>
      obtain ⟨w, h1⟩ := q
      have hv : v = w := h.1
      simp only [valOf, Except.map, hv]

/-- C7 (confirmed): `apply_fwd` performs no cross-call memoization.  After a
full evaluation pass from `n` (leaving arbitrary cached values `g1`),
overwriting any leaf via `set_val` and re-running `apply_fwd` on the same
unmodified graph returns exactly the value a freshly rebuilt graph at the
new value (the original arena with only the leaf updated, no stale caches)
would give. -/
theorem C7_no_memoization (ff : FloatFns) (k : ℕ) (g : Arena) (n i : ℕ)
    (v : VT) (v1 : VT) (g1 : Arena) (h : applyFwd ff k g n = .ok (v1, g1)) :
    valOf (applyFwd ff k (setVal g1 i v) n) = valOf (applyFwd ff k (setVal g i v) n) := by
  have hkeep : keepRel g g1 := (applyFwd_keep ff k).1 g n v1 g1 h
  obtain ⟨hlen, hfields, hvals⟩ := hkeep
  have hag : evalAgree (setVal g1 i v) (setVal g i v) := by
    unfold setVal
    refine ⟨⟨?_, ?_⟩, ?_⟩
    · rw [length_modifyN, length_modifyN, hlen]
    · intro m
      rw [nodeAt_modifyN, nodeAt_modifyN]
      by_cases hc : m = i ∧ m < g1.length
      · rw [if_pos hc, if_pos (show m = i ∧ m < g.length from ⟨hc.1, hlen ▸ hc.2⟩)]
        exact ⟨(hfields m).1, (hfields m).2.1, (hfields m).2.2.1⟩
      · rw [if_neg hc, if_neg (show ¬ (m = i ∧ m < g.length) from
          fun hc2 => hc ⟨hc2.1, hlen.symm ▸ hc2.2⟩)]
        exact ⟨(hfields m).1, (hfields m).2.1, (hfields m).2.2.1⟩
    · intro m hm
      rw [nodeAt_modifyN] at hm ⊢
      rw [nodeAt_modifyN]
      by_cases hc : m = i ∧ m < g1.length
      · rw [if_pos hc]
        rw [if_pos (show m = i ∧ m < g.length from ⟨hc.1, hlen ▸ hc.2⟩)]
      · rw [if_neg hc] at hm ⊢
        rw [if_neg (show ¬ (m = i ∧ m < g.length) from
          fun hc2 => hc ⟨hc2.1, hlen.symm ▸ hc2.2⟩)]
        apply hvals
        rw [← (hfields m).1]
        exact hm
  exact valOf_resRel ((applyFwd_congr ff k).1 _ _ n hag)

theorem C7_no_memoization_witness :
    valOf (applyFwd ffZero 2 (setVal gW7c 0 (.F 3)) 1) =
      valOf (applyFwd ffZero 2 (setVal gW7 0 (.F 3)) 1) :=
  C7_no_memoization ffZero 2 gW7 1 0 (.F 3) (.F 4) gW7c
    (by norm_num [applyFwd, applyFwdList, gW7, gW7c, nodeAt, evalGOf, writeVal,
      modifyN, opF, ffZero])

theorem opF_lvm {ff : FloatFns} {o : Op} {args : List (VT × Bool)} {v : Option VT}
    (h : opF ff o args v = .error .leafValueMissing) :
    (o = .leaf ∨ o = .const) ∧ v = none := by
  cases o <;> unfold opF at h <;> dsimp only at h <;> (repeat' split at h) <;>
    first
      | exact Except.noConfusion h
      | (injection h with he; exact absurd he.symm (by decide))
      | exact ⟨by simp, rfl⟩

theorem wellValued_of_keep {g h : Arena} (hk : keepRel g h) (hw : wellValued g) :
    wellValued h := by
  intro n hn ho
  rw [(hk.2.1 n).1] at ho
  rw [hk.2.2 n ho]
  exact hw n (by rw [← hk.1]; exact hn) ho

theorem nodeAt_append_lt {g Δ : Arena} {m : ℕ} (h : m < g.length) :
    nodeAt (g ++ Δ) m = nodeAt g m := by
  unfold nodeAt
  rw [List.get?_append h]

theorem nodeAt_append_ge {g Δ : Arena} {m : ℕ} (h : g.length ≤ m) :
    nodeAt (g ++ Δ) m = nodeAt Δ (m - g.length) := by
  unfold nodeAt
  rw [List.get?_eq_getElem?, List.getElem?_append_right h, ← List.get?_eq_getElem?]

theorem wellValued_push {g : Arena} (hw : wellValued g) (o : Op) (inp : List ℕ)
    (v : Option VT) (hov : o = .leaf ∨ o = .const → v ≠ none) :
    wellValued (g ++ [⟨o, inp, v, false, none⟩]) := by
  intro n hn ho
  rw [List.length_append, List.length_singleton] at hn
  by_cases hlt : n < g.length
  · rw [nodeAt_append_lt hlt] at ho ⊢
    exact hw n hlt ho
  · have hn2 : n = g.length := by omega
    subst hn2
    rw [nodeAt_append_ge (le_refl _)] at ho ⊢
    simp only [Nat.sub_self] at ho ⊢
    exact hov ho

theorem applyFwd_no_lvm (ff : FloatFns) :
    ∀ k, (∀ g n, wellValued g → applyFwd ff k g n ≠ .error .leafValueMissing) ∧
      (∀ l g, wellValued g → applyFwdList ff k g l ≠ .error .leafValueMissing) := by
  intro k
  induction k with
  | zero =>
    have hnode : ∀ (g : Arena) (n : ℕ), wellValued g →
        applyFwd ff 0 g n ≠ .error .leafValueMissing := by
      intro g n _ h
      simp only [applyFwd] at h
      injection h with he
      exact absurd he (by decide)
    refine ⟨hnode, ?_⟩
    intro l
    induction l with
    | nil =>
      intro g _ h
      simp only [applyFwdList] at h
      exact Except.noConfusion h
    | cons i rest ihl =>
      intro g hw h
      simp only [applyFwdList] at h
      split at h
      · injection h with he
        subst he
        exact hnode g i hw (by assumption)
      · split at h
        · injection h with he
          subst he
          exact ihl _ (wellValued_of_keep
            ((applyFwd_keep ff 0).1 _ _ _ _ (by assumption)) hw) (by assumption)
        · exact Except.noConfusion h
  | succ k ih =>
    have hnode : ∀ (g : Arena) (n : ℕ), wellValued g →
        applyFwd ff (k + 1) g n ≠ .error .leafValueMissing := by
      intro g n hw h
      simp only [applyFwd] at h
      split at h
      · injection h with he
        exact absurd he (by decide)
      · rename_i nd hnd
        split at h
        · injection h with he
          subst he
          exact ih.2 nd.inp g hw (by assumption)
        · rename_i args g2 heq2
          split at h
          · injection h with he
            exact absurd he (by decide)
          · rename_i nd1 hnd1
            split at h
            · rename_i e hopf
              injection h with he
              subst he
              have hlc := opF_lvm hopf
              have hw2 : wellValued g2 :=
                wellValued_of_keep ((applyFwd_keep ff k).2 _ _ _ _ heq2) hw
              have hn2 : n < g2.length := by
                by_contra hc
                rw [get?_ge hc] at hnd1
                exact Option.noConfusion hnd1
              have hnd1a : nodeAt g2 n = nd1 := by
                unfold nodeAt
                rw [hnd1]
                rfl
              exact hw2 n hn2 (by rw [hnd1a]; exact hlc.1) (by rw [hnd1a]; exact hlc.2)
            · exact Except.noConfusion h
    refine ⟨hnode, ?_⟩
    intro l
    induction l with
    | nil =>
      intro g _ h
      simp only [applyFwdList] at h
      exact Except.noConfusion h
    | cons i rest ihl =>
      intro g hw h
      simp only [applyFwdList] at h
      split at h
      · injection h with he
        subst he
        exact hnode g i hw (by assumption)
      · split at h
        · injection h with he
          subst he
          exact ihl _ (wellValued_of_keep
            ((applyFwd_keep ff (k + 1)).1 _ _ _ _ (by assumption)) hw) (by assumption)
        · exact Except.noConfusion h


theorem evalAdj_no_lvm (ff : FloatFns) (k : ℕ) :
    ∀ (e : AdjExpr) (g : Arena), wellValued g →
      evalAdj ff k g e ≠ .error .leafValueMissing ∧
      (∀ v g1, evalAdj ff k g e = .ok (v, g1) → wellValued g1) := by
  intro e
  induction e with
  | ref i =>
    intro g hw
    refine ⟨(applyFwd_no_lvm ff k).1 g i hw, ?_⟩
    intro v g1 h
    exact wellValued_of_keep ((applyFwd_keep ff k).1 _ _ _ _ h) hw
  | one =>
    intro g hw
    constructor
    · intro h
      simp only [evalAdj, opF, Except.map] at h
      exact Except.noConfusion h
    · intro v g1 h
      simp only [evalAdj, opF, Except.map] at h
      injection h with hp
      injection hp with _ hg
      rw [← hg]
      exact hw
  | zero =>
    intro g hw
    constructor
    · intro h
      simp only [evalAdj, opF, Except.map] at h
      exact Except.noConfusion h
    · intro v g1 h
      simp only [evalAdj, opF, Except.map] at h
      injection h with hp
      injection hp with _ hg
      rw [← hg]
      exact hw
  | constE c =>
    intro g hw
    constructor
    · intro h
      simp only [evalAdj, opF, Except.map] at h
      exact Except.noConfusion h
    · intro v g1 h
      simp only [evalAdj, opF, Except.map] at h
      injection h with hp
      injection hp with _ hg
      rw [← hg]
      exact hw
  | aadd a b iha ihb =>
    intro g hw
    constructor
    · intro h
      simp only [evalAdj] at h
      cases h1 : evalAdj ff k g a with
      | error e =>
        rw [h1] at h
        dsimp only at h
        injection h with he
        subst he
        exact (iha g hw).1 h1
      | ok p =>
        obtain ⟨v1, g1⟩ := p
        rw [h1] at h
        dsimp only at h
        have hw1 : wellValued g1 := (iha g hw).2 _ _ h1
        cases h2 : evalAdj ff k g1 b with
        | error e =>
          rw [h2] at h
          dsimp only at h
          injection h with he
          subst he
          exact (ihb g1 hw1).1 h2
        | ok q =>
          obtain ⟨v2, g2⟩ := q
          rw [h2] at h
          dsimp only at h
          cases ho : opF ff .add [(v1, adjFlag g a), (v2, adjFlag g1 b)] none with
          | error e =>
            rw [ho] at h
            simp only [Except.map] at h
            injection h with he
            subst he
            exact absurd (opF_lvm ho).1 (by decide)
          | ok w =>
            rw [ho] at h
            simp only [Except.map] at h
            exact Except.noConfusion h
    · intro v gf h
      simp only [evalAdj] at h
      cases h1 : evalAdj ff k g a with
      | error e =>
        rw [h1] at h
        exact Except.noConfusion h
      | ok p =>
        obtain ⟨v1, g1⟩ := p
        rw [h1] at h
        dsimp only at h
        have hw1 : wellValued g1 := (iha g hw).2 _ _ h1
        cases h2 : evalAdj ff k g1 b with
        | error e =>
          rw [h2] at h
          exact Except.noConfusion h
        | ok q =>
          obtain ⟨v2, g2⟩ := q
          rw [h2] at h
          dsimp only at h
          cases ho : opF ff .add [(v1, adjFlag g a), (v2, adjFlag g1 b)] none with
          | error e =>
            rw [ho] at h
            simp only [Except.map] at h
            exact Except.noConfusion h
          | ok w =>
            rw [ho] at h
            simp only [Except.map] at h
            injection h with hp
            injection hp with _ hg
            rw [← hg]
            exact (ihb g1 hw1).2 _ _ h2
  | amul a b iha ihb =>
    intro g hw
    constructor
    · intro h
      simp only [evalAdj] at h
      cases h1 : evalAdj ff k g a with
      | error e =>
        rw [h1] at h
        dsimp only at h
        injection h with he
        subst he
        exact (iha g hw).1 h1
      | ok p =>
        obtain ⟨v1, g1⟩ := p
        rw [h1] at h
        dsimp only at h
        have hw1 : wellValued g1 := (iha g hw).2 _ _ h1
        cases h2 : evalAdj ff k g1 b with
        | error e =>
          rw [h2] at h
          dsimp only at h
          injection h with he
          subst he
          exact (ihb g1 hw1).1 h2
        | ok q =>
          obtain ⟨v2, g2⟩ := q
          rw [h2] at h
          dsimp only at h
          cases ho : opF ff .mul [(v1, adjFlag g a), (v2, adjFlag g1 b)] none with
          | error e =>
            rw [ho] at h
            simp only [Except.map] at h
            injection h with he
            subst he
            exact absurd (opF_lvm ho).1 (by decide)
          | ok w =>
            rw [ho] at h
            simp only [Except.map] at h
            exact Except.noConfusion h
    · intro v gf h
      simp only [evalAdj] at h
      cases h1 : evalAdj ff k g a with
      | error e =>
        rw [h1] at h
        exact Except.noConfusion h
      | ok p =>
        obtain ⟨v1, g1⟩ := p
        rw [h1] at h
        dsimp only at h
        have hw1 : wellValued g1 := (iha g hw).2 _ _ h1
        cases h2 : evalAdj ff k g1 b with
        | error e =>
          rw [h2] at h
          exact Except.noConfusion h
        | ok q =>
          obtain ⟨v2, g2⟩ := q
          rw [h2] at h
          dsimp only at h
          cases ho : opF ff .mul [(v1, adjFlag g a), (v2, adjFlag g1 b)] none with
          | error e =>
            rw [ho] at h
            simp only [Except.map] at h
            exact Except.noConfusion h
          | ok w =>
            rw [ho] at h
            simp only [Except.map] at h
            injection h with hp
            injection hp with _ hg
            rw [← hg]
            exact (ihb g1 hw1).2 _ _ h2
  | adiv a b iha ihb =>
    intro g hw
    constructor
    · intro h
      simp only [evalAdj] at h
      cases h1 : evalAdj ff k g a with
      | error e =>
        rw [h1] at h
        dsimp only at h
        injection h with he
        subst he
        exact (iha g hw).1 h1
      | ok p =>
        obtain ⟨v1, g1⟩ := p
        rw [h1] at h
        dsimp only at h
        have hw1 : wellValued g1 := (iha g hw).2 _ _ h1
        cases h2 : evalAdj ff k g1 b with
        | error e =>
          rw [h2] at h
          dsimp only at h
          injection h with he
          subst he
          exact (ihb g1 hw1).1 h2
        | ok q =>
          obtain ⟨v2, g2⟩ := q
          rw [h2] at h
          dsimp only at h
          cases ho : opF ff .div [(v1, adjFlag g a), (v2, adjFlag g1 b)] none with
          | error e =>
            rw [ho] at h
            simp only [Except.map] at h
            injection h with he
            subst he
            exact absurd (opF_lvm ho).1 (by decide)
          | ok w =>
            rw [ho] at h
            simp only [Except.map] at h
            exact Except.noConfusion h
    · intro v gf h
      simp only [evalAdj] at h
      cases h1 : evalAdj ff k g a with
      | error e =>
        rw [h1] at h
        exact Except.noConfusion h
      | ok p =>
        obtain ⟨v1, g1⟩ := p
        rw [h1] at h
        dsimp only at h
        have hw1 : wellValued g1 := (iha g hw).2 _ _ h1
        cases h2 : evalAdj ff k g1 b with
        | error e =>
          rw [h2] at h
          exact Except.noConfusion h
        | ok q =>
          obtain ⟨v2, g2⟩ := q
          rw [h2] at h
          dsimp only at h
          cases ho : opF ff .div [(v1, adjFlag g a), (v2, adjFlag g1 b)] none with
          | error e =>
            rw [ho] at h
            simp only [Except.map] at h
            exact Except.noConfusion h
          | ok w =>
            rw [ho] at h
            simp only [Except.map] at h
            injection h with hp
            injection hp with _ hg
            rw [← hg]
            exact (ihb g1 hw1).2 _ _ h2
  | apow a b iha ihb =>
    intro g hw
    constructor
    · intro h
      simp only [evalAdj] at h
      cases h1 : evalAdj ff k g a with
      | error e =>
        rw [h1] at h
        dsimp only at h
        injection h with he
        subst he
        exact (iha g hw).1 h1
      | ok p =>
        obtain ⟨v1, g1⟩ := p
        rw [h1] at h
        dsimp only at h
        have hw1 : wellValued g1 := (iha g hw).2 _ _ h1
        cases h2 : evalAdj ff k g1 b with
        | error e =>
          rw [h2] at h
          dsimp only at h
          injection h with he
          subst he
          exact (ihb g1 hw1).1 h2
        | ok q =>
          obtain ⟨v2, g2⟩ := q
          rw [h2] at h
          dsimp only at h
          cases ho : opF ff .pow [(v1, adjFlag g a), (v2, adjFlag g1 b)] none with
          | error e =>
            rw [ho] at h
            simp only [Except.map] at h
            injection h with he
            subst he
            exact absurd (opF_lvm ho).1 (by decide)
          | ok w =>
            rw [ho] at h
            simp only [Except.map] at h
            exact Except.noConfusion h
    · intro v gf h
      simp only [evalAdj] at h
      cases h1 : evalAdj ff k g a with
      | error e =>
        rw [h1] at h
        exact Except.noConfusion h
      | ok p =>
        obtain ⟨v1, g1⟩ := p
        rw [h1] at h
        dsimp only at h
        have hw1 : wellValued g1 := (iha g hw).2 _ _ h1
        cases h2 : evalAdj ff k g1 b with
        | error e =>
          rw [h2] at h
          exact Except.noConfusion h
        | ok q =>
          obtain ⟨v2, g2⟩ := q
          rw [h2] at h
          dsimp only at h
          cases ho : opF ff .pow [(v1, adjFlag g a), (v2, adjFlag g1 b)] none with
          | error e =>
            rw [ho] at h
            simp only [Except.map] at h
            exact Except.noConfusion h
          | ok w =>
            rw [ho] at h
            simp only [Except.map] at h
            injection h with hp
            injection hp with _ hg
            rw [← hg]
            exact (ihb g1 hw1).2 _ _ h2
  | asin a iha =>
    intro g hw
    constructor
    · intro h
      simp only [evalAdj] at h
      cases h1 : evalAdj ff k g a with
      | error e =>
        rw [h1] at h
        dsimp only at h
        injection h with he
        subst he
        exact (iha g hw).1 h1
      | ok p =>
        obtain ⟨v1, g1⟩ := p
        rw [h1] at h
        dsimp only at h
        cases ho : opF ff .sin [(v1, adjFlag g a)] none with
        | error e =>
          rw [ho] at h
          simp only [Except.map] at h
          injection h with he
          subst he
          exact absurd (opF_lvm ho).1 (by decide)
        | ok w =>
          rw [ho] at h
          simp only [Except.map] at h
          exact Except.noConfusion h
    · intro v gf h
      simp only [evalAdj] at h
      cases h1 : evalAdj ff k g a with
      | error e =>
        rw [h1] at h
        exact Except.noConfusion h
      | ok p =>
        obtain ⟨v1, g1⟩ := p
        rw [h1] at h
        dsimp only at h
        have hw1 : wellValued g1 := (iha g hw).2 _ _ h1
        cases ho : opF ff .sin [(v1, adjFlag g a)] none with
        | error e =>
          rw [ho] at h
          simp only [Except.map] at h
          exact Except.noConfusion h
        | ok w =>
          rw [ho] at h
          simp only [Except.map] at h
          injection h with hp
          injection hp with _ hg
          rw [← hg]
          exact hw1
  | acos a iha =>
    intro g hw
    constructor
    · intro h
      simp only [evalAdj] at h
      cases h1 : evalAdj ff k g a with
      | error e =>
        rw [h1] at h
        dsimp only at h
        injection h with he
        subst he
        exact (iha g hw).1 h1
      | ok p =>
        obtain ⟨v1, g1⟩ := p
        rw [h1] at h
        dsimp only at h
        cases ho : opF ff .cos [(v1, adjFlag g a)] none with
        | error e =>
          rw [ho] at h
          simp only [Except.map] at h
          injection h with he
          subst he
          exact absurd (opF_lvm ho).1 (by decide)
        | ok w =>
          rw [ho] at h
          simp only [Except.map] at h
          exact Except.noConfusion h
    · intro v gf h
      simp only [evalAdj] at h
      cases h1 : evalAdj ff k g a with
      | error e =>
        rw [h1] at h
        exact Except.noConfusion h
      | ok p =>
        obtain ⟨v1, g1⟩ := p
        rw [h1] at h
        dsimp only at h
        have hw1 : wellValued g1 := (iha g hw).2 _ _ h1
        cases ho : opF ff .cos [(v1, adjFlag g a)] none with
        | error e =>
          rw [ho] at h
          simp only [Except.map] at h
          exact Except.noConfusion h
        | ok w =>
          rw [ho] at h
          simp only [Except.map] at h
          injection h with hp
          injection hp with _ hg
          rw [← hg]
          exact hw1
  | aexp a iha =>
    intro g hw
    constructor
    · intro h
      simp only [evalAdj] at h
      cases h1 : evalAdj ff k g a with
      | error e =>
        rw [h1] at h
        dsimp only at h
        injection h with he
        subst he
        exact (iha g hw).1 h1
      | ok p =>
        obtain ⟨v1, g1⟩ := p
        rw [h1] at h
        dsimp only at h
        cases ho : opF ff .exp [(v1, adjFlag g a)] none with
        | error e =>
          rw [ho] at h
          simp only [Except.map] at h
          injection h with he
          subst he
          exact absurd (opF_lvm ho).1 (by decide)
        | ok w =>
          rw [ho] at h
          simp only [Except.map] at h
          exact Except.noConfusion h
    · intro v gf h
      simp only [evalAdj] at h
      cases h1 : evalAdj ff k g a with
      | error e =>
        rw [h1] at h
        exact Except.noConfusion h
      | ok p =>
        obtain ⟨v1, g1⟩ := p
        rw [h1] at h
        dsimp only at h
        have hw1 : wellValued g1 := (iha g hw).2 _ _ h1
        cases ho : opF ff .exp [(v1, adjFlag g a)] none with
        | error e =>
          rw [ho] at h
          simp only [Except.map] at h
          exact Except.noConfusion h
        | ok w =>
          rw [ho] at h
          simp only [Except.map] at h
          injection h with hp
          injection hp with _ hg
          rw [← hg]
          exact hw1
  | alog a iha =>
    intro g hw
    constructor
    · intro h
      simp only [evalAdj] at h
      cases h1 : evalAdj ff k g a with
      | error e =>
        rw [h1] at h
        dsimp only at h
        injection h with he
        subst he
        exact (iha g hw).1 h1
      | ok p =>
        obtain ⟨v1, g1⟩ := p
        rw [h1] at h
        dsimp only at h
        cases ho : opF ff .ln [(v1, adjFlag g a)] none with
        | error e =>
          rw [ho] at h
          simp only [Except.map] at h
          injection h with he
          subst he
          exact absurd (opF_lvm ho).1 (by decide)
        | ok w =>
          rw [ho] at h
          simp only [Except.map] at h
          exact Except.noConfusion h
    · intro v gf h
      simp only [evalAdj] at h
      cases h1 : evalAdj ff k g a with
      | error e =>
        rw [h1] at h
        exact Except.noConfusion h
      | ok p =>
        obtain ⟨v1, g1⟩ := p
        rw [h1] at h
        dsimp only at h
        have hw1 : wellValued g1 := (iha g hw).2 _ _ h1
        cases ho : opF ff .ln [(v1, adjFlag g a)] none with
        | error e =>
          rw [ho] at h
          simp only [Except.map] at h
          exact Except.noConfusion h
        | ok w =>
          rw [ho] at h
          simp only [Except.map] at h
          injection h with hp
          injection hp with _ hg
          rw [← hg]
          exact hw1

theorem adjOnly_refl (g : Arena) : adjOnly g g :=
  ⟨rfl, fun _ => ⟨rfl, rfl, rfl, rfl⟩⟩

theorem adjOnly_trans {g h i : Arena} (h1 : adjOnly g h) (h2 : adjOnly h i) :
    adjOnly g i := by
  refine ⟨h2.1.trans h1.1, fun m => ?_⟩
  exact ⟨(h2.2 m).1.trans (h1.2 m).1, (h2.2 m).2.1.trans (h1.2 m).2.1,
    (h2.2 m).2.2.1.trans (h1.2 m).2.2.1, (h2.2 m).2.2.2.trans (h1.2 m).2.2.2⟩

theorem adjOnly_setAdj (g : Arena) (n : ℕ) (a : Option AdjExpr) :
    adjOnly g (setAdj g n a) := by
  unfold setAdj
  refine ⟨length_modifyN g n _, fun m => ?_⟩
  rw [nodeAt_modifyN]
  by_cases hc : m = n ∧ m < g.length
  · rw [if_pos hc]
    exact ⟨rfl, rfl, rfl, rfl⟩
  · rw [if_neg hc]
    exact ⟨rfl, rfl, rfl, rfl⟩

theorem adjOnly_propagate (g : Arena) :
    ∀ (is_ : List ℕ) (adjs : List AdjExpr), adjOnly g (propagate g is_ adjs) := by
  intro is_
  induction is_ generalizing g with
  | nil => intro adjs; exact adjOnly_refl g
  | cons i rest ihl =>
    intro adjs
    cases adjs with
    | nil => exact adjOnly_refl g
    | cons a as_ =>
      exact adjOnly_trans (adjOnly_setAdj g i _) (ihl _ _)

theorem revLoop_adjOnly :
    ∀ (fuel : ℕ) (st : RevSt) (out : List (ℕ × AdjExpr)) (gf : Arena),
      revLoop fuel st = .ok (out, gf) → adjOnly st.g gf := by
  intro fuel
  induction fuel with
  | zero =>
    intro st out gf h
    simp only [revLoop] at h
    split at h
    · injection h with hp
      injection hp with _ hg
      rw [← hg]
      exact adjOnly_refl st.g
    · exact Except.noConfusion h
  | succ k ih =>
    intro st out gf h
    simp only [revLoop] at h
    split at h
    · injection h with hp
      injection hp with _ hg
      rw [← hg]
      exact adjOnly_refl st.g
    · split at h
      · have h2 := ih _ _ _ h
        exact h2
      · split at h
        · exact Except.noConfusion h
        · split at h
          · exact Except.noConfusion h
          · split at h
            · exact Except.noConfusion h
            · split at h
              · exact Except.noConfusion h
              · split at h
                · split at h
                  · exact Except.noConfusion h
                  · refine adjOnly_trans ?_ (ih _ _ _ h)
                    exact adjOnly_trans
                      (adjOnly_trans
                        (by split <;> first | exact adjOnly_refl _ | exact adjOnly_setAdj _ _ _)
                        (adjOnly_propagate _ _ _))
                      (adjOnly_setAdj _ _ _)
                · refine adjOnly_trans ?_ (ih _ _ _ h)
                  exact adjOnly_trans
                    (adjOnly_trans
                      (by split <;> first | exact adjOnly_refl _ | exact adjOnly_setAdj _ _ _)
                      (adjOnly_propagate _ _ _))
                    (adjOnly_setAdj _ _ _)

theorem wv_push {g : Arena} (hw : wellValued g) (o : Op) (inp : List ℕ)
    (v : Option VT) (hov : o = .leaf ∨ o = .const → v ≠ none) :
    wellValued (pushNode g o inp v).2 :=
  wellValued_push hw o inp v hov

theorem addChain_wv : ∀ (ds : List ℕ) (g : Arena) (d : ℕ),
    wellValued g → wellValued (addChain g d ds).2 := by
  intro ds
  induction ds with
  | nil => intro g d hw; exact hw
  | cons e rest ihl =>
    intro g d hw
    simp only [addChain]
    exact ihl _ _ (wv_push hw .add [d, e] none (by decide))

theorem fwdA_wellValued :
    ∀ k, (∀ g r p, fwdA k g r = .ok p → wellValued g → wellValued p.2) ∧
      (∀ l g q, fwdAList k g l = .ok q → wellValued g → wellValued q.2) := by
  intro k
  induction k with
  | zero =>
    have hnode : ∀ (g : Arena) (r : ℕ) (p : ℕ × Arena),
        fwdA 0 g r = .ok p → wellValued g → wellValued p.2 := by
      intro g r p h _
      simp only [fwdA] at h
      exact Except.noConfusion h
    refine ⟨hnode, ?_⟩
    intro l
    induction l with
    | nil =>
      intro g q h hw
      simp only [fwdAList] at h
      injection h with hp
      rw [← hp]
      exact hw
    | cons i rest ihl =>
      intro g q h hw
      simp only [fwdAList] at h
      split at h
      · exact Except.noConfusion h
      · split at h
        · exact Except.noConfusion h
        · rename_i x1 d g1 hfst x2 ds g2 hrest
          injection h with hp
          rw [← hp]
          exact ihl _ (ds, g2) hrest (hnode _ _ (d, g1) hfst hw)
  | succ k ih =>
    have hnode : ∀ (g : Arena) (r : ℕ) (p : ℕ × Arena),
        fwdA (k + 1) g r = .ok p → wellValued g → wellValued p.2 := by
      intro g r p h hw
      simp only [fwdA] at h
      split at h
      · exact Except.noConfusion h
      · split at h
        -- leaf: push Link
        · injection h with hp
          rw [← hp]
          exact wv_push hw .link [r] none (by decide)
        -- link: push Zero with value
        · injection h with hp
          rw [← hp]
          exact wv_push hw .zero [] (some (.F 0)) (by decide)
        -- const
        · injection h with hp
          rw [← hp]
          exact wv_push hw .zero [] (some (.F 0)) (by decide)
        -- one
        · injection h with hp
          rw [← hp]
          exact wv_push hw .zero [] (some (.F 0)) (by decide)
        -- zero
        · injection h with hp
          rw [← hp]
          exact wv_push hw .zero [] (some (.F 0)) (by decide)
        -- mul
        · split at h
          · split at h
            · exact Except.noConfusion h
            · try dsimp only at h
              split at h
              · exact Except.noConfusion h
              · rename_i x1 ap g1 ha x2 bp g3 hb
                injection h with hp
                rw [← hp]
                exact wv_push (wv_push (ih.1 _ _ _ hb
                  (wv_push (ih.1 _ _ _ ha hw) .mul _ none (by decide)))
                  .mul _ none (by decide)) .add _ none (by decide)
          · exact Except.noConfusion h
        -- add
        · split at h
          · exact Except.noConfusion h
          · split at h
            · exact Except.noConfusion h
            · injection h with hp
              rw [← hp]
              exact addChain_wv _ _ _ (ih.2 _ _ _ (by assumption) hw)
        -- sin
        · split at h
          · injection h with hp
            rw [← hp]
            exact wv_push hw .cos _ none (by decide)
          · exact Except.noConfusion h
        -- cos
        · split at h
          · injection h with hp
            rw [← hp]
            exact wv_push (wv_push (wv_push hw .const []
              (some (.F (-1))) (by decide)) .sin _ none (by decide)) .mul _ none (by decide)
          · exact Except.noConfusion h
        -- tan
        · split at h
          · try dsimp only at h
            split at h
            · exact Except.noConfusion h
            · injection h with hp
              rw [← hp]
              exact wv_push (ih.1 _ _ _ (by assumption)
                (wv_push (wv_push (wv_push (wv_push (wv_push hw .const []
                  (some (.F 1)) (by decide)) .cos _ none (by decide)) .cos _ none
                  (by decide)) .mul _ none (by decide)) .div _ none (by decide)))
                .mul _ none (by decide)
          · exact Except.noConfusion h
        -- pow
        · split at h
          · try dsimp only at h
            split at h
            · exact Except.noConfusion h
            · try dsimp only at h
              split at h
              · exact Except.noConfusion h
              · rename_i x1 bp g2 hb x2 ap g6 ha
                injection h with hp
                rw [← hp]
                exact wv_push (wv_push (wv_push (ih.1 _ _ _ ha
                  (wv_push (wv_push (wv_push (ih.1 _ _ _ hb
                    (wv_push hw .pow _ none (by decide)))
                    .ln _ none (by decide)) .mul _ none (by decide)) .div _ none
                    (by decide)))
                  .mul _ none (by decide)) .add _ none (by decide)) .mul _ none (by decide)
          · exact Except.noConfusion h
        -- exp
        · split at h
          · try dsimp only at h
            split at h
            · exact Except.noConfusion h
            · injection h with hp
              rw [← hp]
              exact wv_push (ih.1 _ _ _ (by assumption)
                (wv_push hw .exp _ none (by decide))) .mul _ none (by decide)
          · exact Except.noConfusion h
        -- ln
        · split at h
          · try dsimp only at h
            split at h
            · exact Except.noConfusion h
            · injection h with hp
              rw [← hp]
              exact wv_push (ih.1 _ _ _ (by assumption)
                (wv_push (wv_push hw .const [] (some (.F 1)) (by decide))
                  .div _ none (by decide))) .mul _ none (by decide)
          · exact Except.noConfusion h
        -- div
        · split at h
          · split at h
            · exact Except.noConfusion h
            · try dsimp only at h
              split at h
              · exact Except.noConfusion h
              · rename_i x1 ap g1 ha x2 bp g3 hb
                injection h with hp
                rw [← hp]
                exact wv_push (wv_push (wv_push (wv_push (wv_push (wv_push
                  (ih.1 _ _ _ hb
                    (wv_push (ih.1 _ _ _ ha hw) .mul _ none (by decide)))
                  .mul _ none (by decide)) .const [] (some (.F (-1))) (by decide))
                  .mul _ none (by decide)) .add _ none (by decide))
                  .mul _ none (by decide)) .div _ none (by decide)
          · exact Except.noConfusion h
    refine ⟨hnode, ?_⟩
    intro l
    induction l with
    | nil =>
      intro g q h hw
      simp only [fwdAList] at h
      injection h with hp
      rw [← hp]
      exact hw
    | cons i rest ihl =>
      intro g q h hw
      simp only [fwdAList] at h
      split at h
      · exact Except.noConfusion h
      · split at h
        · exact Except.noConfusion h
        · rename_i x1 d g1 hfst x2 ds g2 hrest
          injection h with hp
          rw [← hp]
          exact ihl _ (ds, g2) hrest (hnode _ _ (d, g1) hfst hw)

theorem wellValued_of_adjOnly {g h : Arena} (ha : adjOnly g h) (hw : wellValued g) :
    wellValued h := by
  intro m hm ho
  rw [(ha.2 m).1] at ho
  rw [(ha.2 m).2.2.1]
  exact hw m (by rw [← ha.1]; exact hm) ho

theorem wellValued_setVal {g : Arena} (hw : wellValued g) (i : ℕ) (v : VT) :
    wellValued (setVal g i v) := by
  intro m hm ho
  unfold setVal at hm ho ⊢
  rw [length_modifyN] at hm
  rw [nodeAt_modifyN] at ho ⊢
  by_cases hc : m = i ∧ m < g.length
  · rw [if_pos hc] at ho ⊢
    exact Option.noConfusion
  · rw [if_neg hc] at ho ⊢
    exact hw m hm ho

/-- C10 (confirmed): evaluation can only fail with the missing-value error
on a `Leaf`/`Const` node lacking a stored value, and that state is
unreachable for engine-built graphs: (i) on a well-valued arena (every
`Leaf`/`Const` stores a value) `apply_fwd` and adjoint-expression
evaluation never produce the missing-value failure; (ii) the public
constructors build well-valued arenas (`Leaf` stores its value; operator
constructors add no `Leaf`/`Const`), `set_val` only replaces a stored value
with another value, and the `fwd` tangent builder and the `rev` adjoint
pass preserve well-valuedness; (iii) every operator other than
`Leaf`/`Const` ignores the stored value entirely. -/
theorem C10_no_missing_value (ff : FloatFns) (k fuel : ℕ) (g : Arena)
    (n i r : ℕ) (v v0 : VT) (act : Bool) (o : Op) (a b : ℕ) (e : AdjExpr)
    (hw : wellValued g) :
    applyFwd ff k g n ≠ .error .leafValueMissing ∧
    evalAdj ff k g e ≠ .error .leafValueMissing ∧
    wellValued (setVal g i v) ∧
    wellValued (mkLeaf g v0 act).2 ∧
    (¬ (o = .leaf ∨ o = .const) →
      wellValued (mkBin g o a b).2 ∧ wellValued (mkUn g o a).2) ∧
    (∀ p, fwdA k g r = .ok p → wellValued p.2) ∧
    (∀ out gf, revA fuel g r = .ok (out, gf) → wellValued gf) ∧
    (∀ args w w2, ¬ (o = .leaf ∨ o = .const) → opF ff o args w = opF ff o args w2) := by
  refine ⟨(applyFwd_no_lvm ff k).1 g n hw, (evalAdj_no_lvm ff k e g hw).1,
    wellValued_setVal hw i v, ?_, ?_, ?_, ?_, ?_⟩
  · intro m hm ho
    unfold mkLeaf at hm ho ⊢
    rw [List.length_append, List.length_singleton] at hm
    by_cases hlt : m < g.length
    · rw [nodeAt_append_lt hlt] at ho ⊢
      exact hw m hlt ho
    · have hm2 : m = g.length := by omega
      subst hm2
      rw [nodeAt_append_ge (le_refl _)] at ho ⊢
      simp only [Nat.sub_self] at ho ⊢
      exact Option.noConfusion
  · intro ho
    exact ⟨wellValued_push hw o [a, b] none (fun hc => absurd hc ho),
      wellValued_push hw o [a] none (fun hc => absurd hc ho)⟩
  · intro p h
    exact (fwdA_wellValued k).1 g r p h hw
  · intro out gf h
    have ha := revLoop_adjOnly fuel _ out gf h
    exact wellValued_of_adjOnly ha
      (wellValued_of_adjOnly (adjOnly_setAdj g r (some .one)) hw)
  · intro args w w2 ho
    exact opF_val_irrel ff args w w2 ho

theorem C10_no_missing_value_witness :
    applyFwd ffZero 10 gSin 3 ≠ .error .leafValueMissing ∧
    evalAdj ffZero 10 gSin .one ≠ .error .leafValueMissing ∧
    wellValued (setVal gSin 0 (.F 1)) ∧
    wellValued (mkLeaf gSin (.F 2) false).2 ∧
    (¬ (Op.sin = .leaf ∨ Op.sin = .const) →
      wellValued (mkBin gSin .sin 0 1).2 ∧ wellValued (mkUn gSin .sin 0).2) ∧
    (∀ p, fwdA 10 gSin 3 = .ok p → wellValued p.2) ∧
    (∀ out gf, revA 10 gSin 3 = .ok (out, gf) → wellValued gf) ∧
    (∀ args w w2, ¬ (Op.sin = .leaf ∨ Op.sin = .const) →
      opF ffZero .sin args w = opF ffZero .sin args w2) :=
  C10_no_missing_value ffZero 10 10 gSin 3 0 3 (.F 1) (.F 2) false .sin 0 1 .one
    (by unfold wellValued; decide)

theorem evalGOf_nodeAt (g : Arena) (i : ℕ) : evalGOf g i = (nodeAt g i).evalG := by
  unfold evalGOf nodeAt
  cases g.get? i <;> rfl

theorem list_len2 {l : List ℕ} (h : l.length = 2) : ∃ a b, l = [a, b] := by
  cases l with
  | nil => exact absurd h (by decide)
  | cons a t =>
    cases t with
    | nil => exact absurd h (by simp)
    | cons b t2 =>
      cases t2 with
      | nil => exact ⟨a, b, rfl⟩
      | cons c t3 => simp at h

theorem list_len1 {l : List ℕ} (h : l.length = 1) : ∃ a, l = [a] := by
  cases l with
  | nil => exact absurd h (by decide)
  | cons a t =>
    cases t with
    | nil => exact ⟨a, rfl⟩
    | cons b t2 => simp at h

theorem aevalQ_fuel {g : Arena} (hwf : wfIdx g) :
    ∀ n, n < g.length → ∀ k1 k2, n < k1 → n < k2 → aevalQ k1 g n = aevalQ k2 g n := by
  intro n
  induction n using Nat.strong_induction_on with
  | _ n ih =>
    intro hn k1 k2 hk1 hk2
    obtain ⟨k1p, rfl⟩ : ∃ m, k1 = m + 1 := ⟨k1 - 1, by omega⟩
    obtain ⟨k2p, rfl⟩ : ∃ m, k2 = m + 1 := ⟨k2 - 1, by omega⟩
    simp only [aevalQ]
    cases hop : (nodeAt g n).op <;> simp only []
    case add =>
      cases hinp : (nodeAt g n).inp with
      | nil => rfl
      | cons a t =>
        cases t with
        | nil => rfl
        | cons b t2 =>
          cases t2 with
          | nil =>
            have ha : a < n := hwf n hn a (by rw [hinp]; simp)
            have hb : b < n := hwf n hn b (by rw [hinp]; simp)
            dsimp only
            rw [ih a ha (ha.trans hn) k1p k2p (by omega) (by omega),
              ih b hb (hb.trans hn) k1p k2p (by omega) (by omega)]
          | cons c t3 => rfl
    case mul =>
      cases hinp : (nodeAt g n).inp with
      | nil => rfl
      | cons a t =>
        cases t with
        | nil => rfl
        | cons b t2 =>
          cases t2 with
          | nil =>
            have ha : a < n := hwf n hn a (by rw [hinp]; simp)
            have hb : b < n := hwf n hn b (by rw [hinp]; simp)
            dsimp only
            rw [ih a ha (ha.trans hn) k1p k2p (by omega) (by omega),
              ih b hb (hb.trans hn) k1p k2p (by omega) (by omega)]
          | cons c t3 => rfl

theorem aderivQ_fuel {g : Arena} (hwf : wfIdx g) (x : ℕ) :
    ∀ n, n < g.length → ∀ k1 k2, n < k1 → n < k2 →
      aderivQ k1 g x n = aderivQ k2 g x n := by
  intro n
  induction n using Nat.strong_induction_on with
  | _ n ih =>
    intro hn k1 k2 hk1 hk2
    obtain ⟨k1p, rfl⟩ : ∃ m, k1 = m + 1 := ⟨k1 - 1, by omega⟩
    obtain ⟨k2p, rfl⟩ : ∃ m, k2 = m + 1 := ⟨k2 - 1, by omega⟩
    simp only [aderivQ]
    by_cases hx : n = x
    · rw [if_pos hx, if_pos hx]
    · rw [if_neg hx, if_neg hx]
      cases hop : (nodeAt g n).op <;> simp only []
      case _ =>
        cases hinp : (nodeAt g n).inp with
        | nil => rfl
        | cons a t =>
          cases t with
          | nil => rfl
          | cons b t2 =>
            cases t2 with
            | nil =>
              have ha : a < n := hwf n hn a (by rw [hinp]; simp)
              have hb : b < n := hwf n hn b (by rw [hinp]; simp)
              dsimp only
              rw [ih a ha (ha.trans hn) k1p k2p (by omega) (by omega),
                ih b hb (hb.trans hn) k1p k2p (by omega) (by omega)]
            | cons c t3 => rfl
      case _ =>
        cases hinp : (nodeAt g n).inp with
        | nil => rfl
        | cons a t =>
          cases t with
          | nil => rfl
          | cons b t2 =>
            cases t2 with
            | nil =>
              have ha : a < n := hwf n hn a (by rw [hinp]; simp)
              have hb : b < n := hwf n hn b (by rw [hinp]; simp)
              dsimp only
              rw [ih a ha (ha.trans hn) k1p k2p (by omega) (by omega),
                ih b hb (hb.trans hn) k1p k2p (by omega) (by omega),
                aevalQ_fuel hwf a (ha.trans hn) k1p k2p (by omega) (by omega),
                aevalQ_fuel hwf b (hb.trans hn) k1p k2p (by omega) (by omega)]
            | cons c t3 => rfl

theorem evalGOf_append {g Δ : Arena} {i : ℕ} (h : i < g.length) :
    evalGOf (g ++ Δ) i = evalGOf g i := by
  rw [evalGOf_nodeAt, evalGOf_nodeAt, nodeAt_append_lt h]

theorem aevalQ_append {g Δ : Arena} (hwf : wfIdx g) :
    ∀ k n, n < g.length → aevalQ k (g ++ Δ) n = aevalQ k g n := by
  intro k
  induction k with
  | zero => intro n _; rfl
  | succ k ihk =>
    intro n hn
    simp only [aevalQ, nodeAt_append_lt hn]
    cases hop : (nodeAt g n).op <;> simp only []
    case link =>
      cases hinp : (nodeAt g n).inp with
      | nil => rfl
      | cons a t =>
        cases t with
        | nil =>
          have ha : a < n := hwf n hn a (by rw [hinp]; simp)
          dsimp only
          rw [evalGOf_append (ha.trans hn)]
        | cons b t2 => rfl
    case add =>
      cases hinp : (nodeAt g n).inp with
      | nil => rfl
      | cons a t =>
        cases t with
        | nil => rfl
        | cons b t2 =>
          cases t2 with
          | nil =>
            have ha : a < n := hwf n hn a (by rw [hinp]; simp)
            have hb : b < n := hwf n hn b (by rw [hinp]; simp)
            dsimp only
            rw [ihk a (ha.trans hn), ihk b (hb.trans hn)]
          | cons c t3 => rfl
    case mul =>
      cases hinp : (nodeAt g n).inp with
      | nil => rfl
      | cons a t =>
        cases t with
        | nil => rfl
        | cons b t2 =>
          cases t2 with
          | nil =>
            have ha : a < n := hwf n hn a (by rw [hinp]; simp)
            have hb : b < n := hwf n hn b (by rw [hinp]; simp)
            dsimp only
            rw [ihk a (ha.trans hn), ihk b (hb.trans hn)]
          | cons c t3 => rfl

theorem aderivQ_append {g Δ : Arena} (hwf : wfIdx g) (x : ℕ) :
    ∀ k n, n < g.length → aderivQ k (g ++ Δ) x n = aderivQ k g x n := by
  intro k
  induction k with
  | zero => intro n _; rfl
  | succ k ihk =>
    intro n hn
    simp only [aderivQ, nodeAt_append_lt hn]
    by_cases hx : n = x
    · rw [if_pos hx, if_pos hx]
    · rw [if_neg hx, if_neg hx]
      cases hop : (nodeAt g n).op <;> simp only []
      case _ =>
        cases hinp : (nodeAt g n).inp with
        | nil => rfl
        | cons a t =>
          cases t with
          | nil => rfl
          | cons b t2 =>
            cases t2 with
            | nil =>
              have ha : a < n := hwf n hn a (by rw [hinp]; simp)
              have hb : b < n := hwf n hn b (by rw [hinp]; simp)
              dsimp only
              rw [ihk a (ha.trans hn), ihk b (hb.trans hn)]
            | cons c t3 => rfl
      case _ =>
        cases hinp : (nodeAt g n).inp with
        | nil => rfl
        | cons a t =>
          cases t with
          | nil => rfl
          | cons b t2 =>
            cases t2 with
            | nil =>
              have ha : a < n := hwf n hn a (by rw [hinp]; simp)
              have hb : b < n := hwf n hn b (by rw [hinp]; simp)
              dsimp only
              rw [ihk a (ha.trans hn), ihk b (hb.trans hn),
                aevalQ_append hwf k a (ha.trans hn), aevalQ_append hwf k b (hb.trans hn)]
            | cons c t3 => rfl

theorem aevalQ_congr {g h : Arena} (hag : evalAgree g h) :
    ∀ k n, aevalQ k g n = aevalQ k h n := by
  intro k
  induction k with
  | zero => intro n; rfl
  | succ k ihk =>
    intro n
    obtain ⟨⟨hl, hf⟩, hv⟩ := hag
    simp only [aevalQ, (hf n).1, (hf n).2.1]
    cases hop : (nodeAt h n).op <;> simp only []
    case leaf =>
      rw [hv n (Or.inl (by rw [(hf n).1, hop]))]
    case const =>
      rw [hv n (Or.inr (by rw [(hf n).1, hop]))]
    case link =>
      cases hinp : (nodeAt h n).inp with
      | nil => rfl
      | cons a t =>
        cases t with
        | nil =>
          dsimp only
          rw [evalGOf_nodeAt, evalGOf_nodeAt, (hf a).2.2]
        | cons b t2 => rfl
    case add =>
      cases hinp : (nodeAt h n).inp with
      | nil => rfl
      | cons a t =>
        cases t with
        | nil => rfl
        | cons b t2 =>
          cases t2 with
          | nil =>
            dsimp only
            rw [ihk a, ihk b]
          | cons c t3 => rfl
    case mul =>
      cases hinp : (nodeAt h n).inp with
      | nil => rfl
      | cons a t =>
        cases t with
        | nil => rfl
        | cons b t2 =>
          cases t2 with
          | nil =>
            dsimp only
            rw [ihk a, ihk b]
          | cons c t3 => rfl

theorem evalAgree_of_keep {g h : Arena} (hk : keepRel g h) : evalAgree g h := by
  obtain ⟨hl, hf, hv⟩ := hk
  exact ⟨⟨hl.symm, fun n => ⟨((hf n).1).symm, ((hf n).2.1).symm, ((hf n).2.2.1).symm⟩⟩,
    fun n ho => (hv n ho).symm⟩

theorem goodEval_of_evalAgree {g h : Arena} (hag : evalAgree g h)
    (hg : goodEval g) : goodEval h := by
  obtain ⟨⟨hl, hf⟩, hv⟩ := hag
  constructor
  · intro n hn i hi
    rw [← hl] at hn
    rw [← (hf n).2.1] at hi
    exact hg.1 n hn i hi
  · intro n hn
    have hn2 : n < g.length := by rw [hl]; exact hn
    have hok := hg.2 n hn2
    unfold evalOpsOk at hok ⊢
    rw [← (hf n).1, ← (hf n).2.1]
    rcases hok with h1 | h1 | h1 | h1 | h1 | h1 | h1
    · exact Or.inl ⟨h1.1, h1.2.1, by rw [← hv n (Or.inl h1.1)]; exact h1.2.2⟩
    · exact Or.inr (Or.inl ⟨h1.1, h1.2.1, by rw [← hv n (Or.inr h1.1)]; exact h1.2.2⟩)
    · exact Or.inr (Or.inr (Or.inl h1))
    · exact Or.inr (Or.inr (Or.inr (Or.inl h1)))
    · exact Or.inr (Or.inr (Or.inr (Or.inr (Or.inl h1))))
    · exact Or.inr (Or.inr (Or.inr (Or.inr (Or.inr (Or.inl h1)))))
    · exact Or.inr (Or.inr (Or.inr (Or.inr (Or.inr (Or.inr h1)))))

theorem goodEval_push {g : Arena} (hg : goodEval g) (nd : Node)
    (hok : evalOpsOk nd) (hinp : ∀ i ∈ nd.inp, i < g.length) :
    goodEval (g ++ [nd]) := by
  constructor
  · intro n hn i hi
    rw [List.length_append, List.length_singleton] at hn
    by_cases hlt : n < g.length
    · rw [nodeAt_append_lt hlt] at hi
      exact hg.1 n hlt i hi
    · have hn2 : n = g.length := by omega
      subst hn2
      rw [nodeAt_append_ge (le_refl _), Nat.sub_self] at hi
      exact hinp i (by exact hi)
  · intro n hn
    rw [List.length_append, List.length_singleton] at hn
    by_cases hlt : n < g.length
    · rw [nodeAt_append_lt hlt]
      exact hg.2 n hlt
    · have hn2 : n = g.length := by omega
      subst hn2
      rw [nodeAt_append_ge (le_refl _), Nat.sub_self]
      exact hok

theorem evalGOf_of_keep {g h : Arena} (hk : keepRel g h) (i : ℕ) :
    evalGOf h i = evalGOf g i := by
  rw [evalGOf_nodeAt, evalGOf_nodeAt, (hk.2.1 i).2.2.1]

theorem isFSomeB_some {v : Option VT} (h : isFSomeB v = true) :
    ∃ q, v = some (.F q) := by
  cases v with
  | none => exact Bool.noConfusion h
  | some w =>
    cases w with
    | F q => exact ⟨q, rfl⟩
    | D q => exact Bool.noConfusion h
    | I q => exact Bool.noConfusion h
    | L q => exact Bool.noConfusion h

theorem aevalQ_add_eq {g : Arena} {n a b : ℕ} (k : ℕ)
    (hop : (nodeAt g n).op = .add) (hinp : (nodeAt g n).inp = [a, b]) :
    aevalQ (k + 1) g n = aevalQ k g a + aevalQ k g b := by
  simp only [aevalQ, hop, hinp]

theorem aevalQ_mul_eq {g : Arena} {n a b : ℕ} (k : ℕ)
    (hop : (nodeAt g n).op = .mul) (hinp : (nodeAt g n).inp = [a, b]) :
    aevalQ (k + 1) g n = aevalQ k g a * aevalQ k g b := by
  simp only [aevalQ, hop, hinp]

theorem applyFwd_pure (ff : FloatFns) :
    ∀ k g n, goodEval g → n < g.length → n < k →
      ∃ g1, applyFwd ff k g n = .ok (.F (aevalQ (n + 1) g n), g1) := by
  intro k
  induction k with
  | zero =>
    intro g n _ _ hk
    exact absurd hk (by omega)
  | succ k ih =>
    intro g n hg hn hk
    simp only [applyFwd]
    rw [get?_lt hn]
    dsimp only
    have hok := hg.2 n hn
    rcases hok with ⟨hop, hinp, hval⟩ | ⟨hop, hinp, hval⟩ | ⟨hop, hinp⟩ |
      ⟨hop, hinp⟩ | ⟨hop, hinp⟩ | ⟨hop, hinp⟩ | ⟨hop, hinp⟩
    -- leaf
    · obtain ⟨q, hq⟩ := isFSomeB_some hval
      rw [hinp]
      simp only [applyFwdList]
      rw [get?_lt hn]
      dsimp only
      rw [hop, hq]
      refine ⟨writeVal g n (.F q), ?_⟩
      simp only [opF, aevalQ, hop, hq, toF32]
    -- const
    · obtain ⟨q, hq⟩ := isFSomeB_some hval
      rw [hinp]
      simp only [applyFwdList]
      rw [get?_lt hn]
      dsimp only
      rw [hop, hq]
      refine ⟨writeVal g n (.F q), ?_⟩
      simp only [opF, aevalQ, hop, hq, toF32]
    -- one
    · rw [hinp]
      simp only [applyFwdList]
      rw [get?_lt hn]
      dsimp only
      rw [hop]
      refine ⟨writeVal g n (.F 1), ?_⟩
      simp only [opF, aevalQ, hop]
    -- zero
    · rw [hinp]
      simp only [applyFwdList]
      rw [get?_lt hn]
      dsimp only
      rw [hop]
      refine ⟨writeVal g n (.F 0), ?_⟩
      simp only [opF, aevalQ, hop]
    -- link
    · obtain ⟨i, hinp2⟩ := list_len1 hinp
      rw [hinp2]
      simp only [applyFwdList]
      have hi : i < n := hg.1 n hn i (by rw [hinp2]; simp)
      obtain ⟨gi, hgi⟩ := ih g i hg (hi.trans hn) (by omega)
      rw [hgi]
      dsimp only
      have hkeep := (applyFwd_keep ff k).1 _ _ _ _ hgi
      rw [get?_lt (show n < gi.length by rw [hkeep.1]; exact hn)]
      dsimp only
      rw [(hkeep.2.1 n).1, hop]
      refine ⟨writeVal gi n (if evalGOf gi i then .F 1 else .F 0), ?_⟩
      simp only [opF, aevalQ, hop, hinp2]
      rw [evalGOf_of_keep hkeep i]
      cases hflag : evalGOf g i <;> simp
    -- add
    · obtain ⟨a, b, hinp2⟩ := list_len2 hinp
      rw [hinp2]
      simp only [applyFwdList]
      have ha : a < n := hg.1 n hn a (by rw [hinp2]; simp)
      have hb : b < n := hg.1 n hn b (by rw [hinp2]; simp)
      obtain ⟨ga, hga⟩ := ih g a hg (ha.trans hn) (by omega)
      rw [hga]
      dsimp only
      have hkeepA := (applyFwd_keep ff k).1 _ _ _ _ hga
      have hagA : evalAgree g ga := evalAgree_of_keep hkeepA
      have hgA : goodEval ga := goodEval_of_evalAgree hagA hg
      obtain ⟨gb, hgb⟩ := ih ga b hgA (by rw [hkeepA.1]; exact hb.trans hn) (by omega)
      rw [hgb]
      dsimp only
      have hkeepB := (applyFwd_keep ff k).1 _ _ _ _ hgb
      rw [get?_lt (show n < gb.length by rw [hkeepB.1, hkeepA.1]; exact hn)]
      dsimp only
      rw [(hkeepB.2.1 n).1, (hkeepA.2.1 n).1, hop]
      refine ⟨writeVal gb n (.F (aevalQ (a + 1) g a + aevalQ (b + 1) ga b)), ?_⟩
      simp only [opF]
      have hvb : aevalQ (b + 1) ga b = aevalQ (b + 1) g b := (aevalQ_congr hagA _ b).symm
      rw [hvb]
      have : aevalQ (n + 1) g n = aevalQ (a + 1) g a + aevalQ (b + 1) g b := by
        rw [aevalQ_add_eq n hop hinp2,
          aevalQ_fuel hg.1 a (ha.trans hn) n (a + 1) (by omega) (by omega),
          aevalQ_fuel hg.1 b (hb.trans hn) n (b + 1) (by omega) (by omega)]
      rw [this]
    -- mul
    · obtain ⟨a, b, hinp2⟩ := list_len2 hinp
      rw [hinp2]
      simp only [applyFwdList]
      have ha : a < n := hg.1 n hn a (by rw [hinp2]; simp)
      have hb : b < n := hg.1 n hn b (by rw [hinp2]; simp)
      obtain ⟨ga, hga⟩ := ih g a hg (ha.trans hn) (by omega)
      rw [hga]
      dsimp only
      have hkeepA := (applyFwd_keep ff k).1 _ _ _ _ hga
      have hagA : evalAgree g ga := evalAgree_of_keep hkeepA
      have hgA : goodEval ga := goodEval_of_evalAgree hagA hg
      obtain ⟨gb, hgb⟩ := ih ga b hgA (by rw [hkeepA.1]; exact hb.trans hn) (by omega)
      rw [hgb]
      dsimp only
      have hkeepB := (applyFwd_keep ff k).1 _ _ _ _ hgb
      rw [get?_lt (show n < gb.length by rw [hkeepB.1, hkeepA.1]; exact hn)]
      dsimp only
      rw [(hkeepB.2.1 n).1, (hkeepA.2.1 n).1, hop]
      refine ⟨writeVal gb n (.F (aevalQ (a + 1) g a * aevalQ (b + 1) ga b)), ?_⟩
      simp only [opF]
      have hvb : aevalQ (b + 1) ga b = aevalQ (b + 1) g b := (aevalQ_congr hagA _ b).symm
      rw [hvb]
      have : aevalQ (n + 1) g n = aevalQ (a + 1) g a * aevalQ (b + 1) g b := by
        rw [aevalQ_mul_eq n hop hinp2,
          aevalQ_fuel hg.1 a (ha.trans hn) n (a + 1) (by omega) (by omega),
          aevalQ_fuel hg.1 b (hb.trans hn) n (b + 1) (by omega) (by omega)]
      rw [this]

theorem nodeAt_append_self (g : Arena) (nd : Node) :
    nodeAt (g ++ [nd]) g.length = nd := by
  rw [nodeAt_append_ge (le_refl _), Nat.sub_self]
  rfl

theorem aevalQ_link_eq {g : Arena} {n i : ℕ} (k : ℕ)
    (hop : (nodeAt g n).op = .link) (hinp : (nodeAt g n).inp = [i]) :
    aevalQ (k + 1) g n = if evalGOf g i then 1 else 0 := by
  simp only [aevalQ, hop, hinp]

theorem aderivQ_self (g : Arena) (x : ℕ) (k : ℕ) : aderivQ (k + 1) g x x = 1 := by
  simp only [aderivQ, if_true, eq_self_iff_true]

theorem aderivQ_leaf_ne {g : Arena} {x n : ℕ} (k : ℕ) (hne : n ≠ x)
    (hop : (nodeAt g n).op = .leaf) : aderivQ (k + 1) g x n = 0 := by
  simp only [aderivQ, if_neg hne, hop]

theorem aderivQ_add_eq {g : Arena} {x n a b : ℕ} (k : ℕ) (hne : n ≠ x)
    (hop : (nodeAt g n).op = .add) (hinp : (nodeAt g n).inp = [a, b]) :
    aderivQ (k + 1) g x n = aderivQ k g x a + aderivQ k g x b := by
  simp only [aderivQ, if_neg hne, hop, hinp]

theorem aderivQ_mul_eq {g : Arena} {x n a b : ℕ} (k : ℕ) (hne : n ≠ x)
    (hop : (nodeAt g n).op = .mul) (hinp : (nodeAt g n).inp = [a, b]) :
    aderivQ (k + 1) g x n =
      aderivQ k g x a * aevalQ k g b + aevalQ k g a * aderivQ k g x b := by
  simp only [aderivQ, if_neg hne, hop, hinp]


theorem fwdA_am (g : Arena) (x : ℕ) (hwf : wfIdx g) (ham : amArena g)
    (hact : onlyActive g x) (hxop : (nodeAt g x).op = .leaf) :
    ∀ r, r < g.length → ∀ K, r < K → ∀ h, goodEval h → (∃ Δ, h = g ++ Δ) →
      ∃ i g2 Δ2, fwdA K h r = .ok (i, g2) ∧ g2 = h ++ Δ2 ∧ goodEval g2 ∧
        i < g2.length ∧ aevalQ (i + 1) g2 i = aderivQ (r + 1) g x r := by
  intro r
  induction r using Nat.strong_induction_on with
  | _ r ih =>
    intro hr K hK h hg hΔ
    obtain ⟨Δ, rfl⟩ := hΔ
    obtain ⟨K2, rfl⟩ : ∃ m, K = m + 1 := ⟨K - 1, by omega⟩
    have hrh : r < (g ++ Δ).length := by
      simp only [List.length_append, List.length_singleton]; omega
    have hnode : nodeAt (g ++ Δ) r = nodeAt g r := nodeAt_append_lt hr
    simp only [fwdA]
    rw [get?_lt hrh]
    dsimp only
    rcases ham r hr with ⟨hop, hinp, hval⟩ | ⟨hop, hlen2⟩ | ⟨hop, hlen2⟩
    -- Leaf: tangent is Link(self)
    · rw [hnode, hop]
      dsimp only [pushNode]
      refine ⟨(g ++ Δ).length, (g ++ Δ) ++ [⟨.link, [r], none, false, none⟩],
        [⟨.link, [r], none, false, none⟩], rfl, rfl, ?_, ?_, ?_⟩
      · exact goodEval_push hg _
          (Or.inr (Or.inr (Or.inr (Or.inr (Or.inl ⟨rfl, rfl⟩)))))
          (by intro i hi; simp at hi; rw [hi]; exact hrh)
      · simp [List.length_append]
      · rw [aevalQ_link_eq (g ++ Δ).length (by rw [nodeAt_append_self])
          (by rw [nodeAt_append_self])]
        have hflag : evalGOf ((g ++ Δ) ++ [⟨.link, [r], none, false, none⟩]) r
            = evalGOf g r := by
          rw [evalGOf_append hrh, evalGOf_append hr]
        rw [hflag, evalGOf_nodeAt]
        by_cases hrx : r = x
        · subst hrx
          rw [(hact r hr).mpr rfl]
          rw [aderivQ_self]
          rfl
        · have hfalse : (nodeAt g r).evalG = false := by
            cases hflag2 : (nodeAt g r).evalG
            · rfl
            · exact absurd ((hact r hr).mp hflag2) hrx
          rw [hfalse, aderivQ_leaf_ne r hrx hop]
          rfl
    -- Add
    · obtain ⟨a, b, hinp⟩ := list_len2 hlen2
      have hne : r ≠ x := by
        intro he
        rw [he, hxop] at hop
        exact Op.noConfusion hop
      have ha : a < r := hwf r hr a (by rw [hinp]; simp)
      have hb : b < r := hwf r hr b (by rw [hinp]; simp)
      obtain ⟨ia, gA, ΔA, hfa, hgA2, hgoodA, hiaA, hvalA⟩ :=
        ih a ha (ha.trans hr) K2 (by omega) (g ++ Δ) hg ⟨Δ, rfl⟩
      obtain ⟨ib, gB, ΔB, hfb, hgB2, hgoodB, hibB, hvalB⟩ :=
        ih b hb (hb.trans hr) K2 (by omega) gA hgoodA
          ⟨Δ ++ ΔA, by rw [hgA2, List.append_assoc]⟩
      have hlenAB : gA.length ≤ gB.length := by
        rw [hgB2, List.length_append]; omega
      rw [hnode, hop, hinp]
      dsimp only
      simp only [fwdAList]
      rw [hfa]
      dsimp only
      rw [hfb]
      dsimp only
      simp only [addChain]
      dsimp only [pushNode]
      refine ⟨gB.length, gB ++ [⟨.add, [ia, ib], none, false, none⟩],
        ΔA ++ (ΔB ++ [⟨.add, [ia, ib], none, false, none⟩]), rfl, ?_, ?_, ?_, ?_⟩
      · rw [hgB2, hgA2]
        simp [List.append_assoc]
      · exact goodEval_push hgoodB _
          (Or.inr (Or.inr (Or.inr (Or.inr (Or.inr (Or.inl ⟨rfl, rfl⟩))))))
          (by
            intro i hi
            simp at hi
            rcases hi with hi | hi
            · rw [hi]; omega
            · rw [hi]; exact hibB)
      · simp [List.length_append]
      · have hia2 : ia < gB.length := lt_of_lt_of_le hiaA hlenAB
        have hgood2 : goodEval (gB ++ [⟨.add, [ia, ib], none, false, none⟩]) :=
          goodEval_push hgoodB _
            (Or.inr (Or.inr (Or.inr (Or.inr (Or.inr (Or.inl ⟨rfl, rfl⟩))))))
            (by
              intro i hi
              simp at hi
              rcases hi with hi | hi
              · rw [hi]; omega
              · rw [hi]; exact hibB)
        have hlen2a : ia < (gB ++ [(⟨.add, [ia, ib], none, false, none⟩ : Node)]).length := by
          simp only [List.length_append, List.length_singleton]; omega
        have hlen2b : ib < (gB ++ [(⟨.add, [ia, ib], none, false, none⟩ : Node)]).length := by
          simp only [List.length_append, List.length_singleton]; omega
        rw [aevalQ_add_eq gB.length (by rw [nodeAt_append_self])
          (by rw [nodeAt_append_self])]
        rw [aevalQ_fuel hgood2.1 ia hlen2a gB.length (ia + 1) hia2 (by omega),
          aevalQ_fuel hgood2.1 ib hlen2b gB.length (ib + 1) hibB (by omega),
          aevalQ_append hgoodB.1 (ia + 1) ia hia2,
          aevalQ_append hgoodB.1 (ib + 1) ib hibB,
          hgB2, aevalQ_append hgoodA.1 (ia + 1) ia hiaA, ← hgB2,
          hvalA, hvalB,
          aderivQ_add_eq r hne hop hinp,
          aderivQ_fuel hwf x a (ha.trans hr) r (a + 1) ha (by omega),
          aderivQ_fuel hwf x b (hb.trans hr) r (b + 1) hb (by omega)]
    -- Mul
    · obtain ⟨a, b, hinp⟩ := list_len2 hlen2
      have hne : r ≠ x := by
        intro he
        rw [he, hxop] at hop
        exact Op.noConfusion hop
      have ha : a < r := hwf r hr a (by rw [hinp]; simp)
      have hb : b < r := hwf r hr b (by rw [hinp]; simp)
      obtain ⟨ia, gA, ΔA, hfa, hgA2, hgoodA, hiaA, hvalA⟩ :=
        ih a ha (ha.trans hr) K2 (by omega) (g ++ Δ) hg ⟨Δ, rfl⟩
      have hbA : b < gA.length := by
        rw [hgA2, List.length_append, List.length_append]
        have : b < g.length := hb.trans hr
        omega
      have haA : a < gA.length := by
        rw [hgA2, List.length_append, List.length_append]
        have : a < g.length := ha.trans hr
        omega
      have hgoodM1 : goodEval (gA ++ [⟨.mul, [ia, b], none, false, none⟩]) :=
        goodEval_push hgoodA _
          (Or.inr (Or.inr (Or.inr (Or.inr (Or.inr (Or.inr ⟨rfl, rfl⟩))))))
          (by
            intro i hi
            simp at hi
            rcases hi with hi | hi
            · rw [hi]; exact hiaA
            · rw [hi]; exact hbA)
      obtain ⟨ib, gB, ΔB, hfb, hgB2, hgoodB, hibB, hvalB⟩ :=
        ih b hb (hb.trans hr) K2 (by omega)
          (gA ++ [⟨.mul, [ia, b], none, false, none⟩]) hgoodM1
          ⟨Δ ++ (ΔA ++ [⟨.mul, [ia, b], none, false, none⟩]), by
            rw [hgA2]
            simp [List.append_assoc]⟩
      rw [hnode, hop, hinp]
      dsimp only
      rw [hfa]
      dsimp only [pushNode]
      rw [hfb]
      dsimp only [pushNode]
      have hM1len : gA.length < gB.length := by
        rw [hgB2, List.length_append, List.length_append]
        simp only [List.length_singleton]
        omega
      have haB : a < gB.length := by
        rw [hgB2, List.length_append, List.length_append]
        simp only [List.length_singleton]
        omega
      have hgoodM2 : goodEval (gB ++ [⟨.mul, [a, ib], none, false, none⟩]) :=
        goodEval_push hgoodB _
          (Or.inr (Or.inr (Or.inr (Or.inr (Or.inr (Or.inr ⟨rfl, rfl⟩))))))
          (by
            intro i hi
            simp at hi
            rcases hi with hi | hi
            · rw [hi]; exact haB
            · rw [hi]; exact hibB)
      have hgood3 : goodEval ((gB ++ [⟨.mul, [a, ib], none, false, none⟩]) ++
          [⟨.add, [gA.length, gB.length], none, false, none⟩]) :=
        goodEval_push hgoodM2 _
          (Or.inr (Or.inr (Or.inr (Or.inr (Or.inr (Or.inl ⟨rfl, rfl⟩))))))
          (by
            intro i hi
            simp at hi
            rcases hi with hi | hi
            · rw [hi, List.length_append]
              omega
            · rw [hi, List.length_append]
              simp)
      refine ⟨(gB ++ [(⟨.mul, [a, ib], none, false, none⟩ : Node)]).length,
        (gB ++ [⟨.mul, [a, ib], none, false, none⟩]) ++
          [⟨.add, [gA.length, gB.length], none, false, none⟩],
        ΔA ++ ([⟨.mul, [ia, b], none, false, none⟩] ++ (ΔB ++
          ([⟨.mul, [a, ib], none, false, none⟩] ++
            [⟨.add, [gA.length, gB.length], none, false, none⟩]))), rfl, ?_, hgood3, ?_, ?_⟩
      · rw [hgB2, hgA2]
        simp [List.append_assoc]
      · simp [List.length_append]
      · have hgBM2 : gB.length < (gB ++ [(⟨.mul, [a, ib], none, false, none⟩ : Node)]).length := by
          simp only [List.length_append, List.length_singleton]; omega
        have hgAM2 : gA.length < (gB ++ [(⟨.mul, [a, ib], none, false, none⟩ : Node)]).length := by
          simp only [List.length_append, List.length_singleton]; omega
        have haM2 : a < (gB ++ [(⟨.mul, [a, ib], none, false, none⟩ : Node)]).length := by
          simp only [List.length_append, List.length_singleton]; omega
        have hibM2 : ib < (gB ++ [(⟨.mul, [a, ib], none, false, none⟩ : Node)]).length := by
          simp only [List.length_append, List.length_singleton]; omega
        have hiaM1 : ia < (gA ++ [(⟨.mul, [ia, b], none, false, none⟩ : Node)]).length := by
          simp only [List.length_append, List.length_singleton]; omega
        have hbM1 : b < (gA ++ [(⟨.mul, [ia, b], none, false, none⟩ : Node)]).length := by
          simp only [List.length_append, List.length_singleton]; omega
        have hbgd : b < (g ++ Δ).length := by
          rw [List.length_append]
          have : b < g.length := hb.trans hr
          omega
        have hagd : a < (g ++ Δ).length := by
          rw [List.length_append]
          have : a < g.length := ha.trans hr
          omega
        have hS1 : aevalQ (gB ++ [(⟨.mul, [a, ib], none, false, none⟩ : Node)]).length
            ((gB ++ [⟨.mul, [a, ib], none, false, none⟩]) ++
              [⟨.add, [gA.length, gB.length], none, false, none⟩]) gA.length =
            aderivQ (a + 1) g x a * aevalQ (b + 1) g b := by
          rw [aevalQ_append hgoodM2.1 (gB ++ [(⟨.mul, [a, ib], none, false, none⟩ : Node)]).length
              gA.length hgAM2,
            aevalQ_append hgoodB.1 (gB ++ [(⟨.mul, [a, ib], none, false, none⟩ : Node)]).length
              gA.length hM1len,
            aevalQ_fuel hgoodB.1 gA.length hM1len
              (gB ++ [(⟨.mul, [a, ib], none, false, none⟩ : Node)]).length (gA.length + 1)
              hgAM2 (by omega),
            hgB2,
            aevalQ_append hgoodM1.1 (gA.length + 1) gA.length (by simp),
            aevalQ_mul_eq gA.length (by rw [nodeAt_append_self])
              (by rw [nodeAt_append_self]),
            aevalQ_fuel hgoodM1.1 ia hiaM1 gA.length (ia + 1) hiaA (by omega),
            aevalQ_fuel hgoodM1.1 b hbM1 gA.length (b + 1) hbA (by omega),
            aevalQ_append hgoodA.1 (ia + 1) ia hiaA,
            aevalQ_append hgoodA.1 (b + 1) b hbA,
            hvalA,
            hgA2,
            aevalQ_append hg.1 (b + 1) b hbgd,
            aevalQ_append hwf (b + 1) b (hb.trans hr)]
        have hS2 : aevalQ (gB ++ [(⟨.mul, [a, ib], none, false, none⟩ : Node)]).length
            ((gB ++ [⟨.mul, [a, ib], none, false, none⟩]) ++
              [⟨.add, [gA.length, gB.length], none, false, none⟩]) gB.length =
            aevalQ (a + 1) g a * aderivQ (b + 1) g x b := by
          rw [aevalQ_append hgoodM2.1 (gB ++ [(⟨.mul, [a, ib], none, false, none⟩ : Node)]).length
              gB.length hgBM2,
            aevalQ_fuel hgoodM2.1 gB.length hgBM2
              (gB ++ [(⟨.mul, [a, ib], none, false, none⟩ : Node)]).length (gB.length + 1)
              hgBM2 (by omega)]
          rw [aevalQ_mul_eq gB.length (by rw [nodeAt_append_self])
              (by rw [nodeAt_append_self]),
            aevalQ_fuel hgoodM2.1 a haM2 gB.length (a + 1) haB (by omega),
            aevalQ_fuel hgoodM2.1 ib hibM2 gB.length (ib + 1) hibB (by omega),
            aevalQ_append hgoodB.1 (a + 1) a haB,
            aevalQ_append hgoodB.1 (ib + 1) ib hibB,
            hvalB,
            hgB2,
            aevalQ_append hgoodM1.1 (a + 1) a (by simp only [List.length_append, List.length_singleton]; omega),
            aevalQ_append hgoodA.1 (a + 1) a haA,
            hgA2,
            aevalQ_append hg.1 (a + 1) a hagd,
            aevalQ_append hwf (a + 1) a (ha.trans hr)]
        rw [aevalQ_add_eq (gB ++ [(⟨.mul, [a, ib], none, false, none⟩ : Node)]).length
            (by rw [nodeAt_append_self]) (by rw [nodeAt_append_self]),
          hS1, hS2,
          aderivQ_mul_eq r hne hop hinp,
          aderivQ_fuel hwf x a (ha.trans hr) r (a + 1) ha (by omega),
          aderivQ_fuel hwf x b (hb.trans hr) r (b + 1) hb (by omega),
          aevalQ_fuel hwf b (hb.trans hr) r (b + 1) hb (by omega),
          aevalQ_fuel hwf a (ha.trans hr) r (a + 1) ha (by omega)]

theorem goodEval_of_am {g : Arena} (hwf : wfIdx g) (ham : amArena g) :
    goodEval g := by
  refine ⟨hwf, fun n hn => ?_⟩
  rcases ham n hn with h | h | h
  · exact Or.inl h
  · exact Or.inr (Or.inr (Or.inr (Or.inr (Or.inr (Or.inl h)))))
  · exact Or.inr (Or.inr (Or.inr (Or.inr (Or.inr (Or.inr h)))))

/-- C3: on an expression graph built only from `Add`/`Mul` over `Leaf`s
(`amArena`), bottom-up (`wfIdx`), with exactly one leaf `x` marked active
(`onlyActive` plus `x`'s op being `Leaf`), `fwd` on any node `r` succeeds and
evaluating the returned tangent root with `apply_fwd` yields exactly the
closed-form partial derivative (`aderivQ`) of `r`'s expression with respect
to `x` at the leaves' currently stored values. -/
theorem C3_forward_mode (ff : FloatFns) (g : Arena) (x r : ℕ)
    (hwf : wfIdx g) (ham : amArena g) (hxop : (nodeAt g x).op = .leaf)
    (hact : onlyActive g x) (hr : r < g.length) :
    ∃ i g2 gf, fwdA (r + 1) g r = .ok (i, g2) ∧
      applyFwd ff (i + 1) g2 i = .ok (.F (aderivQ (r + 1) g x r), gf) := by
  obtain ⟨i, g2, Δ2, hf, hg2, hgood2, hi, hval⟩ :=
    fwdA_am g x hwf ham hact hxop r hr (r + 1) (by omega) g
      (goodEval_of_am hwf ham) ⟨[], by simp⟩
  obtain ⟨gf, hap⟩ := applyFwd_pure ff (i + 1) g2 i hgood2 hi (by omega)
  exact ⟨i, g2, gf, hf, by rw [hap, hval]⟩

/-- Witness for C3 on the concrete tree `Mul(x, y)` with `x = 3` active and
`y = 4`. -/
theorem C3_forward_mode_witness :
    ∃ i g2 gf, fwdA 3 gW1 2 = .ok (i, g2) ∧
      applyFwd ffZero (i + 1) g2 i = .ok (.F (aderivQ 3 gW1 0 2), gf) :=
  C3_forward_mode ffZero gW1 0 2 (by unfold wfIdx; decide)
    (by unfold amArena amNode; decide) (by decide)
    (by unfold onlyActive; decide) (by decide)

theorem length_setAdj (g : Arena) (n : ℕ) (a : Option AdjExpr) :
    (setAdj g n a).length = g.length := by
  unfold setAdj
  exact length_modifyN g n _

theorem adjOf_nodeAt {g : Arena} {m : ℕ} (hm : m < g.length) :
    adjOf g m = (nodeAt g m).adj := by
  unfold adjOf
  rw [get?_lt hm]

theorem adjOf_ge {g : Arena} {m : ℕ} (hm : ¬ m < g.length) : adjOf g m = none := by
  unfold adjOf
  rw [get?_ge hm]

theorem adjOf_setAdj (g : Arena) (n : ℕ) (a : Option AdjExpr) (m : ℕ) :
    adjOf (setAdj g n a) m = if m = n ∧ m < g.length then a else adjOf g m := by
  unfold setAdj adjOf
  rw [get?_modifyN]
  by_cases h : m = n
  · subst h
    by_cases hm : m < g.length
    · rw [get?_lt hm]
      simp [hm]
    · rw [get?_ge hm]
      simp [hm]
  · simp [h]

theorem evalAgree_trans {g h i : Arena} (h1 : evalAgree g h) (h2 : evalAgree h i) :
    evalAgree g i := by
  obtain ⟨⟨hl1, hf1⟩, hv1⟩ := h1
  obtain ⟨⟨hl2, hf2⟩, hv2⟩ := h2
  refine ⟨⟨hl1.trans hl2, fun n => ⟨(hf1 n).1.trans (hf2 n).1,
    (hf1 n).2.1.trans (hf2 n).2.1, (hf1 n).2.2.trans (hf2 n).2.2⟩⟩, fun n ho => ?_⟩
  exact (hv1 n ho).trans (hv2 n (by rw [← (hf1 n).1]; exact ho))

theorem evalAgree_of_adjOnly {g h : Arena} (ha : adjOnly g h) : evalAgree g h := by
  obtain ⟨hl, hf⟩ := ha
  exact ⟨⟨hl.symm, fun n => ⟨((hf n).1).symm, ((hf n).2.1).symm, ((hf n).2.2.2).symm⟩⟩,
    fun n _ => ((hf n).2.2.1).symm⟩

theorem childCount_cons (nd : Node) (g : Arena) (m : ℕ) :
    childCount (nd :: g) m = nd.inp.count m + childCount g m := by
  unfold childCount
  simp

theorem nodeAt_cons_succ (nd : Node) (g : Arena) (n : ℕ) :
    nodeAt (nd :: g) (n + 1) = nodeAt g n := rfl

theorem nodeAt_cons_zero (nd : Node) (g : Arena) : nodeAt (nd :: g) 0 = nd := rfl

theorem count_le_childCount : ∀ (g : Arena) (n m : ℕ), n < g.length →
    (nodeAt g n).inp.count m ≤ childCount g m := by
  intro g
  induction g with
  | nil =>
    intro n m hn
    simp at hn
  | cons nd g2 ih =>
    intro n m hn
    rw [childCount_cons]
    cases n with
    | zero =>
      rw [nodeAt_cons_zero]
      omega
    | succ k =>
      rw [nodeAt_cons_succ]
      have := ih k m (by simpa using hn)
      omega

theorem two_counts_le_childCount : ∀ (g : Arena) (n1 n2 m : ℕ), n1 < n2 → n2 < g.length →
    (nodeAt g n1).inp.count m + (nodeAt g n2).inp.count m ≤ childCount g m := by
  intro g
  induction g with
  | nil =>
    intro n1 n2 m _ h2
    simp at h2
  | cons nd g2 ih =>
    intro n1 n2 m h12 h2
    rw [childCount_cons]
    cases n1 with
    | zero =>
      obtain ⟨k2, rfl⟩ : ∃ k, n2 = k + 1 := ⟨n2 - 1, by omega⟩
      rw [nodeAt_cons_zero, nodeAt_cons_succ]
      have := count_le_childCount g2 k2 m (by simpa using h2)
      omega
    | succ k1 =>
      obtain ⟨k2, rfl⟩ : ∃ k, n2 = k + 1 := ⟨n2 - 1, by omega⟩
      rw [nodeAt_cons_succ, nodeAt_cons_succ]
      have := ih k1 k2 m (by omega) (by simpa using h2)
      omega

theorem childCount_pos_parent : ∀ (g : Arena) (m : ℕ), 0 < childCount g m →
    ∃ p, p < g.length ∧ m ∈ (nodeAt g p).inp := by
  intro g
  induction g with
  | nil =>
    intro m h
    simp [childCount] at h
  | cons nd g2 ih =>
    intro m h
    rw [childCount_cons] at h
    by_cases hc : 0 < nd.inp.count m
    · exact ⟨0, by simp, List.count_pos_iff_mem.mp hc⟩
    · obtain ⟨p, hp, hmem⟩ := ih m (by omega)
      exact ⟨p + 1, by simpa using hp, by rwa [nodeAt_cons_succ]⟩

theorem tree_not_parent_r {g : Arena} {r : ℕ} (ht : isTree g r) {q : ℕ}
    (hq : q < g.length) : r ∉ (nodeAt g q).inp := by
  intro hmem
  have h1 : 0 < (nodeAt g q).inp.count r := List.count_pos_iff_mem.mpr hmem
  have h2 := count_le_childCount g q r hq
  rw [ht.2.2.1] at h2
  omega

theorem tree_parent_unique {g : Arena} {r : ℕ} (ht : isTree g r) {m p1 p2 : ℕ}
    (hp1 : p1 < g.length) (hp2 : p2 < g.length)
    (hm1 : m ∈ (nodeAt g p1).inp) (hm2 : m ∈ (nodeAt g p2).inp) : p1 = p2 := by
  by_contra hne
  have hmr : m ≠ r := fun he => tree_not_parent_r ht hp1 (he ▸ hm1)
  have hm : m < g.length := lt_trans (ht.2.1 p1 hp1 m hm1) hp1
  have hcc : childCount g m = 1 := ht.2.2.2 m hm hmr
  have hc1 : 0 < (nodeAt g p1).inp.count m := List.count_pos_iff_mem.mpr hm1
  have hc2 : 0 < (nodeAt g p2).inp.count m := List.count_pos_iff_mem.mpr hm2
  rcases lt_or_gt_of_ne hne with h | h
  · have := two_counts_le_childCount g p1 p2 m h hp2
    omega
  · have := two_counts_le_childCount g p2 p1 m h hp1
    omega

theorem tree_count_le_one {g : Arena} {r : ℕ} (ht : isTree g r) {p m : ℕ}
    (hp : p < g.length) : (nodeAt g p).inp.count m ≤ 1 := by
  by_cases hmem : m ∈ (nodeAt g p).inp
  · have hmr : m ≠ r := fun he => tree_not_parent_r ht hp (he ▸ hmem)
    have hm : m < g.length := lt_trans (ht.2.1 p hp m hmem) hp
    have := count_le_childCount g p m hp
    rw [ht.2.2.2 m hm hmr] at this
    omega
  · rw [List.count_eq_zero.mpr hmem]
    omega

theorem parentOf_spec {g : Arena} {m p : ℕ} (h : parentOf g m = some p) :
    p < g.length ∧ m ∈ (nodeAt g p).inp := by
  unfold parentOf at h
  refine ⟨List.mem_range.mp (List.mem_of_find?_eq_some h), ?_⟩
  have := List.find?_some h
  simpa using this

theorem tree_parentOf {g : Arena} {r : ℕ} (ht : isTree g r) {m : ℕ}
    (hm : m < g.length) (hmr : m ≠ r) :
    ∃ p, parentOf g m = some p ∧ p < g.length ∧ m ∈ (nodeAt g p).inp := by
  have hcc : childCount g m = 1 := ht.2.2.2 m hm hmr
  obtain ⟨p, hp, hmem⟩ := childCount_pos_parent g m (by omega)
  refine ⟨p, ?_, hp, hmem⟩
  unfold parentOf
  cases hfind : (List.range g.length).find? (fun n => (nodeAt g n).inp.contains m) with
  | none =>
    exfalso
    have := List.find?_eq_none.mp hfind p (List.mem_range.mpr hp)
    simp at this
    exact this hmem
  | some p2 =>
    have hpred := List.find?_some hfind
    have hp2 : p2 < g.length := List.mem_range.mp (List.mem_of_find?_eq_some hfind)
    have hmem2 : m ∈ (nodeAt g p2).inp := by simpa using hpred
    rw [tree_parent_unique ht hp2 hp hmem2 hmem]

theorem tree_parentOf_root {g : Arena} {r : ℕ} (ht : isTree g r) :
    parentOf g r = none := by
  unfold parentOf
  cases hfind : (List.range g.length).find? (fun n => (nodeAt g n).inp.contains r) with
  | none => rfl
  | some p =>
    exfalso
    have hp : p < g.length := List.mem_range.mp (List.mem_of_find?_eq_some hfind)
    have : r ∈ (nodeAt g p).inp := by simpa using List.find?_some hfind
    exact tree_not_parent_r ht hp this

theorem length_lt_of_nodup {vis : List ℕ} {L n : ℕ} (hnd : vis.Nodup)
    (hsub : ∀ m ∈ vis, m < L) (hn : n < L) (hnv : n ∉ vis) : vis.length < L := by
  classical
  have h1 : vis.toFinset.card = vis.length := List.toFinset_card_of_nodup hnd
  have h2 : vis.toFinset ⊆ Finset.range L :=
    fun x hx => Finset.mem_range.mpr (hsub x (List.mem_toFinset.mp hx))
  have h3 : vis.toFinset ⊂ Finset.range L :=
    ⟨h2, fun hsup => hnv (List.mem_toFinset.mp (hsup (Finset.mem_range.mpr hn)))⟩
  have h4 := Finset.card_lt_card h3
  rw [h1, Finset.card_range] at h4
  exact h4

theorem length_le_of_nodup {vis : List ℕ} {L : ℕ} (hnd : vis.Nodup)
    (hsub : ∀ m ∈ vis, m < L) : vis.length ≤ L := by
  classical
  have h1 : vis.toFinset.card = vis.length := List.toFinset_card_of_nodup hnd
  have h2 : vis.toFinset ⊆ Finset.range L :=
    fun x hx => Finset.mem_range.mpr (hsub x (List.mem_toFinset.mp hx))
  have h4 := Finset.card_le_card h2
  rw [h1, Finset.card_range] at h4
  exact h4

theorem reaches_le {g : Arena} (hwf : wfIdx g) :
    ∀ k n m, reaches k g n m = true → m ≤ n := by
  intro k
  induction k with
  | zero =>
    intro n m h
    simp [reaches] at h
  | succ k ih =>
    intro n m h
    simp only [reaches, Bool.or_eq_true, beq_iff_eq, List.any_eq_true] at h
    rcases h with h | ⟨i, hi, hr⟩
    · omega
    · have him : m ≤ i := ih i m hr
      by_cases hn : n < g.length
      · exact le_trans him (le_of_lt (hwf n hn i hi))
      · rw [nodeAt_ge hn] at hi
        simp at hi

theorem reaches_self (g : Arena) (k n : ℕ) : reaches (k + 1) g n n = true := by
  simp [reaches]

theorem reaches_last {g : Arena} :
    ∀ k n m, reaches k g n m = true → n ≠ m →
      ∃ q, reaches k g n q = true ∧ m ∈ (nodeAt g q).inp := by
  intro k
  induction k with
  | zero =>
    intro n m h
    simp [reaches] at h
  | succ k ih =>
    intro n m h hne
    simp only [reaches, Bool.or_eq_true, beq_iff_eq, List.any_eq_true] at h
    rcases h with h | ⟨i, hi, hr⟩
    · exact absurd h hne
    · by_cases him : i = m
      · exact ⟨n, reaches_self g k n, him ▸ hi⟩
      · obtain ⟨q, hq, hmem⟩ := ih i m hr him
        refine ⟨q, ?_, hmem⟩
        simp only [reaches, Bool.or_eq_true, beq_iff_eq, List.any_eq_true]
        exact Or.inr ⟨i, hi, hq⟩

theorem noReach_below {g : Arena} {r : ℕ} (ht : isTree g r) {m p : ℕ}
    (hp : p < g.length) (hmp : m ∈ (nodeAt g p).inp) :
    ∀ k t, t < g.length → t < p → t ≠ m → reaches k g t m = false := by
  intro k t htl htp htm
  cases hrc : reaches k g t m with
  | false => rfl
  | true =>
    exfalso
    obtain ⟨q, hq, hqmem⟩ := reaches_last k t m hrc htm
    have hql : q ≤ t := reaches_le ht.2.1 k t q hq
    have hqlen : q < g.length := lt_of_le_of_lt hql htl
    have hqp : q = p := tree_parent_unique ht hqlen hp hqmem hmp
    omega

theorem aderivQ_unreached {g : Arena} :
    ∀ k x n, reaches k g n x = false → aderivQ k g x n = 0 := by
  intro k
  induction k with
  | zero =>
    intro x n _
    rfl
  | succ k ih =>
    intro x n h
    simp only [reaches, Bool.or_eq_false_iff, beq_eq_false_iff_ne, ne_eq,
      List.any_eq_false, Bool.not_eq_true] at h
    obtain ⟨hne, hall⟩ := h
    simp only [aderivQ]
    rw [if_neg hne]
    cases hop : (nodeAt g n).op <;> try rfl
    case add =>
      cases hinp : (nodeAt g n).inp with
      | nil => rfl
      | cons a t =>
        cases t with
        | nil => rfl
        | cons b t2 =>
          cases t2 with
          | cons c t3 => rfl
          | nil =>
            have ha := hall a (by rw [hinp]; simp)
            have hb := hall b (by rw [hinp]; simp)
            dsimp only
            rw [ih x a ha, ih x b hb]
            norm_num
    case mul =>
      cases hinp : (nodeAt g n).inp with
      | nil => rfl
      | cons a t =>
        cases t with
        | nil => rfl
        | cons b t2 =>
          cases t2 with
          | cons c t3 => rfl
          | nil =>
            have ha := hall a (by rw [hinp]; simp)
            have hb := hall b (by rw [hinp]; simp)
            dsimp only
            rw [ih x a ha, ih x b hb]
            ring

theorem aderivQ_pos_self (g : Arena) (x : ℕ) {k : ℕ} (hk : 0 < k) :
    aderivQ k g x x = 1 := by
  obtain ⟨t, rfl⟩ : ∃ t, k = t + 1 := ⟨k - 1, by omega⟩
  exact aderivQ_self g x t

theorem chainC {g : Arena} {r : ℕ} (ht : isTree g r) (ham : amArena g)
    {p m : ℕ} (hp : p < g.length) (hmp : m ∈ (nodeAt g p).inp) :
    ∀ n, n < g.length → n ≠ m →
      aderivQ (n + 1) g m n = aderivQ (n + 1) g p n * localD g p m g.length := by
  have hwf : wfIdx g := ht.2.1
  have hmplt : m < p := hwf p hp m hmp
  have hmlen : m < g.length := lt_trans hmplt hp
  intro n
  induction n using Nat.strong_induction_on with
  | _ n ihn =>
    intro hn hnm
    by_cases hnp : n = p
    · subst hnp
      rw [aderivQ_self g n n]
      rcases ham n hn with ⟨hop, hinp0, _⟩ | ⟨hop, hlen2⟩ | ⟨hop, hlen2⟩
      · rw [hinp0] at hmp
        simp at hmp
      · -- parent is Add
        obtain ⟨a, b, hinp⟩ := list_len2 hlen2
        have hab : a ≠ b := by
          intro he
          have hc := tree_count_le_one (m := b) ht hn
          rw [hinp, he] at hc
          simp at hc
        have hal : a < n := hwf n hn a (by rw [hinp]; simp)
        have hbl : b < n := hwf n hn b (by rw [hinp]; simp)
        have hmab : m = a ∨ m = b := by
          have h2 := hmp
          rw [hinp] at h2
          simpa using h2
        have hD : localD g n m g.length = 1 := by
          unfold localD
          rw [hop, hinp]
        rw [hD]
        simp only [aderivQ]
        rw [if_neg hnm, hop, hinp]
        dsimp only
        rcases hmab with hma | hmb
        · have hbm : b ≠ m := fun he => hab (hma ▸ he.symm)
          have hz : aderivQ n g m b = 0 :=
            aderivQ_unreached n m b
              (noReach_below ht hn hmp n b (lt_trans hbl hn) hbl hbm)
          rw [hz, ← hma, aderivQ_pos_self g m (by omega)]
          norm_num
        · have ham2 : a ≠ m := fun he => hab (he.trans hmb)
          have hz : aderivQ n g m a = 0 :=
            aderivQ_unreached n m a
              (noReach_below ht hn hmp n a (lt_trans hal hn) hal ham2)
          rw [hz, ← hmb, aderivQ_pos_self g m (by omega)]
          norm_num
      · -- parent is Mul
        obtain ⟨a, b, hinp⟩ := list_len2 hlen2
        have hab : a ≠ b := by
          intro he
          have hc := tree_count_le_one (m := b) ht hn
          rw [hinp, he] at hc
          simp at hc
        have hal : a < n := hwf n hn a (by rw [hinp]; simp)
        have hbl : b < n := hwf n hn b (by rw [hinp]; simp)
        have hmab : m = a ∨ m = b := by
          have h2 := hmp
          rw [hinp] at h2
          simpa using h2
        simp only [aderivQ]
        rw [if_neg hnm, hop, hinp]
        dsimp only
        rcases hmab with hma | hmb
        · have hbm : b ≠ m := fun he => hab (hma ▸ he.symm)
          have hD : localD g n m g.length = aevalQ g.length g b := by
            unfold localD
            rw [hop, hinp]
            dsimp only
            rw [if_pos hma]
          have hz : aderivQ n g m b = 0 :=
            aderivQ_unreached n m b
              (noReach_below ht hn hmp n b (lt_trans hbl hn) hbl hbm)
          rw [hD, hz, ← hma, aderivQ_pos_self g m (by omega),
            aevalQ_fuel hwf b (lt_trans hbl hn) n g.length hbl (lt_trans hbl hn)]
          ring
        · have ham2 : a ≠ m := fun he => hab (he.trans hmb)
          have hD : localD g n m g.length = aevalQ g.length g a := by
            unfold localD
            rw [hop, hinp]
            dsimp only
            rw [if_neg (fun he => ham2 he.symm)]
          have hz : aderivQ n g m a = 0 :=
            aderivQ_unreached n m a
              (noReach_below ht hn hmp n a (lt_trans hal hn) hal ham2)
          rw [hD, hz, ← hmb, aderivQ_pos_self g m (by omega),
            aevalQ_fuel hwf a (lt_trans hal hn) n g.length hal (lt_trans hal hn)]
          ring
    · -- n is neither the parent nor m itself
      have hmn : m ∉ (nodeAt g n).inp :=
        fun hc => hnp (tree_parent_unique ht hn hp hc hmp)
      rcases ham n hn with ⟨hopn, hinpn, _⟩ | ⟨hopn, hlenn⟩ | ⟨hopn, hlenn⟩
      · -- leaf: both sides vanish
        have hz : aderivQ (n + 1) g p n = 0 := by
          refine aderivQ_unreached (n + 1) p n ?_
          simp only [reaches]
          rw [hinpn]
          simp [hnp]
        rw [hz]
        simp only [aderivQ]
        rw [if_neg hnm, hopn]
        dsimp only
        norm_num
      · -- Add node above
        obtain ⟨a, b, hinpn⟩ := list_len2 hlenn
        have hal : a < n := hwf n hn a (by rw [hinpn]; simp)
        have hbl : b < n := hwf n hn b (by rw [hinpn]; simp)
        have halen : a < g.length := lt_trans hal hn
        have hblen : b < g.length := lt_trans hbl hn
        have ham2 : a ≠ m :=
          fun he => hmn (by rw [hinpn]; exact List.mem_cons.mpr (Or.inl he.symm))
        have hbm2 : b ≠ m :=
          fun he => hmn (by rw [hinpn]; simp [he.symm])
        have hLa : aderivQ n g m a = aderivQ n g p a * localD g p m g.length := by
          rw [aderivQ_fuel hwf m a halen n (a + 1) hal (by omega),
            ihn a hal halen ham2,
            aderivQ_fuel hwf p a halen (a + 1) n (by omega) hal]
        have hLb : aderivQ n g m b = aderivQ n g p b * localD g p m g.length := by
          rw [aderivQ_fuel hwf m b hblen n (b + 1) hbl (by omega),
            ihn b hbl hblen hbm2,
            aderivQ_fuel hwf p b hblen (b + 1) n (by omega) hbl]
        simp only [aderivQ]
        rw [if_neg hnm, if_neg hnp, hopn, hinpn]
        dsimp only
        rw [hLa, hLb]
        ring
      · -- Mul node above
        obtain ⟨a, b, hinpn⟩ := list_len2 hlenn
        have hal : a < n := hwf n hn a (by rw [hinpn]; simp)
        have hbl : b < n := hwf n hn b (by rw [hinpn]; simp)
        have halen : a < g.length := lt_trans hal hn
        have hblen : b < g.length := lt_trans hbl hn
        have ham2 : a ≠ m :=
          fun he => hmn (by rw [hinpn]; exact List.mem_cons.mpr (Or.inl he.symm))
        have hbm2 : b ≠ m :=
          fun he => hmn (by rw [hinpn]; simp [he.symm])
        have hLa : aderivQ n g m a = aderivQ n g p a * localD g p m g.length := by
          rw [aderivQ_fuel hwf m a halen n (a + 1) hal (by omega),
            ihn a hal halen ham2,
            aderivQ_fuel hwf p a halen (a + 1) n (by omega) hal]
        have hLb : aderivQ n g m b = aderivQ n g p b * localD g p m g.length := by
          rw [aderivQ_fuel hwf m b hblen n (b + 1) hbl (by omega),
            ihn b hbl hblen hbm2,
            aderivQ_fuel hwf p b hblen (b + 1) n (by omega) hbl]
        simp only [aderivQ]
        rw [if_neg hnm, if_neg hnp, hopn, hinpn]
        dsimp only
        rw [hLa, hLb]
        ring

theorem accAux_fuel {g : Arena} {r : ℕ} (ht : isTree g r) :
    ∀ f1 f2 m, m < g.length → g.length - m ≤ f1 → g.length - m ≤ f2 →
      accAux g r f1 m = accAux g r f2 m := by
  intro f1
  induction f1 with
  | zero =>
    intro f2 m hm h1 _
    omega
  | succ f1 ih =>
    intro f2 m hm h1 h2
    obtain ⟨f3, rfl⟩ : ∃ t, f2 = t + 1 := ⟨f2 - 1, by omega⟩
    simp only [accAux]
    by_cases hmr : m = r
    · rw [if_pos hmr, if_pos hmr]
    · rw [if_neg hmr, if_neg hmr]
      cases hpar : parentOf g m with
      | none => rfl
      | some p =>
        dsimp only
        obtain ⟨hplen, hpmem⟩ := parentOf_spec hpar
        have hmp : m < p := ht.2.1 p hplen m hpmem
        rw [ih f3 p hplen (by omega) (by omega)]

theorem accAux_am {g : Arena} {r : ℕ} (ht : isTree g r) (ham : amArena g) :
    ∀ fuel m, amAdj g.length (accAux g r fuel m) := by
  intro fuel
  induction fuel with
  | zero =>
    intro m
    exact trivial
  | succ fuel ih =>
    intro m
    simp only [accAux]
    by_cases hmr : m = r
    · rw [if_pos hmr]
      exact trivial
    · rw [if_neg hmr]
      cases hpar : parentOf g m with
      | none => exact trivial
      | some p =>
        dsimp only
        refine ⟨trivial, ?_⟩
        obtain ⟨hplen, hpmem⟩ := parentOf_spec hpar
        unfold accContrib
        rcases ham p hplen with ⟨hop, hinp0, _⟩ | ⟨hop, hlen2⟩ | ⟨hop, hlen2⟩
        · rw [hinp0] at hpmem
          simp at hpmem
        · obtain ⟨a, b, hinp⟩ := list_len2 hlen2
          rw [hop, hinp]
          simp only [opAdjoint]
          try dsimp only
          cases hidx : List.indexOf m [a, b] with
          | zero =>
            simp only [List.getD, List.get?, Option.getD]
            exact ih p
          | succ k =>
            cases k with
            | zero =>
              simp only [List.getD, List.get?, Option.getD]
              exact ih p
            | succ k2 =>
              simp only [List.getD, List.get?, Option.getD]
              exact trivial
        · obtain ⟨a, b, hinp⟩ := list_len2 hlen2
          have halen : a < g.length :=
            lt_trans (ht.2.1 p hplen a (by rw [hinp]; simp)) hplen
          have hblen : b < g.length :=
            lt_trans (ht.2.1 p hplen b (by rw [hinp]; simp)) hplen
          rw [hop, hinp]
          simp only [opAdjoint]
          try dsimp only
          cases hidx : List.indexOf m [a, b] with
          | zero =>
            simp only [List.getD, List.get?, Option.getD]
            exact ⟨hblen, ih p⟩
          | succ k =>
            cases k with
            | zero =>
              simp only [List.getD, List.get?, Option.getD]
              exact ⟨halen, ih p⟩
            | succ k2 =>
              simp only [List.getD, List.get?, Option.getD]
              exact trivial

theorem accAux_val {g : Arena} {r : ℕ} (ht : isTree g r) (ham : amArena g) :
    ∀ fuel m, m < g.length → g.length - m ≤ fuel →
      qAdjVal g.length g (accAux g r fuel m) = aderivQ g.length g m r := by
  intro fuel
  induction fuel with
  | zero =>
    intro m hm hf
    omega
  | succ fuel ih =>
    intro m hm hf
    simp only [accAux]
    by_cases hmr : m = r
    · subst hmr
      rw [if_pos rfl, aderivQ_pos_self g m (by omega)]
      rfl
    · rw [if_neg hmr]
      obtain ⟨p, hpar, hplen, hpmem⟩ := tree_parentOf ht hm hmr
      rw [hpar]
      dsimp only
      simp only [qAdjVal]
      have hmp : m < p := ht.2.1 p hplen m hpmem
      have hih := ih p hplen (by omega)
      have hrlen : r < g.length := ht.1
      have hwf : wfIdx g := ht.2.1
      have hchain := chainC ht ham hplen hpmem r hrlen (fun he => hmr he.symm)
      have hch2 : aderivQ g.length g m r =
          aderivQ g.length g p r * localD g p m g.length := by
        rw [aderivQ_fuel hwf m r hrlen g.length (r + 1) hrlen (by omega),
          hchain,
          aderivQ_fuel hwf p r hrlen (r + 1) g.length (by omega) hrlen]
      rw [hch2]
      unfold accContrib
      rcases ham p hplen with ⟨hop, hinp0, _⟩ | ⟨hop, hlen2⟩ | ⟨hop, hlen2⟩
      · rw [hinp0] at hpmem
        simp at hpmem
      · -- parent Add
        obtain ⟨a, b, hinp⟩ := list_len2 hlen2
        have hab : a ≠ b := by
          intro he
          have hc := tree_count_le_one (m := b) ht hplen
          rw [hinp, he] at hc
          simp at hc
        have hmab : m = a ∨ m = b := by
          have h2 := hpmem
          rw [hinp] at h2
          simpa using h2
        have hD : localD g p m g.length = 1 := by
          unfold localD
          rw [hop, hinp]
        rw [hop, hinp, hD]
        simp only [opAdjoint]
        try dsimp only
        rcases hmab with hma | hmb
        · rw [← hma, List.indexOf_cons_self]
          simp only [List.getD, List.get?, Option.getD]
          rw [hih]
          ring
        · have ham2 : a ≠ m := fun he => hab (he.trans hmb)
          rw [← hmb, List.indexOf_cons_ne _ ham2,
            List.indexOf_cons_self]
          simp only [List.getD, List.get?, Option.getD]
          rw [hih]
          ring
      · -- parent Mul
        obtain ⟨a, b, hinp⟩ := list_len2 hlen2
        have hab : a ≠ b := by
          intro he
          have hc := tree_count_le_one (m := b) ht hplen
          rw [hinp, he] at hc
          simp at hc
        have hmab : m = a ∨ m = b := by
          have h2 := hpmem
          rw [hinp] at h2
          simpa using h2
        rw [hop, hinp]
        simp only [opAdjoint]
        try dsimp only
        rcases hmab with hma | hmb
        · have hD : localD g p m g.length = aevalQ g.length g b := by
            unfold localD
            rw [hop, hinp]
            dsimp only
            rw [if_pos hma]
          rw [hD, ← hma, List.indexOf_cons_self]
          simp only [List.getD, List.get?, Option.getD]
          simp only [qAdjVal]
          rw [hih]
          ring
        · have ham2 : a ≠ m := fun he => hab (he.trans hmb)
          have hD : localD g p m g.length = aevalQ g.length g a := by
            unfold localD
            rw [hop, hinp]
            dsimp only
            rw [if_neg (fun he => ham2 he.symm)]
          rw [hD, ← hmb, List.indexOf_cons_ne _ ham2,
            List.indexOf_cons_self]
          simp only [List.getD, List.get?, Option.getD]
          simp only [qAdjVal]
          rw [hih]
          ring

theorem evalAdj_pure (ff : FloatFns) {g0 : Arena} (hg0 : goodEval g0) {K : ℕ}
    (hK : g0.length ≤ K) :
    ∀ e, amAdj g0.length e → ∀ g, evalAgree g0 g →
      ∃ g2, evalAdj ff K g e = .ok (.F (qAdjVal g0.length g0 e), g2) ∧
        evalAgree g0 g2 := by
  intro e
  induction e with
  | ref i =>
    intro hamj g hag
    have hgood : goodEval g := goodEval_of_evalAgree hag hg0
    have hi0 : i < g0.length := hamj
    have hi : i < g.length := by rw [← hag.1.1]; exact hi0
    obtain ⟨g1, hap⟩ := applyFwd_pure ff K g i hgood hi (lt_of_lt_of_le hi0 hK)
    refine ⟨g1, ?_, ?_⟩
    · have hv : aevalQ (i + 1) g i = qAdjVal g0.length g0 (.ref i) := by
        simp only [qAdjVal]
        rw [← aevalQ_congr hag (i + 1) i,
          aevalQ_fuel hg0.1 i hi0 (i + 1) g0.length (by omega) hi0]
      simp only [evalAdj]
      rw [hap, hv]
    · exact evalAgree_trans hag
        (evalAgree_of_keep ((applyFwd_keep ff K).1 g i _ g1 hap))
  | one =>
    intro _ g hag
    exact ⟨g, rfl, hag⟩
  | zero =>
    intro _ g hag
    exact ⟨g, rfl, hag⟩
  | constE c =>
    intro h _ _
    exact (h : False).elim
  | aadd a b iha ihb =>
    intro hamj g hag
    obtain ⟨g1, ha, hag1⟩ := iha hamj.1 g hag
    obtain ⟨g2, hb, hag2⟩ := ihb hamj.2 g1 hag1
    refine ⟨g2, ?_, hag2⟩
    simp only [evalAdj]
    rw [ha]
    dsimp only
    rw [hb]
    rfl
  | amul a b iha ihb =>
    intro hamj g hag
    obtain ⟨g1, ha, hag1⟩ := iha hamj.1 g hag
    obtain ⟨g2, hb, hag2⟩ := ihb hamj.2 g1 hag1
    refine ⟨g2, ?_, hag2⟩
    simp only [evalAdj]
    rw [ha]
    dsimp only
    rw [hb]
    rfl
  | adiv a b _ _ =>
    intro h _ _
    exact (h : False).elim
  | apow a b _ _ =>
    intro h _ _
    exact (h : False).elim
  | asin a _ =>
    intro h _ _
    exact (h : False).elim
  | acos a _ =>
    intro h _ _
    exact (h : False).elim
  | aexp a _ =>
    intro h _ _
    exact (h : False).elim
  | alog a _ =>
    intro h _ _
    exact (h : False).elim

theorem contains_false {l : List ℕ} {n : ℕ} (h : n ∉ l) : l.contains n = false := by
  simpa using h

theorem accOf_root (g0 : Arena) (r : ℕ) : accOf g0 r r = .one := by
  unfold accOf
  simp only [accAux]
  rw [if_pos trivial]

theorem accOf_child {g0 : Arena} {r : ℕ} (ht : isTree g0 r) {n a : ℕ}
    (hn : n < g0.length) (hmem : a ∈ (nodeAt g0 n).inp) :
    accOf g0 r a =
      .aadd .zero (accContrib g0 n ((nodeAt g0 n).inp.indexOf a) (accOf g0 r n)) := by
  have har : a ≠ r := fun he => tree_not_parent_r ht hn (he ▸ hmem)
  have halen : a < g0.length := lt_trans (ht.2.1 n hn a hmem) hn
  obtain ⟨p, hpar, hplen, hpm⟩ := tree_parentOf ht halen har
  have hpn : p = n := tree_parent_unique ht hplen hn hpm hmem
  subst hpn
  unfold accOf
  conv_lhs => simp only [accAux]
  rw [if_neg har, hpar]
  dsimp only
  rw [accAux_fuel ht g0.length (g0.length + 1) p hplen (by omega) (by omega)]

theorem child_not_r {g0 : Arena} {r : ℕ} (ht : isTree g0 r) {n a : ℕ}
    (hn : n < g0.length) (hmem : a ∈ (nodeAt g0 n).inp) : a ≠ r :=
  fun he => tree_not_parent_r ht hn (he ▸ hmem)

theorem parentOf_child {g0 : Arena} {r : ℕ} (ht : isTree g0 r) {n a : ℕ}
    (hn : n < g0.length) (hmem : a ∈ (nodeAt g0 n).inp) :
    parentOf g0 a = some n := by
  have halen : a < g0.length := lt_trans (ht.2.1 n hn a hmem) hn
  obtain ⟨p, hpar, hplen, hpm⟩ := tree_parentOf ht halen (child_not_r ht hn hmem)
  rw [hpar, tree_parent_unique ht hplen hn hpm hmem]

theorem child_unqueued {g0 : Arena} {r : ℕ} (ht : isTree g0 r)
    {n : ℕ} {rest vis : List ℕ} {out : List (ℕ × AdjExpr)} {gA : Arena}
    (hinv : RevInv g0 r ⟨n :: rest, vis, out, gA⟩) (hnvis : n ∉ vis)
    {a : ℕ} (hn : n < g0.length) (hmem : a ∈ (nodeAt g0 n).inp) :
    a ∉ vis ∧ a ∉ (n :: rest : List ℕ) := by
  have hpar := parentOf_child ht hn hmem
  constructor
  · intro hav
    rcases hinv.visClosed a hav with he | ⟨p, hp, hpv⟩
    · exact child_not_r ht hn hmem he
    · rw [hpar] at hp
      have he2 : n = p := Option.some.inj hp
      rw [← he2] at hpv
      exact hnvis hpv
  · intro haq
    obtain ⟨_, _, hfr⟩ := (hinv.qFrontier a).mp haq
    rcases hfr with he | ⟨p, hp, hpv⟩
    · exact child_not_r ht hn hmem he
    · rw [hpar] at hp
      have he2 : n = p := Option.some.inj hp
      rw [← he2] at hpv
      exact hnvis hpv

theorem revStep_leaf {g0 : Arena} {r : ℕ} (ht : isTree g0 r)
    {n : ℕ} {rest vis : List ℕ} {out : List (ℕ × AdjExpr)} {gA : Arena}
    (hinv : RevInv g0 r ⟨n :: rest, vis, out, gA⟩)
    (hinp0 : (nodeAt g0 n).inp = []) :
    RevInv g0 r ⟨rest, n :: vis, (n, accOf g0 r n) :: out, setAdj gA n none⟩ := by
  obtain ⟨hnlen, hnvis, hnfr⟩ := (hinv.qFrontier n).mp (List.mem_cons_self n rest)
  have hqnd := hinv.qNodup
  have hnrest : n ∉ rest := (List.nodup_cons.mp hqnd).1
  have hrestnd : rest.Nodup := (List.nodup_cons.mp hqnd).2
  have hlenA : gA.length = g0.length := hinv.lenEq
  refine ⟨?_, ?_, ?_, ?_, ?_, ?_, ?_, ?_, ?_⟩
  · rw [length_setAdj]
    exact hlenA
  · intro m
    have hao := adjOnly_setAdj gA n none
    have hs := hinv.shape m
    exact ⟨((hao.2 m).1).trans hs.1, ((hao.2 m).2.1).trans hs.2.1,
      ((hao.2 m).2.2.1).trans hs.2.2.1, ((hao.2 m).2.2.2).trans hs.2.2.2⟩
  · exact List.nodup_cons.mpr ⟨hnvis, hinv.visNodup⟩
  · intro m hm
    rcases List.mem_cons.mp hm with rfl | hm2
    · exact hnlen
    · exact hinv.visSub m hm2
  · intro m hm
    rcases List.mem_cons.mp hm with rfl | hm2
    · exact hnfr.imp id (fun h => by
        obtain ⟨p, hp, hpv⟩ := h
        exact ⟨p, hp, List.mem_cons_of_mem _ hpv⟩)
    · exact (hinv.visClosed m hm2).imp id (fun h => by
        obtain ⟨p, hp, hpv⟩ := h
        exact ⟨p, hp, List.mem_cons_of_mem _ hpv⟩)
  · exact hrestnd
  · intro m
    constructor
    · intro hm
      have hmq : m ∈ n :: rest := List.mem_cons_of_mem n hm
      obtain ⟨h1, h2, h3⟩ := (hinv.qFrontier m).mp hmq
      have hmn : m ≠ n := fun he => hnrest (he ▸ hm)
      refine ⟨h1, ?_, h3.imp id (fun h => by
        obtain ⟨p, hp, hpv⟩ := h
        exact ⟨p, hp, List.mem_cons_of_mem n hpv⟩)⟩
      intro hmv
      rcases List.mem_cons.mp hmv with he | hm2
      · exact hmn he
      · exact h2 hm2
    · rintro ⟨h1, h2, h3⟩
      have hmvis : m ∉ vis := fun hc => h2 (List.mem_cons_of_mem n hc)
      have hmn : m ≠ n := fun he => h2 (he ▸ List.mem_cons_self n vis)
      have h3b : m = r ∨ ∃ p, parentOf g0 m = some p ∧ p ∈ vis := by
        rcases h3 with he | ⟨p, hp, hpv⟩
        · exact Or.inl he
        · rcases List.mem_cons.mp hpv with rfl | hpv2
          · exfalso
            have hmem := (parentOf_spec hp).2
            rw [hinp0] at hmem
            simp at hmem
          · exact Or.inr ⟨p, hp, hpv2⟩
      have hmq : m ∈ n :: rest := (hinv.qFrontier m).mpr ⟨h1, hmvis, h3b⟩
      rcases List.mem_cons.mp hmq with he | hm2
      · exact absurd he hmn
      · exact hm2
  · intro m hm
    rw [adjOf_setAdj]
    by_cases hmn : m = n
    · rw [if_pos ⟨hmn, by rw [hlenA]; exact hm⟩, if_neg (by rw [hmn]; exact hnrest)]
    · rw [if_neg (fun hc => hmn hc.1), hinv.adjPred m hm]
      by_cases hmr2 : m ∈ rest
      · rw [if_pos (List.mem_cons_of_mem n hmr2), if_pos hmr2]
      · rw [if_neg (fun hc => (List.mem_cons.mp hc).elim hmn hmr2), if_neg hmr2]
  · intro m
    simp only [lookupA]
    by_cases hmn : n = m
    · rw [if_pos hmn]
      rw [if_pos ⟨by rw [← hmn]; exact List.mem_cons_self n vis, by rw [← hmn]; exact hinp0⟩]
      rw [hmn]
    · rw [if_neg hmn, hinv.outPred m]
      by_cases hc : m ∈ vis ∧ (nodeAt g0 m).inp = []
      · rw [if_pos hc, if_pos ⟨List.mem_cons_of_mem n hc.1, hc.2⟩]
      · rw [if_neg hc, if_neg (fun hc2 =>
          hc ⟨(List.mem_cons.mp hc2.1).resolve_left (fun he => hmn he.symm), hc2.2⟩)]

theorem revStep_bin {g0 : Arena} {r : ℕ} (ht : isTree g0 r)
    {n a b : ℕ} {rest vis : List ℕ} {out : List (ℕ × AdjExpr)} {gA : Arena}
    (hinv : RevInv g0 r ⟨n :: rest, vis, out, gA⟩)
    (hinp0 : (nodeAt g0 n).inp = [a, b]) {A0 A1 : AdjExpr}
    (hA : opAdjoint (nodeAt g0 n).op (nodeAt g0 n).inp (accOf g0 r n) = .ok [A0, A1]) :
    RevInv g0 r ⟨rest ++ [a, b], n :: vis, out,
      setAdj (propagate gA [a, b] [A0, A1]) n none⟩ := by
  obtain ⟨hnlen, hnvis, hnfr⟩ := (hinv.qFrontier n).mp (List.mem_cons_self n rest)
  have hqnd := hinv.qNodup
  have hnrest : n ∉ rest := (List.nodup_cons.mp hqnd).1
  have hrestnd : rest.Nodup := (List.nodup_cons.mp hqnd).2
  have hlenA : gA.length = g0.length := hinv.lenEq
  have hamem : a ∈ (nodeAt g0 n).inp := by rw [hinp0]; simp
  have hbmem : b ∈ (nodeAt g0 n).inp := by rw [hinp0]; simp
  have haln : a < n := ht.2.1 n hnlen a hamem
  have hbln : b < n := ht.2.1 n hnlen b hbmem
  have halen : a < g0.length := lt_trans haln hnlen
  have hblen : b < g0.length := lt_trans hbln hnlen
  have hab : a ≠ b := by
    intro he
    have hc := tree_count_le_one (m := b) ht hnlen
    rw [hinp0, he] at hc
    simp at hc
  obtain ⟨havis, haq⟩ := child_unqueued ht hinv hnvis hnlen hamem
  obtain ⟨hbvis, hbq⟩ := child_unqueued ht hinv hnvis hnlen hbmem
  have haadj : adjOf gA a = none := by
    rw [hinv.adjPred a halen, if_neg haq]
  have hbadj : adjOf gA b = none := by
    rw [hinv.adjPred b hblen, if_neg hbq]
  have hg2 : propagate gA [a, b] [A0, A1] =
      setAdj (setAdj gA a (some (.aadd .zero A0))) b (some (.aadd .zero A1)) := by
    simp only [propagate]
    rw [haadj]
    dsimp only
    rw [adjOf_setAdj, if_neg (fun hc => hab hc.1.symm), hbadj]
  have hacc_a : accOf g0 r a = .aadd .zero A0 := by
    rw [accOf_child ht hnlen hamem]
    unfold accContrib
    rw [hA]
    dsimp only
    rw [hinp0, List.indexOf_cons_self]
    simp only [List.getD, List.get?, Option.getD]
  have hacc_b : accOf g0 r b = .aadd .zero A1 := by
    rw [accOf_child ht hnlen hbmem]
    unfold accContrib
    rw [hA]
    dsimp only
    rw [hinp0, List.indexOf_cons_ne _ hab, List.indexOf_cons_self]
    simp only [List.getD, List.get?, Option.getD]
  have hnq2 : n ∉ rest ++ [a, b] := by
    intro hc
    rcases List.mem_append.mp hc with hc1 | hc2
    · exact hnrest hc1
    · simp at hc2
      rcases hc2 with h | h <;> omega
  refine ⟨?_, ?_, ?_, ?_, ?_, ?_, ?_, ?_, ?_⟩
  · rw [length_setAdj, hg2, length_setAdj, length_setAdj]
    exact hlenA
  · intro m
    have hao := adjOnly_trans (adjOnly_propagate gA [a, b] [A0, A1])
      (adjOnly_setAdj (propagate gA [a, b] [A0, A1]) n none)
    have hs := hinv.shape m
    exact ⟨((hao.2 m).1).trans hs.1, ((hao.2 m).2.1).trans hs.2.1,
      ((hao.2 m).2.2.1).trans hs.2.2.1, ((hao.2 m).2.2.2).trans hs.2.2.2⟩
  · exact List.nodup_cons.mpr ⟨hnvis, hinv.visNodup⟩
  · intro m hm
    rcases List.mem_cons.mp hm with rfl | hm2
    · exact hnlen
    · exact hinv.visSub m hm2
  · intro m hm
    rcases List.mem_cons.mp hm with rfl | hm2
    · exact hnfr.imp id (fun h => by
        obtain ⟨p, hp, hpv⟩ := h
        exact ⟨p, hp, List.mem_cons_of_mem _ hpv⟩)
    · exact (hinv.visClosed m hm2).imp id (fun h => by
        obtain ⟨p, hp, hpv⟩ := h
        exact ⟨p, hp, List.mem_cons_of_mem _ hpv⟩)
  · refine List.nodup_append.mpr ⟨hrestnd, by simp [hab], ?_⟩
    intro x hx hx2
    simp at hx2
    rcases hx2 with rfl | rfl
    · exact haq (List.mem_cons_of_mem n hx)
    · exact hbq (List.mem_cons_of_mem n hx)
  · intro m
    constructor
    · intro hm
      rcases List.mem_append.mp hm with hm1 | hm2
      · have hmq : m ∈ n :: rest := List.mem_cons_of_mem n hm1
        obtain ⟨h1, h2, h3⟩ := (hinv.qFrontier m).mp hmq
        have hmn : m ≠ n := fun he => hnrest (he ▸ hm1)
        refine ⟨h1, ?_, h3.imp id (fun h => by
          obtain ⟨p, hp, hpv⟩ := h
          exact ⟨p, hp, List.mem_cons_of_mem _ hpv⟩)⟩
        intro hmv
        rcases List.mem_cons.mp hmv with he | hm3
        · exact hmn he
        · exact h2 hm3
      · simp at hm2
        rcases hm2 with rfl | rfl
        · refine ⟨halen, ?_, Or.inr ⟨n, parentOf_child ht hnlen hamem,
            List.mem_cons_self n vis⟩⟩
          intro hc
          rcases List.mem_cons.mp hc with he | hc2
          · omega
          · exact havis hc2
        · refine ⟨hblen, ?_, Or.inr ⟨n, parentOf_child ht hnlen hbmem,
            List.mem_cons_self n vis⟩⟩
          intro hc
          rcases List.mem_cons.mp hc with he | hc2
          · omega
          · exact hbvis hc2
    · rintro ⟨h1, h2, h3⟩
      have hmvis : m ∉ vis := fun hc => h2 (List.mem_cons_of_mem n hc)
      have hmn : m ≠ n := fun he => h2 (he ▸ List.mem_cons_self n vis)
      rcases h3 with he | ⟨p, hp, hpv⟩
      · have hmq : m ∈ n :: rest :=
          (hinv.qFrontier m).mpr ⟨h1, hmvis, Or.inl he⟩
        rcases List.mem_cons.mp hmq with he2 | hm2
        · exact absurd he2 hmn
        · exact List.mem_append_left _ hm2
      · rcases List.mem_cons.mp hpv with rfl | hpv2
        · refine List.mem_append_right _ ?_
          have hmem := (parentOf_spec hp).2
          rw [hinp0] at hmem
          exact hmem
        · have hmq : m ∈ n :: rest :=
            (hinv.qFrontier m).mpr ⟨h1, hmvis, Or.inr ⟨p, hp, hpv2⟩⟩
          rcases List.mem_cons.mp hmq with he2 | hm2
          · exact absurd he2 hmn
          · exact List.mem_append_left _ hm2
  · intro m hm
    rw [hg2, adjOf_setAdj]
    by_cases hmn : m = n
    · rw [if_pos ⟨hmn, by rw [length_setAdj, length_setAdj, hlenA]; exact hm⟩,
        if_neg (by rw [hmn]; exact hnq2)]
    · rw [if_neg (fun hc => hmn hc.1), adjOf_setAdj]
      by_cases hmb : m = b
      · rw [if_pos ⟨hmb, by rw [length_setAdj, hlenA]; exact hm⟩,
          if_pos (by rw [hmb]; exact List.mem_append_right rest (by simp)),
          hmb, hacc_b]
      · rw [if_neg (fun hc => hmb hc.1), adjOf_setAdj]
        by_cases hma : m = a
        · rw [if_pos ⟨hma, by rw [hlenA]; exact hm⟩,
            if_pos (by rw [hma]; exact List.mem_append_right rest (by simp)),
            hma, hacc_a]
        · rw [if_neg (fun hc => hma hc.1), hinv.adjPred m hm]
          by_cases hmr2 : m ∈ rest
          · rw [if_pos (List.mem_cons_of_mem n hmr2),
              if_pos (List.mem_append_left _ hmr2)]
          · rw [if_neg (fun hc => (List.mem_cons.mp hc).elim hmn hmr2),
              if_neg (fun hc => (List.mem_append.mp hc).elim hmr2
                (fun hc2 => by
                  simp at hc2
                  rcases hc2 with h | h
                  · exact hma h
                  · exact hmb h))]
  · intro m
    rw [hinv.outPred m]
    by_cases hmn : m = n
    · rw [if_neg (fun hc => hnvis (hmn ▸ hc.1)),
        if_neg (fun hc => List.cons_ne_nil a [b] (hinp0 ▸ hmn ▸ hc.2))]
    · by_cases hc : m ∈ vis ∧ (nodeAt g0 m).inp = []
      · rw [if_pos hc, if_pos ⟨List.mem_cons_of_mem n hc.1, hc.2⟩]
      · rw [if_neg hc, if_neg (fun hc2 =>
          hc ⟨(List.mem_cons.mp hc2.1).resolve_left hmn, hc2.2⟩)]

theorem revInit {g0 : Arena} {r : ℕ} (ht : isTree g0 r) (hadj : adjClean g0) :
    RevInv g0 r ⟨[r], [], [], setAdj g0 r (some .one)⟩ := by
  refine ⟨?_, ?_, ?_, ?_, ?_, ?_, ?_, ?_, ?_⟩
  · rw [length_setAdj]
  · intro m
    have hao := adjOnly_setAdj g0 r (some .one)
    exact ⟨(hao.2 m).1, (hao.2 m).2.1, (hao.2 m).2.2.1, (hao.2 m).2.2.2⟩
  · exact List.nodup_nil
  · intro m hm
    simp at hm
  · intro m hm
    simp at hm
  · simp
  · intro m
    constructor
    · intro hm
      simp at hm
      subst hm
      exact ⟨ht.1, by simp, Or.inl rfl⟩
    · rintro ⟨h1, h2, h3⟩
      rcases h3 with rfl | ⟨p, hp, hpv⟩
      · simp
      · simp at hpv
  · intro m hm
    rw [adjOf_setAdj]
    by_cases hmr : m = r
    · rw [if_pos ⟨hmr, hm⟩, if_pos (by simp [hmr]), hmr, accOf_root]
    · rw [if_neg (fun hc => hmr hc.1), if_neg (by simp [hmr]),
        adjOf_nodeAt hm, hadj m hm]
  · intro m
    simp only [lookupA]
    rw [if_neg (fun hc => List.not_mem_nil m hc.1)]

theorem revLoop_inv {g0 : Arena} {r : ℕ} (ht : isTree g0 r) (ham : amArena g0) :
    ∀ fuel st, RevInv g0 r st →
      st.q.length + 2 * (g0.length - st.vis.length) ≤ fuel →
      ∃ stf : RevSt, revLoop fuel st = .ok (stf.out, stf.g) ∧
        RevInv g0 r stf ∧ stf.q = [] := by
  intro fuel
  induction fuel with
  | zero =>
    intro st hinv hb
    have hq : st.q = [] := List.length_eq_zero.mp (by omega)
    refine ⟨st, ?_, hinv, hq⟩
    simp only [revLoop]
    rw [hq]
  | succ fuel ih =>
    intro st hinv hb
    obtain ⟨q, vis, out, gA⟩ := st
    cases q with
    | nil =>
      exact ⟨⟨[], vis, out, gA⟩, by simp only [revLoop], hinv, rfl⟩
    | cons n rest =>
      obtain ⟨hnlen, hnvis, hnfr⟩ := (hinv.qFrontier n).mp (List.mem_cons_self n rest)
      have hlenA : gA.length = g0.length := hinv.lenEq
      have hadjn : adjOf gA n = some (accOf g0 r n) := by
        rw [hinv.adjPred n hnlen, if_pos (List.mem_cons_self n rest)]
      have hvislt : vis.length < g0.length :=
        length_lt_of_nodup hinv.visNodup hinv.visSub hnlen hnvis
      have hb2 : rest.length + 1 + 2 * (g0.length - vis.length) ≤ fuel + 1 := by
        simpa using hb
      simp only [revLoop]
      rw [contains_false hnvis, if_neg (by simp), hadjn]
      simp only [Option.isNone_some, Bool.false_eq_true, if_false]
      rw [get?_lt (show n < gA.length from hlenA ▸ hnlen)]
      dsimp only
      rw [hadjn]
      dsimp only
      rw [(hinv.shape n).1, (hinv.shape n).2.1]
      rcases ham n hnlen with ⟨hop0, hinp0, _⟩ | ⟨hop0, hlen2⟩ | ⟨hop0, hlen2⟩
      · -- Leaf
        rw [hop0, hinp0]
        simp only [opAdjoint]
        try dsimp only
        rw [if_neg (by simp)]
        simp only [propagate, List.isEmpty]
        rw [hadjn]
        dsimp only
        rw [List.append_nil]
        exact ih ⟨rest, n :: vis, (n, accOf g0 r n) :: out, setAdj gA n none⟩
          (revStep_leaf ht hinv hinp0) (by simp; omega)
      · -- Add
        obtain ⟨a, b, hinp0⟩ := list_len2 hlen2
        rw [hop0, hinp0]
        simp only [opAdjoint]
        try dsimp only
        rw [if_neg (by simp)]
        simp only [List.isEmpty]
        exact ih ⟨rest ++ [a, b], n :: vis, out,
            setAdj (propagate gA [a, b] [accOf g0 r n, accOf g0 r n]) n none⟩
          (revStep_bin ht hinv hinp0 (by rw [hop0, hinp0]; rfl))
          (by simp [List.length_append]; omega)
      · -- Mul
        obtain ⟨a, b, hinp0⟩ := list_len2 hlen2
        rw [hop0, hinp0]
        simp only [opAdjoint]
        try dsimp only
        rw [if_neg (by simp)]
        simp only [List.isEmpty]
        exact ih ⟨rest ++ [a, b], n :: vis, out,
            setAdj (propagate gA [a, b]
              [.amul (.ref b) (accOf g0 r n), .amul (.ref a) (accOf g0 r n)]) n none⟩
          (revStep_bin ht hinv hinp0 (by rw [hop0, hinp0]; rfl))
          (by simp [List.length_append]; omega)

theorem revFinal_visited {g0 : Arena} {r : ℕ} (ht : isTree g0 r) {stf : RevSt}
    (hinv : RevInv g0 r stf) (hq : stf.q = []) :
    ∀ m, m < g0.length → m ∈ stf.vis := by
  suffices h : ∀ d m, g0.length - m ≤ d → m < g0.length → m ∈ stf.vis by
    intro m hm
    exact h g0.length m (by omega) hm
  intro d
  induction d with
  | zero =>
    intro m h1 h2
    omega
  | succ d ihd =>
    intro m h1 hm
    by_contra hmv
    by_cases hmr : m = r
    · have hcontra : m ∈ stf.q := (hinv.qFrontier m).mpr ⟨hm, hmv, Or.inl hmr⟩
      rw [hq] at hcontra
      simp at hcontra
    · obtain ⟨p, hpar, hplen, hpm⟩ := tree_parentOf ht hm hmr
      have hmp : m < p := ht.2.1 p hplen m hpm
      have hpv : p ∈ stf.vis := ihd p (by omega) hplen
      have hcontra : m ∈ stf.q := (hinv.qFrontier m).mpr ⟨hm, hmv, Or.inr ⟨p, hpar, hpv⟩⟩
      rw [hq] at hcontra
      simp at hcontra

/-- C1 (amended): on a tree-shaped `Add`/`Mul`/`Leaf` expression with a
single active leaf `x`, `rev()` from the root `r` terminates, its collected
map holds an adjoint expression for `x`, and evaluating that expression (the
`apply_rev` path) yields exactly the closed-form partial derivative
`∂(expr at r)/∂x` at the stored leaf values — the same value the forward
path (`fwd` then `apply_fwd`) computes.  (On DAGs with shared nodes the
original claim fails, see the counterexample.) -/
theorem C1_amended (ff : FloatFns) (g : Arena) (r x : ℕ)
    (ham : amArena g) (ht : isTree g r) (hadj : adjClean g)
    (hx : x < g.length) (hxop : (nodeAt g x).op = .leaf)
    (hact : onlyActive g x) :
    ∃ out g1, revA (2 * g.length + 1) g r = .ok (out, g1) ∧
      (∃ acc g2, lookupA out x = some acc ∧
        evalAdj ff g.length g1 acc = .ok (.F (aderivQ (r + 1) g x r), g2)) ∧
      (∃ i gf2 gf3, fwdA (r + 1) g r = .ok (i, gf2) ∧
        applyFwd ff (i + 1) gf2 i = .ok (.F (aderivQ (r + 1) g x r), gf3)) := by
  have hinit := revInit ht hadj
  obtain ⟨stf, hrun, hinv, hq⟩ := revLoop_inv ht ham (2 * g.length + 1)
    ⟨[r], [], [], setAdj g r (some .one)⟩ hinit (by simp; omega)
  have hxvis : x ∈ stf.vis := revFinal_visited ht hinv hq x hx
  have hxinp : (nodeAt g x).inp = [] := by
    rcases ham x hx with ⟨_, hi, _⟩ | ⟨ho, _⟩ | ⟨ho, _⟩
    · exact hi
    · exact Op.noConfusion (hxop ▸ ho)
    · exact Op.noConfusion (hxop ▸ ho)
  have hlook : lookupA stf.out x = some (accOf g r x) := by
    rw [hinv.outPred x, if_pos ⟨hxvis, hxinp⟩]
  have hgoodg : goodEval g := goodEval_of_am ht.2.1 ham
  have hagree : evalAgree g stf.g :=
    ⟨⟨hinv.lenEq.symm, fun n => ⟨((hinv.shape n).1).symm, ((hinv.shape n).2.1).symm,
      ((hinv.shape n).2.2.2).symm⟩⟩, fun n _ => ((hinv.shape n).2.2.1).symm⟩
  have hamadj : amAdj g.length (accOf g r x) := accAux_am ht ham (g.length + 1) x
  obtain ⟨g2, heval, _⟩ :=
    evalAdj_pure ff hgoodg (le_refl g.length) (accOf g r x) hamadj stf.g hagree
  have hval : qAdjVal g.length g (accOf g r x) = aderivQ (r + 1) g x r := by
    unfold accOf
    rw [accAux_val ht ham (g.length + 1) x hx (by omega),
      aderivQ_fuel ht.2.1 x r ht.1 g.length (r + 1) ht.1 (by omega)]
  obtain ⟨i, gf2, Δ2, hfwd, _, hgoodf, hilen, hfval⟩ :=
    fwdA_am g x ht.2.1 ham hact hxop r ht.1 (r + 1) (by omega) g hgoodg ⟨[], by simp⟩
  obtain ⟨gf3, happ⟩ := applyFwd_pure ff (i + 1) gf2 i hgoodf hilen (by omega)
  refine ⟨stf.out, stf.g, by unfold revA; exact hrun,
    ⟨accOf g r x, g2, hlook, by rw [heval, hval]⟩,
    ⟨i, gf2, gf3, hfwd, by rw [happ, hfval]⟩⟩

/-- Witness for C1 (amended) on the concrete tree `Add(Mul(x, x0), y)` with
`x = 5` the active leaf, `x0 = 2`, `y = 7`. -/
theorem C1_amended_witness :
    ∃ out g1, revA (2 * gW6.length + 1) gW6 4 = .ok (out, g1) ∧
      (∃ acc g2, lookupA out 0 = some acc ∧
        evalAdj ffZero gW6.length g1 acc = .ok (.F (aderivQ 5 gW6 0 4), g2)) ∧
      (∃ i gf2 gf3, fwdA 5 gW6 4 = .ok (i, gf2) ∧
        applyFwd ffZero (i + 1) gf2 i = .ok (.F (aderivQ 5 gW6 0 4), gf3)) :=
  C1_amended ffZero gW6 4 0 (by unfold amArena amNode; decide)
    (by unfold isTree wfIdx; decide) (by unfold adjClean; decide)
    (by decide) (by decide) (by unfold onlyActive; decide)

/-- C6 (counterexample): on the DAG `Add(x, Mul(x, x))` with the leaf shared
between two parents, `rev()` terminates but leaves a stale non-`None`
adjoint accumulator on the leaf: the leaf was popped and collected before
its second parent propagated into it, and the skip-if-visited check keeps
the later accumulation from ever being cleared or collected. -/
theorem C6_counterexample :
    ∃ out g1, revA 7 gDag 2 = .ok (out, g1) ∧ adjOf g1 0 ≠ none := by
  refine ⟨[(0, .aadd .zero .one)],
    [⟨.leaf, [], some (.F 2), true,
      some (.aadd (.aadd .zero (.amul (.ref 0) (.aadd .zero .one)))
        (.amul (.ref 0) (.aadd .zero .one)))⟩,
     ⟨.mul, [0, 0], none, false, none⟩,
     ⟨.add, [0, 1], none, false, none⟩], ?_, ?_⟩
  · rfl
  · intro h
    exact Option.noConfusion h

/-- C1 (counterexample): on the DAG `Add(x, Mul(x, x))` at `x = 2` the
closed-form derivative is `1 + 2x = 5`, but the adjoint collected for `x`
by `rev()` evaluates to `1`: the leaf is popped (and its accumulator moved
out) after only the first parent's contribution arrived, and the `Mul`
parent's contributions are dropped by the skip-if-visited check. -/
theorem C1_counterexample :
    ∃ out g1 acc v g2, revA 7 gDag 2 = .ok (out, g1) ∧
      lookupA out 0 = some acc ∧
      evalAdj ffZero 3 g1 acc = .ok (v, g2) ∧
      v ≠ .F (aderivQ 3 gDag 0 2) := by
  refine ⟨[(0, .aadd .zero .one)],
    [⟨.leaf, [], some (.F 2), true,
      some (.aadd (.aadd .zero (.amul (.ref 0) (.aadd .zero .one)))
        (.amul (.ref 0) (.aadd .zero .one)))⟩,
     ⟨.mul, [0, 0], none, false, none⟩,
     ⟨.add, [0, 1], none, false, none⟩],
    .aadd .zero .one, .F 1,
    [⟨.leaf, [], some (.F 2), true,
      some (.aadd (.aadd .zero (.amul (.ref 0) (.aadd .zero .one)))
        (.amul (.ref 0) (.aadd .zero .one)))⟩,
     ⟨.mul, [0, 0], none, false, none⟩,
     ⟨.add, [0, 1], none, false, none⟩], ?_, rfl, ?_, ?_⟩
  · rfl
  · norm_num [evalAdj, opF, Except.map]
  · norm_num [aderivQ, aevalQ, gDag, nodeAt, toF32, ne_eq]

theorem tree_inp_nodup {g : Arena} {r : ℕ} (ht : isTree g r) {n : ℕ}
    (hn : n < g.length) : (nodeAt g n).inp.Nodup := by
  rw [List.nodup_iff_count_le_one]
  intro a
  exact tree_count_le_one ht hn

theorem opAdjoint_ok {nd : Node} (har : arityNode nd) (acc : AdjExpr) :
    ∃ adjs, opAdjoint nd.op nd.inp acc = .ok adjs ∧
      adjs.length = nd.inp.length := by
  obtain ⟨h0, h2, h1⟩ := har
  cases hop : nd.op
  case leaf =>
    rw [h0 (Or.inl hop)]
    exact ⟨[], rfl, rfl⟩
  case const =>
    rw [h0 (Or.inr (Or.inl hop))]
    exact ⟨[], rfl, rfl⟩
  case one =>
    rw [h0 (Or.inr (Or.inr (Or.inl hop)))]
    exact ⟨[], rfl, rfl⟩
  case zero =>
    rw [h0 (Or.inr (Or.inr (Or.inr hop)))]
    exact ⟨[], rfl, rfl⟩
  case link =>
    exact ⟨nd.inp.map (fun _ => AdjExpr.zero), rfl, by simp⟩
  case add =>
    obtain ⟨a, b, he⟩ := list_len2 (h2 (Or.inl hop))
    rw [he]
    exact ⟨[acc, acc], rfl, rfl⟩
  case mul =>
    obtain ⟨a, b, he⟩ := list_len2 (h2 (Or.inr (Or.inl hop)))
    rw [he]
    exact ⟨[.amul (.ref b) acc, .amul (.ref a) acc], rfl, rfl⟩
  case div =>
    obtain ⟨a, b, he⟩ := list_len2 (h2 (Or.inr (Or.inr (Or.inl hop))))
    rw [he]
    exact ⟨_, rfl, rfl⟩
  case pow =>
    obtain ⟨a, b, he⟩ := list_len2 (h2 (Or.inr (Or.inr (Or.inr hop))))
    rw [he]
    exact ⟨_, rfl, rfl⟩
  case sin =>
    obtain ⟨a, he⟩ := list_len1 (h1 (Or.inl hop))
    rw [he]
    exact ⟨_, rfl, rfl⟩
  case cos =>
    obtain ⟨a, he⟩ := list_len1 (h1 (Or.inr (Or.inl hop)))
    rw [he]
    exact ⟨_, rfl, rfl⟩
  case tan =>
    obtain ⟨a, he⟩ := list_len1 (h1 (Or.inr (Or.inr (Or.inl hop))))
    rw [he]
    exact ⟨_, rfl, rfl⟩
  case exp =>
    obtain ⟨a, he⟩ := list_len1 (h1 (Or.inr (Or.inr (Or.inr (Or.inl hop)))))
    rw [he]
    exact ⟨_, rfl, rfl⟩
  case ln =>
    obtain ⟨a, he⟩ := list_len1 (h1 (Or.inr (Or.inr (Or.inr (Or.inr hop)))))
    rw [he]
    exact ⟨_, rfl, rfl⟩

theorem propagate_adjOf :
    ∀ (is_ : List ℕ) (adjs : List AdjExpr) (gA : Arena), is_.Nodup →
      adjs.length = is_.length → (∀ i ∈ is_, adjOf gA i = none) →
      (∀ i ∈ is_, i < gA.length) → ∀ m,
      adjOf (propagate gA is_ adjs) m =
        if m ∈ is_ then some (.aadd .zero (adjs.getD (is_.indexOf m) .zero))
        else adjOf gA m := by
  intro is_
  induction is_ with
  | nil =>
    intro adjs gA _ _ _ _ m
    simp only [propagate]
    rw [if_neg (List.not_mem_nil m)]
  | cons c cs ih =>
    intro adjs gA hnd hlen hnone hlt m
    obtain ⟨a, as, rfl⟩ : ∃ a as, adjs = a :: as := by
      cases adjs with
      | nil => simp at hlen
      | cons a as => exact ⟨a, as, rfl⟩
    simp only [propagate]
    rw [hnone c (by simp)]
    dsimp only
    have hcn : c ∉ cs := (List.nodup_cons.mp hnd).1
    have ihm := ih as (setAdj gA c (some (.aadd .zero a))) (List.nodup_cons.mp hnd).2
      (by simpa using hlen)
      (fun i hi => by
        rw [adjOf_setAdj,
          if_neg (fun (hc : i = c ∧ i < gA.length) => hcn (hc.1 ▸ hi))]
        exact hnone i (by simp [hi]))
      (fun i hi => by
        rw [length_setAdj]
        exact hlt i (by simp [hi])) m
    rw [ihm]
    by_cases hmcs : m ∈ cs
    · rw [if_pos hmcs, if_pos (by simp [hmcs])]
      have hmc : m ≠ c := fun he => hcn (he ▸ hmcs)
      rw [List.indexOf_cons_ne _ (fun he => hmc he.symm)]
      simp [List.getD]
    · rw [if_neg hmcs, adjOf_setAdj]
      by_cases hmc : m = c
      · rw [if_pos ⟨hmc, by rw [hmc]; exact hlt c (by simp)⟩, if_pos (by simp [hmc]),
          hmc, List.indexOf_cons_self]
        simp [List.getD]
      · rw [if_neg (fun hc => hmc hc.1), if_neg (by simp [hmc, hmcs])]

theorem revStep_gen {g0 : Arena} {r : ℕ} (ht : isTree g0 r)
    {n : ℕ} {rest vis : List ℕ} {out : List (ℕ × AdjExpr)} {gA : Arena}
    (hinv : RevInv g0 r ⟨n :: rest, vis, out, gA⟩)
    {adjs : List AdjExpr}
    (hA : opAdjoint (nodeAt g0 n).op (nodeAt g0 n).inp (accOf g0 r n) = .ok adjs)
    (hlen : adjs.length = (nodeAt g0 n).inp.length)
    (hne : (nodeAt g0 n).inp ≠ []) :
    RevInv g0 r ⟨rest ++ (nodeAt g0 n).inp, n :: vis, out,
      setAdj (propagate gA (nodeAt g0 n).inp adjs) n none⟩ := by
  obtain ⟨hnlen, hnvis, hnfr⟩ := (hinv.qFrontier n).mp (List.mem_cons_self n rest)
  have hqnd := hinv.qNodup
  have hnrest : n ∉ rest := (List.nodup_cons.mp hqnd).1
  have hrestnd : rest.Nodup := (List.nodup_cons.mp hqnd).2
  have hlenA : gA.length = g0.length := hinv.lenEq
  have hnodup2 : (nodeAt g0 n).inp.Nodup := tree_inp_nodup ht hnlen
  have hcl : ∀ c ∈ (nodeAt g0 n).inp, c < n := fun c hc => ht.2.1 n hnlen c hc
  have hclen : ∀ c ∈ (nodeAt g0 n).inp, c < g0.length :=
    fun c hc => lt_trans (hcl c hc) hnlen
  have hcvis : ∀ c ∈ (nodeAt g0 n).inp, c ∉ vis :=
    fun c hc => (child_unqueued ht hinv hnvis hnlen hc).1
  have hcq : ∀ c ∈ (nodeAt g0 n).inp, c ∉ (n :: rest : List ℕ) :=
    fun c hc => (child_unqueued ht hinv hnvis hnlen hc).2
  have hcadj : ∀ c ∈ (nodeAt g0 n).inp, adjOf gA c = none :=
    fun c hc => by rw [hinv.adjPred c (hclen c hc), if_neg (hcq c hc)]
  have hprop := propagate_adjOf (nodeAt g0 n).inp adjs gA hnodup2 hlen hcadj
    (fun c hc => by rw [hlenA]; exact hclen c hc)
  have hacc : ∀ c ∈ (nodeAt g0 n).inp, accOf g0 r c =
      .aadd .zero (adjs.getD ((nodeAt g0 n).inp.indexOf c) .zero) := by
    intro c hc
    rw [accOf_child ht hnlen hc]
    unfold accContrib
    rw [hA]
  have hplen : (propagate gA (nodeAt g0 n).inp adjs).length = gA.length :=
    (adjOnly_propagate gA _ adjs).1
  have hnq2 : n ∉ rest ++ (nodeAt g0 n).inp := by
    intro hc
    rcases List.mem_append.mp hc with hc1 | hc2
    · exact hnrest hc1
    · exact absurd (hcl n hc2) (lt_irrefl n)
  refine ⟨?_, ?_, ?_, ?_, ?_, ?_, ?_, ?_, ?_⟩
  · rw [length_setAdj, hplen]
    exact hlenA
  · intro m
    have hao := adjOnly_trans (adjOnly_propagate gA (nodeAt g0 n).inp adjs)
      (adjOnly_setAdj (propagate gA (nodeAt g0 n).inp adjs) n none)
    have hs := hinv.shape m
    exact ⟨((hao.2 m).1).trans hs.1, ((hao.2 m).2.1).trans hs.2.1,
      ((hao.2 m).2.2.1).trans hs.2.2.1, ((hao.2 m).2.2.2).trans hs.2.2.2⟩
  · exact List.nodup_cons.mpr ⟨hnvis, hinv.visNodup⟩
  · intro m hm
    rcases List.mem_cons.mp hm with rfl | hm2
    · exact hnlen
    · exact hinv.visSub m hm2
  · intro m hm
    rcases List.mem_cons.mp hm with rfl | hm2
    · exact hnfr.imp id (fun h => by
        obtain ⟨p, hp, hpv⟩ := h
        exact ⟨p, hp, List.mem_cons_of_mem _ hpv⟩)
    · exact (hinv.visClosed m hm2).imp id (fun h => by
        obtain ⟨p, hp, hpv⟩ := h
        exact ⟨p, hp, List.mem_cons_of_mem _ hpv⟩)
  · refine List.nodup_append.mpr ⟨hrestnd, hnodup2, ?_⟩
    intro x hx hx2
    exact hcq x hx2 (List.mem_cons_of_mem n hx)
  · intro m
    constructor
    · intro hm
      rcases List.mem_append.mp hm with hm1 | hm2
      · have hmq : m ∈ n :: rest := List.mem_cons_of_mem n hm1
        obtain ⟨h1, h2, h3⟩ := (hinv.qFrontier m).mp hmq
        have hmn : m ≠ n := fun he => hnrest (he ▸ hm1)
        refine ⟨h1, ?_, h3.imp id (fun h => by
          obtain ⟨p, hp, hpv⟩ := h
          exact ⟨p, hp, List.mem_cons_of_mem _ hpv⟩)⟩
        intro hmv
        rcases List.mem_cons.mp hmv with he | hm3
        · exact hmn he
        · exact h2 hm3
      · refine ⟨hclen m hm2, ?_, Or.inr ⟨n, parentOf_child ht hnlen hm2,
          List.mem_cons_self n vis⟩⟩
        intro hc
        rcases List.mem_cons.mp hc with he | hc2
        · have := hcl m hm2
          omega
        · exact hcvis m hm2 hc2
    · rintro ⟨h1, h2, h3⟩
      have hmvis : m ∉ vis := fun hc => h2 (List.mem_cons_of_mem n hc)
      have hmn : m ≠ n := fun he => h2 (he ▸ List.mem_cons_self n vis)
      rcases h3 with he | ⟨p, hp, hpv⟩
      · have hmq : m ∈ n :: rest :=
          (hinv.qFrontier m).mpr ⟨h1, hmvis, Or.inl he⟩
        rcases List.mem_cons.mp hmq with he2 | hm2
        · exact absurd he2 hmn
        · exact List.mem_append_left _ hm2
      · rcases List.mem_cons.mp hpv with rfl | hpv2
        · exact List.mem_append_right _ ((parentOf_spec hp).2)
        · have hmq : m ∈ n :: rest :=
            (hinv.qFrontier m).mpr ⟨h1, hmvis, Or.inr ⟨p, hp, hpv2⟩⟩
          rcases List.mem_cons.mp hmq with he2 | hm2
          · exact absurd he2 hmn
          · exact List.mem_append_left _ hm2
  · intro m hm
    rw [adjOf_setAdj]
    by_cases hmn : m = n
    · rw [if_pos ⟨hmn, by rw [hplen, hlenA]; exact hm⟩,
        if_neg (by rw [hmn]; exact hnq2)]
    · rw [if_neg (fun hc => hmn hc.1), hprop m]
      by_cases hmis : m ∈ (nodeAt g0 n).inp
      · rw [if_pos hmis, if_pos (List.mem_append_right _ hmis), hacc m hmis]
      · rw [if_neg hmis, hinv.adjPred m hm]
        by_cases hmr2 : m ∈ rest
        · rw [if_pos (List.mem_cons_of_mem n hmr2),
            if_pos (List.mem_append_left _ hmr2)]
        · rw [if_neg (fun hc => (List.mem_cons.mp hc).elim hmn hmr2),
            if_neg (fun hc => (List.mem_append.mp hc).elim hmr2 hmis)]
  · intro m
    rw [hinv.outPred m]
    by_cases hmn : m = n
    · rw [if_neg (fun hc => hnvis (hmn ▸ hc.1)),
        if_neg (fun hc => hne (hmn ▸ hc.2))]
    · by_cases hc : m ∈ vis ∧ (nodeAt g0 m).inp = []
      · rw [if_pos hc, if_pos ⟨List.mem_cons_of_mem n hc.1, hc.2⟩]
      · rw [if_neg hc, if_neg (fun hc2 =>
          hc ⟨(List.mem_cons.mp hc2.1).resolve_left hmn, hc2.2⟩)]

theorem unvis_sum_step {L : ℕ} {vis : List ℕ} {n : ℕ} (f : ℕ → ℕ)
    (hn : n ∈ Finset.range L \ vis.toFinset) :
    (∑ m in Finset.range L \ (n :: vis).toFinset, f m) + f n
      = ∑ m in Finset.range L \ vis.toFinset, f m := by
  classical
  have hset : Finset.range L \ insert n vis.toFinset
      = (Finset.range L \ vis.toFinset).erase n := by
    ext x
    simp only [Finset.mem_sdiff, Finset.mem_erase, Finset.mem_insert,
      Finset.mem_range]
    tauto
  rw [List.toFinset_cons, hset]
  exact Finset.sum_erase_add _ f hn

theorem revLoopGen_inv {g0 : Arena} {r : ℕ} (ht : isTree g0 r) (har : arityOk g0) :
    ∀ fuel st, RevInv g0 r st →
      st.q.length + (∑ m in Finset.range g0.length \ st.vis.toFinset,
        ((nodeAt g0 m).inp.length + 1)) ≤ fuel →
      ∃ stf : RevSt, revLoop fuel st = .ok (stf.out, stf.g) ∧
        RevInv g0 r stf ∧ stf.q = [] := by
  intro fuel
  induction fuel with
  | zero =>
    intro st hinv hb
    have hq : st.q = [] := List.length_eq_zero.mp (by omega)
    refine ⟨st, ?_, hinv, hq⟩
    simp only [revLoop]
    rw [hq]
  | succ fuel ih =>
    intro st hinv hb
    obtain ⟨q, vis, out, gA⟩ := st
    cases q with
    | nil =>
      exact ⟨⟨[], vis, out, gA⟩, by simp only [revLoop], hinv, rfl⟩
    | cons n rest =>
      obtain ⟨hnlen, hnvis, hnfr⟩ := (hinv.qFrontier n).mp (List.mem_cons_self n rest)
      have hlenA : gA.length = g0.length := hinv.lenEq
      have hadjn : adjOf gA n = some (accOf g0 r n) := by
        rw [hinv.adjPred n hnlen, if_pos (List.mem_cons_self n rest)]
      have hmem : n ∈ Finset.range g0.length \ vis.toFinset :=
        Finset.mem_sdiff.mpr ⟨Finset.mem_range.mpr hnlen,
          fun hc => hnvis (List.mem_toFinset.mp hc)⟩
      have hS : (∑ m in Finset.range g0.length \ (n :: vis).toFinset,
            ((nodeAt g0 m).inp.length + 1)) + ((nodeAt g0 n).inp.length + 1)
          = ∑ m in Finset.range g0.length \ vis.toFinset,
            ((nodeAt g0 m).inp.length + 1) :=
        unvis_sum_step (fun m => (nodeAt g0 m).inp.length + 1) hmem
      have hb2 : rest.length + 1 + (∑ m in Finset.range g0.length \ vis.toFinset,
          ((nodeAt g0 m).inp.length + 1)) ≤ fuel + 1 := by
        simpa using hb
      obtain ⟨adjs, hA, hlenadjs⟩ := opAdjoint_ok (har n hnlen) (accOf g0 r n)
      simp only [revLoop]
      rw [contains_false hnvis, if_neg (by simp), hadjn]
      simp only [Option.isNone_some, Bool.false_eq_true, if_false]
      rw [get?_lt (show n < gA.length from hlenA ▸ hnlen)]
      dsimp only
      rw [hadjn]
      dsimp only
      rw [(hinv.shape n).1, (hinv.shape n).2.1]
      rw [hA]
      dsimp only
      rw [if_neg (by rw [hlenadjs]; simp)]
      by_cases hE : (nodeAt g0 n).inp = []
      · rw [hE]
        simp only [propagate, List.isEmpty]
        rw [hadjn]
        dsimp only
        rw [List.append_nil]
        refine ih ⟨rest, n :: vis, (n, accOf g0 r n) :: out, setAdj gA n none⟩
          (revStep_leaf ht hinv hE)
          (show rest.length + (∑ m in Finset.range g0.length \ (n :: vis).toFinset,
            ((nodeAt g0 m).inp.length + 1)) ≤ fuel from ?_)
        have hfn : (nodeAt g0 n).inp.length = 0 := by rw [hE]; rfl
        omega
      · have hEb : (nodeAt g0 n).inp.isEmpty = false := by
          cases hinp2 : (nodeAt g0 n).inp with
          | nil => exact absurd hinp2 hE
          | cons c cs => rfl
        rw [hEb, if_neg (by simp)]
        refine ih ⟨rest ++ (nodeAt g0 n).inp, n :: vis, out,
            setAdj (propagate gA (nodeAt g0 n).inp adjs) n none⟩
          (revStep_gen ht hinv hA hlenadjs hE)
          (show (rest ++ (nodeAt g0 n).inp).length +
            (∑ m in Finset.range g0.length \ (n :: vis).toFinset,
              ((nodeAt g0 m).inp.length + 1)) ≤ fuel from ?_)
        rw [List.length_append]
        omega

/-- C6 (amended): after `rev()` returns on any tree-shaped expression graph
(no node referenced by more than one parent slot, every operator applied
with the arity its evaluation/adjoint rules assert) whose accumulators start
clean, every `adjoint_accumulator` in the arena is `None`: leaf accumulators
were moved out into the returned map and internal ones cleared.  (On DAGs
with shared nodes the claim fails, see the counterexample.) -/
theorem C6_amended (g : Arena) (r : ℕ) (ht : isTree g r) (har : arityOk g)
    (hadj : adjClean g) :
    ∃ out gf,
      revA (1 + ∑ m in Finset.range g.length, ((nodeAt g m).inp.length + 1)) g r
        = .ok (out, gf) ∧ ∀ m, adjOf gf m = none := by
  obtain ⟨stf, hrun, hinv, hq⟩ := revLoopGen_inv ht har
    (1 + ∑ m in Finset.range g.length, ((nodeAt g m).inp.length + 1))
    ⟨[r], [], [], setAdj g r (some .one)⟩ (revInit ht hadj) (by simp)
  refine ⟨stf.out, stf.g, ?_, ?_⟩
  · unfold revA
    exact hrun
  · intro m
    by_cases hm : m < g.length
    · rw [hinv.adjPred m hm, if_neg (by rw [hq]; simp)]
    · exact adjOf_ge (by rw [hinv.lenEq]; exact hm)

/-- Witness for C6 (amended) on the concrete tree `Sin(Mul(c, x))` — a
tree containing a transcendental operator beyond the `Add`/`Mul` fragment. -/
theorem C6_amended_witness :
    ∃ out gf,
      revA (1 + ∑ m in Finset.range gSin.length, ((nodeAt gSin m).inp.length + 1))
        gSin 3 = .ok (out, gf) ∧ ∀ m, adjOf gf m = none :=
  C6_amended gSin 3 (by unfold isTree wfIdx; decide)
    (by unfold arityOk arityNode; decide) (by unfold adjClean; decide)
